import Mathlib

/-!
Verification of the exact-arithmetic linear-algebra core of the Spaces
frontend: the `Fraction` rational type (`src/utils/fractionUtils.js`), the
`Matrix` type and RREF engine (`src/utils/rrefCalculator.js`), the subspace
extractor (`spaceCalculator.js`) and the input parsing/validation helpers
(`matrixUtils.js`, `matrixEngine.js`).

JavaScript numbers are embedded as exact integers/rationals (the code's
intent is exact arithmetic); fallible code paths (`throw`) are embedded as
`Except`-valued functions alongside the total versions.
-/

namespace Spaces

/-! ## The `Fraction` class (`src/utils/fractionUtils.js`)

A fraction is stored as a numerator and a denominator
(`this.numerator`, `this.denominator`). -/

structure Frac where
  num : Int
  den : Int
deriving Repr, DecidableEq

/-- The normalization performed by the `Fraction` constructor
(fractionUtils.js lines 10-24), for a nonzero denominator: move the sign to
the numerator, then divide both parts by `gcd(|num|, |den|)`.  The JS
constructor throws on a zero denominator; `normFrac 0 0` and its ilk are
junk values that the checked constructor `mkFracE` never produces. -/
def normFrac (n d : Int) : Frac :=
  let n1 := if d < 0 then -n else n
  let d1 := if d < 0 then -d else d
  let g : Int := Int.gcd n1 d1
  ⟨n1 / g, d1 / g⟩

/-- The `Fraction` constructor with its `denominator === 0` guard
(fractionUtils.js line 11). -/
def mkFracE (n d : Int) : Except String Frac :=
  if d = 0 then .error "Denominator cannot be zero" else .ok (normFrac n d)

def Frac.zero : Frac := ⟨0, 1⟩

def Frac.one : Frac := ⟨1, 1⟩

/-- `add` (fractionUtils.js lines 36-40). -/
def Frac.add (a b : Frac) : Frac :=
  normFrac (a.num * b.den + b.num * a.den) (a.den * b.den)

/-- `subtract` (fractionUtils.js lines 45-49). -/
def Frac.sub (a b : Frac) : Frac :=
  normFrac (a.num * b.den - b.num * a.den) (a.den * b.den)

/-- `multiply` (fractionUtils.js lines 54-59). -/
def Frac.mul (a b : Frac) : Frac :=
  normFrac (a.num * b.num) (a.den * b.den)

/-- `divide` (fractionUtils.js lines 64-72), ignoring the
`other.numerator === 0` guard (see `Frac.divE` for the guarded version). -/
def Frac.div (a b : Frac) : Frac :=
  normFrac (a.num * b.den) (a.den * b.num)

/-- `negate` (fractionUtils.js lines 77-79): `new Fraction(-num, den)`. -/
def Frac.neg (a : Frac) : Frac := normFrac (-a.num) a.den

/-- `isZero` (fractionUtils.js line 85). -/
def Frac.isZero (a : Frac) : Bool := a.num == 0

/-- The rational value denoted by a fraction (`toNumber`, embedded
exactly). -/
def Frac.toQ (a : Frac) : ℚ := (a.num : ℚ) / (a.den : ℚ)

/-- Checked versions of the arithmetic operations: each one goes through
the constructor guard, and `divide` additionally checks its argument
(fractionUtils.js lines 65-67). -/
def Frac.addE (a b : Frac) : Except String Frac :=
  mkFracE (a.num * b.den + b.num * a.den) (a.den * b.den)

def Frac.mulE (a b : Frac) : Except String Frac :=
  mkFracE (a.num * b.num) (a.den * b.den)

def Frac.divE (a b : Frac) : Except String Frac :=
  if b.num = 0 then .error "Division by zero"
  else mkFracE (a.num * b.den) (a.den * b.num)

def Frac.negE (a : Frac) : Except String Frac := mkFracE (-a.num) a.den

/-- The invariant the spec states for stored fractions: lowest terms,
positive denominator (sign carried by the numerator). -/
def Frac.Reduced (a : Frac) : Prop := 0 < a.den ∧ Int.gcd a.num a.den = 1

instance (a : Frac) : Decidable a.Reduced := by
  unfold Frac.Reduced; infer_instance

/-! ### Basic facts about `normFrac` -/

theorem gcd_cast_ne_zero {a b : Int} (hb : b ≠ 0) : ((Int.gcd a b : Int)) ≠ 0 := by
  have hg : 0 < Int.gcd a b := Int.gcd_pos_of_ne_zero_right a hb
  exact_mod_cast Nat.pos_iff_ne_zero.mp hg

theorem div_gcd_den_pos {a b : Int} (hb : 0 < b) :
    0 < b / (Int.gcd a b : Int) := by
  set g : Int := (Int.gcd a b : Int) with hgdef
  have hgz : g ≠ 0 := gcd_cast_ne_zero (by omega)
  have hgpos : 0 < g := by
    have hnn : (0 : Int) ≤ g := by rw [hgdef]; exact Int.natCast_nonneg _
    omega
  obtain ⟨b', hb'⟩ : g ∣ b := Int.gcd_dvd_right
  have hq : b / g = b' := by rw [hb']; exact Int.mul_ediv_cancel_left b' hgz
  rw [hq]
  nlinarith

theorem div_gcd_gcd_one {a b : Int} (hb : b ≠ 0) :
    Int.gcd (a / (Int.gcd a b : Int)) (b / (Int.gcd a b : Int)) = 1 :=
  Int.gcd_div_gcd_div_gcd (Int.gcd_pos_of_ne_zero_right a hb)

theorem div_gcd_value {a b : Int} (hb : b ≠ 0) :
    ((a / (Int.gcd a b : Int) : Int) : ℚ) / ((b / (Int.gcd a b : Int) : Int) : ℚ)
      = (a : ℚ) / (b : ℚ) := by
  set g : Int := (Int.gcd a b : Int) with hgdef
  have hgz : g ≠ 0 := gcd_cast_ne_zero hb
  have hgq : ((g : ℚ)) ≠ 0 := Int.cast_ne_zero.mpr hgz
  obtain ⟨a', ha'⟩ : g ∣ a := Int.gcd_dvd_left
  obtain ⟨b', hb'⟩ : g ∣ b := Int.gcd_dvd_right
  have hqa : a / g = a' := by
    rw [ha']; exact Int.mul_ediv_cancel_left a' hgz
  have hqb : b / g = b' := by
    rw [hb']; exact Int.mul_ediv_cancel_left b' hgz
  rw [hqa, hqb, ha', hb']
  push_cast
  rw [mul_div_mul_left _ _ hgq]

theorem normFrac_num (n d : Int) :
    (normFrac n d).num =
      (if d < 0 then -n else n) /
        (Int.gcd (if d < 0 then -n else n) (if d < 0 then -d else d) : Int) := rfl

theorem normFrac_den (n d : Int) :
    (normFrac n d).den =
      (if d < 0 then -d else d) /
        (Int.gcd (if d < 0 then -n else n) (if d < 0 then -d else d) : Int) := rfl

theorem normFrac_reduced {n d : Int} (hd : d ≠ 0) : (normFrac n d).Reduced := by
  constructor
  · rw [normFrac_den]
    by_cases h : d < 0
    · simp only [if_pos h]
      exact div_gcd_den_pos (by omega)
    · simp only [if_neg h]
      exact div_gcd_den_pos (by omega)
  · rw [normFrac_num, normFrac_den]
    by_cases h : d < 0
    · simp only [if_pos h]
      exact div_gcd_gcd_one (by omega)
    · simp only [if_neg h]
      exact div_gcd_gcd_one (by omega)

theorem toQ_normFrac {n d : Int} (hd : d ≠ 0) :
    (normFrac n d).toQ = (n : ℚ) / (d : ℚ) := by
  unfold Frac.toQ
  rw [normFrac_num, normFrac_den]
  by_cases h : d < 0
  · simp only [if_pos h]
    rw [div_gcd_value (by omega : -d ≠ 0)]
    push_cast
    rw [neg_div_neg_eq]
  · simp only [if_neg h]
    exact div_gcd_value hd

theorem Frac.Reduced.den_pos {a : Frac} (h : a.Reduced) : 0 < a.den := h.1

theorem Frac.Reduced.den_ne {a : Frac} (h : a.Reduced) : a.den ≠ 0 := by
  have := h.1; omega

/-! ### Value semantics of the operations -/

theorem Frac.toQ_add {a b : Frac} (ha : a.den ≠ 0) (hb : b.den ≠ 0) :
    (a.add b).toQ = a.toQ + b.toQ := by
  unfold Frac.add
  rw [toQ_normFrac (mul_ne_zero ha hb)]
  unfold Frac.toQ
  have ha' : (a.den : ℚ) ≠ 0 := Int.cast_ne_zero.mpr ha
  have hb' : (b.den : ℚ) ≠ 0 := Int.cast_ne_zero.mpr hb
  field_simp
  try ring

theorem Frac.toQ_sub {a b : Frac} (ha : a.den ≠ 0) (hb : b.den ≠ 0) :
    (a.sub b).toQ = a.toQ - b.toQ := by
  unfold Frac.sub
  rw [toQ_normFrac (mul_ne_zero ha hb)]
  unfold Frac.toQ
  have ha' : (a.den : ℚ) ≠ 0 := Int.cast_ne_zero.mpr ha
  have hb' : (b.den : ℚ) ≠ 0 := Int.cast_ne_zero.mpr hb
  field_simp
  try ring

theorem Frac.toQ_mul {a b : Frac} (ha : a.den ≠ 0) (hb : b.den ≠ 0) :
    (a.mul b).toQ = a.toQ * b.toQ := by
  unfold Frac.mul
  rw [toQ_normFrac (mul_ne_zero ha hb)]
  unfold Frac.toQ
  push_cast
  rw [div_mul_div_comm]

theorem Frac.toQ_div {a b : Frac} (ha : a.den ≠ 0) (hbn : b.num ≠ 0) :
    (a.div b).toQ = a.toQ / b.toQ := by
  unfold Frac.div
  rw [toQ_normFrac (mul_ne_zero ha hbn)]
  unfold Frac.toQ
  have ha' : (a.den : ℚ) ≠ 0 := Int.cast_ne_zero.mpr ha
  have hb' : (b.num : ℚ) ≠ 0 := Int.cast_ne_zero.mpr hbn
  rw [div_div_div_eq]
  push_cast
  rw [div_mul_eq_div_div, mul_div_assoc]

theorem Frac.toQ_neg {a : Frac} (ha : a.den ≠ 0) : a.neg.toQ = -a.toQ := by
  unfold Frac.neg
  rw [toQ_normFrac ha]
  unfold Frac.toQ
  push_cast
  rw [neg_div]

theorem Frac.toQ_zero : Frac.zero.toQ = 0 := by
  unfold Frac.zero Frac.toQ; norm_num

theorem Frac.toQ_one : Frac.one.toQ = 1 := by
  unfold Frac.one Frac.toQ; norm_num

theorem Frac.isZero_iff {a : Frac} (ha : a.den ≠ 0) :
    a.isZero = true ↔ a.toQ = 0 := by
  unfold Frac.isZero Frac.toQ
  have ha' : (a.den : ℚ) ≠ 0 := Int.cast_ne_zero.mpr ha
  rw [beq_iff_eq]
  constructor
  · intro h
    rw [h]; simp
  · intro h
    rw [div_eq_zero_iff] at h
    rcases h with h | h
    · exact_mod_cast h
    · exact absurd h ha'

theorem Frac.num_eq_zero_of_toQ {a : Frac} (ha : a.den ≠ 0) (hq : a.toQ = 0) :
    a.num = 0 := by
  have := (Frac.isZero_iff ha).mpr hq
  unfold Frac.isZero at this
  exact beq_iff_eq.mp this

theorem Frac.eq_zero_of_reduced {a : Frac} (h : a.Reduced) (hq : a.toQ = 0) :
    a = Frac.zero := by
  have hd := h.den_ne
  have hn : a.num = 0 := Frac.num_eq_zero_of_toQ hd hq
  have hg := h.2
  rw [hn, Int.gcd_zero_left] at hg
  have hd1 : a.den = 1 := by
    have := h.1; omega
  cases a
  simp only [Frac.zero]
  simp_all

theorem Frac.eq_one_of_reduced {a : Frac} (h : a.Reduced) (hq : a.toQ = 1) :
    a = Frac.one := by
  have hd := h.den_ne
  have hn : a.num = a.den := by
    unfold Frac.toQ at hq
    have hd' : (a.den : ℚ) ≠ 0 := Int.cast_ne_zero.mpr hd
    field_simp at hq
    exact_mod_cast hq
  have hg := h.2
  rw [hn, Int.gcd_self] at hg
  have hd1 : a.den = 1 := by
    have := h.1; omega
  cases a
  simp only [Frac.one]
  simp_all

/-! ### Closure of the reduced-form invariant (claim C9) -/

theorem Frac.add_reduced {a b : Frac} (ha : a.den ≠ 0) (hb : b.den ≠ 0) :
    (a.add b).Reduced := normFrac_reduced (mul_ne_zero ha hb)

theorem Frac.sub_reduced {a b : Frac} (ha : a.den ≠ 0) (hb : b.den ≠ 0) :
    (a.sub b).Reduced := normFrac_reduced (mul_ne_zero ha hb)

theorem Frac.mul_reduced {a b : Frac} (ha : a.den ≠ 0) (hb : b.den ≠ 0) :
    (a.mul b).Reduced := normFrac_reduced (mul_ne_zero ha hb)

theorem Frac.div_reduced {a b : Frac} (ha : a.den ≠ 0) (hbn : b.num ≠ 0) :
    (a.div b).Reduced := normFrac_reduced (mul_ne_zero ha hbn)

theorem Frac.neg_reduced {a : Frac} (ha : a.den ≠ 0) : a.neg.Reduced :=
  normFrac_reduced ha

theorem Frac.zero_reduced : Frac.zero.Reduced := by decide

theorem Frac.one_reduced : Frac.one.Reduced := by decide

/-- C9: constructing a fraction from any numerator and nonzero denominator
yields a fraction in lowest terms with positive denominator, and each
arithmetic operation (`add`, `subtract`, `multiply`, `divide` with a
nonzero argument, `negate`) on reduced fractions yields a reduced
fraction. -/
theorem c9_fraction_reduced_invariant (n d : Int) (a b : Frac)
    (hd : d ≠ 0) (ha : a.Reduced) (hb : b.Reduced) (hbz : b.num ≠ 0) :
    (normFrac n d).Reduced ∧ (a.add b).Reduced ∧ (a.sub b).Reduced ∧
      (a.mul b).Reduced ∧ (a.div b).Reduced ∧ a.neg.Reduced := by
  refine ⟨normFrac_reduced hd, ?_, ?_, ?_, ?_, ?_⟩
  · exact Frac.add_reduced ha.den_ne hb.den_ne
  · exact Frac.sub_reduced ha.den_ne hb.den_ne
  · exact Frac.mul_reduced ha.den_ne hb.den_ne
  · exact Frac.div_reduced ha.den_ne hbz
  · exact Frac.neg_reduced ha.den_ne

/-- Witness for C9 at concrete inputs. -/
theorem c9_fraction_reduced_invariant_witness :
    (normFrac 6 (-4)).Reduced ∧ ((⟨1, 2⟩ : Frac).add ⟨-3, 4⟩).Reduced ∧
      ((⟨1, 2⟩ : Frac).sub ⟨-3, 4⟩).Reduced ∧
      ((⟨1, 2⟩ : Frac).mul ⟨-3, 4⟩).Reduced ∧
      ((⟨1, 2⟩ : Frac).div ⟨-3, 4⟩).Reduced ∧ (⟨1, 2⟩ : Frac).neg.Reduced :=
  c9_fraction_reduced_invariant 6 (-4) ⟨1, 2⟩ ⟨-3, 4⟩ (by decide)
    (by decide) (by decide) (by decide)

/-! ## The `Matrix` class (`src/utils/rrefCalculator.js`) -/

structure Mat where
  data : List (List Frac)
  rows : Nat
  cols : Nat
deriving Repr, DecidableEq

/-- `new Matrix(data)` (rrefCalculator.js lines 12-19): entries pass
through `Fraction.from`, which returns `Fraction` inputs unchanged
(fractionUtils.js lines 186-188); `rows` and `cols` are derived from the
grid (`data[0]?.length || 0`), with no rectangularity check. -/
def mkMat (data : List (List Frac)) : Mat :=
  ⟨data, data.length, (data.headD []).length⟩

/-- `get(i, j)` (rrefCalculator.js line 24); out-of-bounds reads never
happen on the verified paths, so the defaults are irrelevant junk. -/
def Mat.get (m : Mat) (i j : Nat) : Frac := (m.data.getD i []).getD j Frac.zero

/-- `swapRows(i, j)` (rrefCalculator.js lines 50-52): exchanges the two
row entries of the outer array. -/
def Mat.swapRows (m : Mat) (i j : Nat) : Mat :=
  let ri := m.data.getD i []
  let rj := m.data.getD j []
  { m with data := (m.data.set i rj).set j ri }

/-- `multiplyRow(i, scalar)` (rrefCalculator.js lines 57-62): multiplies
every entry of row `i` (the JS loop runs over `j < cols`, which on a
rectangular matrix is the whole row). -/
def Mat.multiplyRow (m : Mat) (i : Nat) (s : Frac) : Mat :=
  { m with data := m.data.set i ((m.data.getD i []).map (fun x => x.mul s)) }

/-- `addRowMultiple(i, j, scalar)` (rrefCalculator.js lines 67-72):
`row[i] += scalar * row[j]` entrywise (the JS loop runs over `k < cols`,
which on a rectangular matrix is the whole row). -/
def Mat.addRowMultiple (m : Mat) (i j : Nat) (s : Frac) : Mat :=
  let newRow := List.zipWith (fun t u => t.add (u.mul s))
    (m.data.getD i []) (m.data.getD j [])
  { m with data := m.data.set i newRow }

/-- `transpose()` (rrefCalculator.js lines 101-117). -/
def Mat.transpose (m : Mat) : Mat :=
  ⟨(List.range m.cols).map (fun j => (List.range m.rows).map (fun i => m.get i j)),
    m.cols, m.rows⟩

/-- Well-formedness of a matrix value: the dimension fields agree with the
grid, the grid is rectangular, and every entry is a reduced fraction (the
shape every `Matrix` built from `Fraction.from`-converted entries has). -/
def Mat.WF (m : Mat) : Prop :=
  m.data.length = m.rows ∧ (∀ r ∈ m.data, r.length = m.cols) ∧
    ∀ r ∈ m.data, ∀ x ∈ r, x.Reduced

instance (m : Mat) : Decidable m.WF := by
  unfold Mat.WF; infer_instance

/-! ### Reading entries after each row operation -/

theorem getD_set_ne {α : Type} {l : List α} {i k : Nat} (a d : α) (h : i ≠ k) :
    (l.set i a).getD k d = l.getD k d := by
  simp [List.getD_eq_getElem?_getD, List.getElem?_set_ne h]

theorem getD_set_self {α : Type} {l : List α} {i : Nat} (a d : α)
    (h : i < l.length) : (l.set i a).getD i d = a := by
  simp [List.getD_eq_getElem?_getD, List.getElem?_set_self, h]

theorem getD_map_of_lt {α β : Type} (f : α → β) (l : List α) (c : Nat)
    (hc : c < l.length) (d : β) (e : α) :
    (l.map f).getD c d = f (l.getD c e) := by
  rw [List.getD_eq_getElem?_getD, List.getElem?_map, List.getElem?_eq_getElem hc]
  rw [List.getD_eq_getElem?_getD, List.getElem?_eq_getElem hc]
  rfl

theorem getD_zipWith_of_lt {α β γ : Type} (f : α → β → γ) (l1 : List α)
    (l2 : List β) (c : Nat) (h1 : c < l1.length) (h2 : c < l2.length)
    (d : γ) (d1 : α) (d2 : β) :
    (List.zipWith f l1 l2).getD c d = f (l1.getD c d1) (l2.getD c d2) := by
  rw [List.getD_eq_getElem?_getD, List.getElem?_zipWith, List.getElem?_eq_getElem h1,
    List.getElem?_eq_getElem h2]
  rw [List.getD_eq_getElem?_getD l1 c d1, List.getElem?_eq_getElem h1]
  rw [List.getD_eq_getElem?_getD l2 c d2, List.getElem?_eq_getElem h2]
  rfl

theorem Mat.rows_swapRows (m : Mat) (i j : Nat) : (m.swapRows i j).rows = m.rows := rfl

theorem Mat.cols_swapRows (m : Mat) (i j : Nat) : (m.swapRows i j).cols = m.cols := rfl

theorem Mat.rows_multiplyRow (m : Mat) (i : Nat) (s : Frac) :
    (m.multiplyRow i s).rows = m.rows := rfl

theorem Mat.cols_multiplyRow (m : Mat) (i : Nat) (s : Frac) :
    (m.multiplyRow i s).cols = m.cols := rfl

theorem Mat.rows_addRowMultiple (m : Mat) (i j : Nat) (s : Frac) :
    (m.addRowMultiple i j s).rows = m.rows := rfl

theorem Mat.cols_addRowMultiple (m : Mat) (i j : Nat) (s : Frac) :
    (m.addRowMultiple i j s).cols = m.cols := rfl

theorem Mat.get_swapRows (m : Mat) {i j : Nat} (hi : i < m.data.length)
    (hj : j < m.data.length) (r c : Nat) :
    (m.swapRows i j).get r c =
      if r = j then m.get i c else if r = i then m.get j c else m.get r c := by
  show (((m.data.set i (m.data.getD j [])).set j
      (m.data.getD i [])).getD r []).getD c Frac.zero = _
  by_cases hrj : r = j
  · rw [if_pos hrj, hrj, getD_set_self _ _ (by simpa using hj)]
    rfl
  · rw [if_neg hrj, getD_set_ne _ _ (fun h => hrj h.symm)]
    by_cases hri : r = i
    · rw [if_pos hri, hri, getD_set_self _ _ hi]
      rfl
    · rw [if_neg hri, getD_set_ne _ _ (fun h => hri h.symm)]
      rfl

theorem Mat.get_multiplyRow (m : Mat) {i : Nat} (hi : i < m.data.length)
    (s : Frac) (r c : Nat) (hc : c < (m.data.getD r []).length) :
    (m.multiplyRow i s).get r c =
      if r = i then (m.get r c).mul s else m.get r c := by
  show ((m.data.set i ((m.data.getD i []).map
      (fun x => x.mul s))).getD r []).getD c Frac.zero = _
  by_cases hri : r = i
  · rw [if_pos hri]
    subst hri
    rw [getD_set_self _ _ hi]
    rw [getD_map_of_lt _ _ _ hc _ Frac.zero]
    rfl
  · rw [if_neg hri, getD_set_ne _ _ (fun h => hri h.symm)]
    rfl

theorem Mat.get_addRowMultiple (m : Mat) {i : Nat} (hi : i < m.data.length)
    (j : Nat) (s : Frac) (r c : Nat) (hc : c < (m.data.getD r []).length)
    (hc' : c < (m.data.getD j []).length) :
    (m.addRowMultiple i j s).get r c =
      if r = i then (m.get r c).add ((m.get j c).mul s) else m.get r c := by
  show ((m.data.set i (List.zipWith (fun t u => t.add (u.mul s))
      (m.data.getD i []) (m.data.getD j []))).getD r []).getD c Frac.zero = _
  by_cases hri : r = i
  · rw [if_pos hri]
    subst hri
    rw [getD_set_self _ _ hi]
    rw [getD_zipWith_of_lt _ _ _ _ hc hc' _ Frac.zero Frac.zero]
    rfl
  · rw [if_neg hri, getD_set_ne _ _ (fun h => hri h.symm)]
    rfl

/-! ### Well-formedness is preserved by the row operations -/

theorem getD_mem {α : Type} {l : List α} {i : Nat} (h : i < l.length) (d : α) :
    l.getD i d ∈ l := by
  rw [List.getD_eq_getElem?_getD, List.getElem?_eq_getElem h]
  exact List.getElem_mem h

theorem Mat.row_len {m : Mat} (h : m.WF) {i : Nat} (hi : i < m.rows) :
    (m.data.getD i []).length = m.cols :=
  h.2.1 _ (getD_mem (h.1 ▸ hi) [])

theorem Mat.get_reduced {m : Mat} (h : m.WF) {i j : Nat} (hi : i < m.rows)
    (hj : j < m.cols) : (m.get i j).Reduced := by
  have hrow : m.data.getD i [] ∈ m.data := getD_mem (h.1 ▸ hi) []
  have hlen : (m.data.getD i []).length = m.cols := h.2.1 _ hrow
  exact h.2.2 _ hrow _ (getD_mem (hlen ▸ hj) Frac.zero)

theorem Mat.WF.swapRows {m : Mat} (h : m.WF) {i j : Nat} (hi : i < m.rows)
    (hj : j < m.rows) : (m.swapRows i j).WF := by
  have hri : m.data.getD i [] ∈ m.data := getD_mem (h.1 ▸ hi) []
  have hrj : m.data.getD j [] ∈ m.data := getD_mem (h.1 ▸ hj) []
  refine ⟨by simp [Mat.swapRows, h.1], ?_, ?_⟩
  · intro r hr
    rcases List.mem_or_eq_of_mem_set hr with hr' | hr'
    · rcases List.mem_or_eq_of_mem_set hr' with hr'' | hr''
      · exact h.2.1 _ hr''
      · exact hr'' ▸ h.2.1 _ hrj
    · exact hr' ▸ h.2.1 _ hri
  · intro r hr
    rcases List.mem_or_eq_of_mem_set hr with hr' | hr'
    · rcases List.mem_or_eq_of_mem_set hr' with hr'' | hr''
      · exact h.2.2 _ hr''
      · exact hr'' ▸ h.2.2 _ hrj
    · exact hr' ▸ h.2.2 _ hri

theorem Mat.WF.multiplyRow {m : Mat} (h : m.WF) {i : Nat} (hi : i < m.rows)
    {s : Frac} (hs : s.den ≠ 0) : (m.multiplyRow i s).WF := by
  have hri : m.data.getD i [] ∈ m.data := getD_mem (h.1 ▸ hi) []
  refine ⟨by simp [Mat.multiplyRow, h.1], ?_, ?_⟩
  · intro r hr
    rcases List.mem_or_eq_of_mem_set hr with hr' | hr'
    · exact h.2.1 _ hr'
    · rw [hr', List.length_map]; exact h.2.1 _ hri
  · intro r hr
    rcases List.mem_or_eq_of_mem_set hr with hr' | hr'
    · exact h.2.2 _ hr'
    · subst hr'
      intro x hx
      rcases List.mem_map.mp hx with ⟨y, hy, rfl⟩
      exact Frac.mul_reduced (h.2.2 _ hri _ hy).den_ne hs

theorem mem_of_mem_zipWith {α β γ : Type} {f : α → β → γ} :
    ∀ {l1 : List α} {l2 : List β} {x : γ}, x ∈ List.zipWith f l1 l2 →
      ∃ a ∈ l1, ∃ b ∈ l2, x = f a b
  | a :: l1, b :: l2, x, h => by
    rcases List.mem_cons.mp h with h | h
    · exact ⟨a, List.mem_cons_self a l1, b, List.mem_cons_self b l2, h⟩
    · rcases mem_of_mem_zipWith h with ⟨a', ha, b', hb, hx⟩
      exact ⟨a', List.mem_cons_of_mem _ ha, b', List.mem_cons_of_mem _ hb, hx⟩

theorem Mat.WF.addRowMultiple {m : Mat} (h : m.WF) {i j : Nat}
    (hi : i < m.rows) (hj : j < m.rows) {s : Frac} (hs : s.den ≠ 0) :
    (m.addRowMultiple i j s).WF := by
  have hri : m.data.getD i [] ∈ m.data := getD_mem (h.1 ▸ hi) []
  have hrj : m.data.getD j [] ∈ m.data := getD_mem (h.1 ▸ hj) []
  refine ⟨by simp [Mat.addRowMultiple, h.1], ?_, ?_⟩
  · intro r hr
    rcases List.mem_or_eq_of_mem_set hr with hr' | hr'
    · exact h.2.1 _ hr'
    · rw [hr', List.length_zipWith, h.2.1 _ hri, h.2.1 _ hrj, Nat.min_self]
      rfl
  · intro r hr
    rcases List.mem_or_eq_of_mem_set hr with hr' | hr'
    · exact h.2.2 _ hr'
    · subst hr'
      intro x hx
      rcases mem_of_mem_zipWith hx with ⟨t, ht, u, hu, rfl⟩
      exact Frac.add_reduced (h.2.2 _ hri _ ht).den_ne
        (Frac.mul_reduced (h.2.2 _ hrj _ hu).den_ne hs).den_ne

theorem Mat.WF.transpose {m : Mat} (h : m.WF) : m.transpose.WF := by
  refine ⟨by simp [Mat.transpose], ?_, ?_⟩
  · intro r hr
    rcases List.mem_map.mp hr with ⟨j, hj, rfl⟩
    simp [Mat.transpose]
  · intro r hr
    rcases List.mem_map.mp hr with ⟨j, hj, rfl⟩
    intro x hx
    rcases List.mem_map.mp hx with ⟨i, hi, rfl⟩
    exact m.get_reduced h (List.mem_range.mp hi) (List.mem_range.mp hj)

/-! ## The RREF engine (`computeRREF`, rrefCalculator.js lines 124-216) -/

inductive OpKind where
  | swap (row1 row2 : Nat)
  | scale (row : Nat) (scalar : Frac)
  | add (targetRow sourceRow : Nat) (scalar : Frac)
deriving Repr, DecidableEq

/-- One recorded elementary operation: `recordOperation` stores a snapshot
clone of the working matrix (`matrixBefore`, rrefCalculator.js line 138)
and `updateLastOperation` adds the snapshot after the mutation
(`matrixAfter`, line 145). -/
structure OpRec where
  kind : OpKind
  matrixBefore : Mat
  matrixAfter : Mat
deriving Repr, DecidableEq

/-- The loop state of `computeRREF`: the working clone `m`, the pivot
column list, `currentRow`, and the operation log. -/
structure RState where
  m : Mat
  pivots : List Nat
  cur : Nat
  ops : List OpRec
deriving Repr, DecidableEq

/-- The inner scan of the pivot search. -/
def pivotFold (m : Mat) (col : Nat) (p0 : Nat × ℚ) (l : List Nat) : Nat × ℚ :=
  l.foldl
    (fun acc r => if |(m.get r col).toQ| > acc.2 then (r, |(m.get r col).toQ|) else acc)
    p0

/-- Pivot selection (rrefCalculator.js lines 150-159): start from
`currentRow`, scan rows `currentRow+1 .. rows-1`, and update only on a
strictly larger absolute value (`val > maxVal`), so ties keep the earliest
row.  `Math.abs(...toNumber())` is embedded as the exact absolute
value `|toQ|`. -/
def findPivot (m : Mat) (cur col : Nat) : Nat :=
  (pivotFold m col (cur, |(m.get cur col).toQ|)
    (List.range' (cur + 1) (m.rows - (cur + 1)))).1

/-- Elimination of one candidate target row `r` in column `col`
(rrefCalculator.js lines 196-209): rows other than `currentRow` with a
nonzero entry in `col` get `factor = -entry` times the pivot row added. -/
def elimBody (col curR : Nat) (s : RState) (r : Nat) : RState :=
  if r ≠ curR ∧ (s.m.get r col).isZero = false then
    let factor := (s.m.get r col).neg
    let m' := s.m.addRowMultiple r curR factor
    { s with m := m', ops := s.ops ++ [⟨.add r curR factor, s.m, m'⟩] }
  else s

/-- The conditional row swap of one elimination step (rrefCalculator.js
lines 167-176). -/
def swapStage (st : RState) (p : Nat) : RState :=
  if p ≠ st.cur then
    let m' := st.m.swapRows st.cur p
    { st with m := m', ops := st.ops ++ [⟨.swap st.cur p, st.m, m'⟩] }
  else st

/-- The conditional pivot normalization of one elimination step
(rrefCalculator.js lines 179-193): if the pivot entry is not (structurally
equal to) 1, the pivot row is multiplied by its reciprocal
`one.divide(pivot)`. -/
def scaleStage (st : RState) (col : Nat) : RState :=
  let pivot := st.m.get st.cur col
  if pivot ≠ Frac.one then
    let scalar := Frac.one.div pivot
    let m' := st.m.multiplyRow st.cur scalar
    { st with m := m', ops := st.ops ++ [⟨.scale st.cur scalar, st.m, m'⟩] }
  else st

/-- The body of the `for (col ...)` loop of `computeRREF` for one column
(rrefCalculator.js lines 148-213).  The JS loop exits as soon as
`currentRow = rows`; running the remaining columns through a guarded
no-op is equivalent.  Neither the swap nor the scale stage changes
`currentRow`, so passing `st` onward stage by stage is the JS control
flow. -/
def rrefStep (st : RState) (col : Nat) : RState :=
  if st.cur < st.m.rows then
    let p := findPivot st.m st.cur col
    if (st.m.get p col).isZero then st
    else
      let st1 := swapStage st p
      let st2 := scaleStage st1 col
      let st3 := (List.range st2.m.rows).foldl (elimBody col st.cur) st2
      { st3 with pivots := st3.pivots ++ [col], cur := st.cur + 1 }
  else st

structure RRefResult where
  rref : Mat
  pivots : List Nat
  operations : Option (List OpRec)
deriving Repr, DecidableEq

/-- `computeRREF(matrix, trackOperations)` (rrefCalculator.js lines
124-216).  The function first clones the argument and then folds the
column loop over the clone; in this value-level embedding the clone is
the value itself (the heap-level non-interference statement is
`computeRREFHeap` below).  When tracking is off the JS code keeps
`operations = null`, embedded as `none`. -/
def computeRREF (matrix : Mat) (trackOperations : Bool) : RRefResult :=
  let st := (List.range matrix.cols).foldl rrefStep ⟨matrix, [], 0, []⟩
  ⟨st.m, st.pivots, if trackOperations then some st.ops else none⟩

/-- `computeRank` (rrefCalculator.js lines 221-224). -/
def computeRank (matrix : Mat) : Nat := (computeRREF matrix false).pivots.length

/-- `isZeroRow` (rrefCalculator.js lines 229-236). -/
def isZeroRow (matrix : Mat) (rowIndex : Nat) : Bool :=
  (List.range matrix.cols).all (fun j => (matrix.get rowIndex j).isZero)

/-- `getNonZeroRows` (rrefCalculator.js lines 241-249): the rows (as
stored lists) whose index is not a zero row, in order. -/
def getNonZeroRows (matrix : Mat) : List (List Frac) :=
  ((List.range matrix.rows).filter (fun i => ¬ isZeroRow matrix i)).map
    (fun i => matrix.data.getD i [])

/-! ### Pivot selection is argmax with first-occurrence tie-breaking (C3) -/

/-- The pivot-search state after scanning `n` rows past `currentRow`. -/
def pivotState (m : Mat) (cur col n : Nat) : Nat × ℚ :=
  pivotFold m col (cur, |(m.get cur col).toQ|) (List.range' (cur + 1) n)

theorem findPivot_eq_pivotState (m : Mat) (cur col : Nat) :
    findPivot m cur col = (pivotState m cur col (m.rows - (cur + 1))).1 := rfl

theorem pivotState_spec (m : Mat) (col cur : Nat) (n : Nat) :
    (pivotState m cur col n).2 = |(m.get (pivotState m cur col n).1 col).toQ| ∧
    cur ≤ (pivotState m cur col n).1 ∧ (pivotState m cur col n).1 < cur + 1 + n ∧
    (∀ r, cur ≤ r → r < cur + 1 + n →
      |(m.get r col).toQ| ≤ (pivotState m cur col n).2) ∧
    (∀ r, cur ≤ r → r < (pivotState m cur col n).1 →
      |(m.get r col).toQ| < (pivotState m cur col n).2) := by
  induction n with
  | zero =>
    have h0 : pivotState m cur col 0 = (cur, |(m.get cur col).toQ|) := rfl
    rw [h0]
    refine ⟨rfl, le_refl _, by omega, ?_, ?_⟩
    · intro r h1 h2
      have : r = cur := by omega
      subst this
      exact le_refl _
    · intro r h1 h2
      exact absurd h2 (by omega)
  | succ n ih =>
    have hstep : pivotState m cur col (n + 1) =
        (if |(m.get (cur + 1 + n) col).toQ| > (pivotState m cur col n).2
          then (cur + 1 + n, |(m.get (cur + 1 + n) col).toQ|)
          else pivotState m cur col n) := by
      unfold pivotState pivotFold
      rw [List.range'_1_concat, List.foldl_append]
      rfl
    obtain ⟨ih1, ih2, ih3, ih4, ih5⟩ := ih
    by_cases hcond : |(m.get (cur + 1 + n) col).toQ| > (pivotState m cur col n).2
    · rw [hstep, if_pos hcond]
      refine ⟨rfl, by omega, by omega, ?_, ?_⟩
      · intro r h1 h2
        by_cases hr : r = cur + 1 + n
        · subst hr; exact le_refl _
        · exact le_of_lt (lt_of_le_of_lt (ih4 r h1 (by omega)) hcond)
      · intro r h1 h2
        exact lt_of_le_of_lt (ih4 r h1 (by omega)) hcond
    · rw [hstep, if_neg hcond]
      refine ⟨ih1, ih2, by omega, ?_, ih5⟩
      intro r h1 h2
      by_cases hr : r = cur + 1 + n
      · subst hr; exact le_of_not_lt hcond
      · exact ih4 r h1 (by omega)

theorem findPivot_spec (m : Mat) {cur : Nat} (col : Nat) (h : cur < m.rows) :
    cur ≤ findPivot m cur col ∧ findPivot m cur col < m.rows ∧
    (∀ r, cur ≤ r → r < m.rows →
      |(m.get r col).toQ| ≤ |(m.get (findPivot m cur col) col).toQ|) ∧
    (∀ r, cur ≤ r → r < findPivot m cur col →
      |(m.get r col).toQ| < |(m.get (findPivot m cur col) col).toQ|) := by
  have hn : cur + 1 + (m.rows - (cur + 1)) = m.rows := by omega
  obtain ⟨h1, h2, h3, h4, h5⟩ := pivotState_spec m col cur (m.rows - (cur + 1))
  rw [findPivot_eq_pivotState]
  rw [h1] at h4 h5
  exact ⟨h2, by omega, fun r hr hr' => h4 r hr (by omega), h5⟩

/-- C3: in each elimination step, the selected pivot row lies in
`[currentRow, rows)`, its entry in `col` has the maximal absolute numeric
value over that range, every earlier row in the range has a strictly
smaller absolute value (first-occurrence tie-breaking), and if the entry
selected this way is zero the step leaves the state unchanged (the column
is skipped and `currentRow` is not incremented). -/
theorem c3_partial_pivoting (st : RState) (col : Nat)
    (hcur : st.cur < st.m.rows) :
    (st.cur ≤ findPivot st.m st.cur col ∧ findPivot st.m st.cur col < st.m.rows) ∧
    (∀ r, st.cur ≤ r → r < st.m.rows →
      |(st.m.get r col).toQ| ≤ |(st.m.get (findPivot st.m st.cur col) col).toQ|) ∧
    (∀ r, st.cur ≤ r → r < findPivot st.m st.cur col →
      |(st.m.get r col).toQ| < |(st.m.get (findPivot st.m st.cur col) col).toQ|) ∧
    ((st.m.get (findPivot st.m st.cur col) col).isZero = true →
      rrefStep st col = st) := by
  obtain ⟨h1, h2, h3, h4⟩ := findPivot_spec st.m col hcur
  refine ⟨⟨h1, h2⟩, h3, h4, ?_⟩
  intro hz
  unfold rrefStep
  rw [if_pos hcur]
  simp only [hz]
  rfl

/-- Witness for C3 at a concrete state and column. -/
theorem c3_partial_pivoting_witness :
    letI st : RState := ⟨mkMat [[⟨1, 1⟩, ⟨2, 1⟩], [⟨3, 1⟩, ⟨4, 1⟩]], [], 0, []⟩
    (st.cur ≤ findPivot st.m st.cur 0 ∧ findPivot st.m st.cur 0 < st.m.rows) ∧
    (∀ r, st.cur ≤ r → r < st.m.rows →
      |(st.m.get r 0).toQ| ≤ |(st.m.get (findPivot st.m st.cur 0) 0).toQ|) ∧
    (∀ r, st.cur ≤ r → r < findPivot st.m st.cur 0 →
      |(st.m.get r 0).toQ| < |(st.m.get (findPivot st.m st.cur 0) 0).toQ|) ∧
    ((st.m.get (findPivot st.m st.cur 0) 0).isZero = true →
      rrefStep st 0 = st) :=
  c3_partial_pivoting ⟨mkMat [[⟨1, 1⟩, ⟨2, 1⟩], [⟨3, 1⟩, ⟨4, 1⟩]], [], 0, []⟩ 0
    (by decide)

/-! ### The operation log is an exact replay chain (C10) -/

/-- The replay-chain invariant between the input matrix `A`, an operation
log, and the current working matrix `m`. -/
def ChainOk (A : Mat) (ops : List OpRec) (m : Mat) : Prop :=
  List.Chain' (fun a b => a.matrixAfter = b.matrixBefore) ops ∧
  (ops.head?.map OpRec.matrixBefore).getD A = A ∧
  (ops.getLast?.map OpRec.matrixAfter).getD m = m ∧
  (ops = [] → m = A)

theorem chainOk_nil (A : Mat) : ChainOk A [] A :=
  ⟨List.chain'_nil, rfl, rfl, fun _ => rfl⟩

theorem chainOk_append {A m : Mat} {ops : List OpRec} (h : ChainOk A ops m)
    (k : OpKind) (m' : Mat) : ChainOk A (ops ++ [⟨k, m, m'⟩]) m' := by
  obtain ⟨hchain, hhead, hlast, hnil⟩ := h
  refine ⟨?_, ?_, ?_, ?_⟩
  · rw [List.chain'_append]
    refine ⟨hchain, List.chain'_singleton _, ?_⟩
    intro x hx y hy
    have hy' : y = ⟨k, m, m'⟩ := by
      have := hy
      simp only [List.head?_cons, Option.mem_def, Option.some_inj] at this
      exact this.symm
    have hx' : ops.getLast? = some x := hx
    rw [hx'] at hlast
    simp only [Option.map_some', Option.getD_some] at hlast
    rw [hy']
    exact hlast
  · cases ops with
    | nil =>
      simp only [List.nil_append, List.head?_cons, Option.map_some', Option.getD_some]
      exact hnil rfl
    | cons a t =>
      simp only [List.cons_append, List.head?_cons, Option.map_some', Option.getD_some]
      simpa using hhead
  · rw [List.getLast?_concat]
    rfl
  · intro h
    exact absurd h (by simp)

theorem swapStage_chain {A : Mat} {st : RState} (h : ChainOk A st.ops st.m)
    (p : Nat) : ChainOk A (swapStage st p).ops (swapStage st p).m := by
  unfold swapStage
  by_cases hc : p ≠ st.cur
  · rw [if_pos hc]
    exact chainOk_append h _ _
  · rw [if_neg hc]
    exact h

theorem scaleStage_chain {A : Mat} {st : RState} (h : ChainOk A st.ops st.m)
    (col : Nat) : ChainOk A (scaleStage st col).ops (scaleStage st col).m := by
  unfold scaleStage
  by_cases hc : st.m.get st.cur col ≠ Frac.one
  · rw [if_pos hc]
    exact chainOk_append h _ _
  · rw [if_neg hc]
    exact h

theorem elimBody_chain {A : Mat} {s : RState} (h : ChainOk A s.ops s.m)
    (col curR r : Nat) : ChainOk A (elimBody col curR s r).ops (elimBody col curR s r).m := by
  unfold elimBody
  by_cases hc : r ≠ curR ∧ (s.m.get r col).isZero = false
  · rw [if_pos hc]
    exact chainOk_append h _ _
  · rw [if_neg hc]
    exact h

theorem elimFold_chain {A : Mat} (col curR : Nat) (l : List Nat) (s : RState)
    (h : ChainOk A s.ops s.m) :
    ChainOk A (l.foldl (elimBody col curR) s).ops (l.foldl (elimBody col curR) s).m := by
  induction l generalizing s with
  | nil => exact h
  | cons r t ih =>
    rw [List.foldl_cons]
    exact ih _ (elimBody_chain h col curR r)

theorem rrefStep_chain {A : Mat} (st : RState) (col : Nat)
    (h : ChainOk A st.ops st.m) :
    ChainOk A (rrefStep st col).ops (rrefStep st col).m := by
  unfold rrefStep
  by_cases h1 : st.cur < st.m.rows
  · rw [if_pos h1]
    by_cases h2 : (st.m.get (findPivot st.m st.cur col) col).isZero = true
    · rw [if_pos h2]
      exact h
    · rw [if_neg h2]
      exact elimFold_chain col st.cur _ _ (scaleStage_chain (swapStage_chain h _) col)
  · rw [if_neg h1]
    exact h

theorem rrefFold_chain (A : Mat) (l : List Nat) (st : RState)
    (h : ChainOk A st.ops st.m) :
    ChainOk A (l.foldl rrefStep st).ops (l.foldl rrefStep st).m := by
  induction l generalizing st with
  | nil => exact h
  | cons c t ih =>
    rw [List.foldl_cons]
    exact ih _ (rrefStep_chain _ _ h)

/-- C10: with operation tracking enabled, the log returned by
`computeRREF` is an exact replay chain: if the log is nonempty, the
`matrixBefore` snapshot of its first operation is the input matrix, each
operation's `matrixAfter` equals the next operation's `matrixBefore`, and
the last operation's `matrixAfter` is the returned reduced matrix. -/
theorem c10_operation_log_chain (A : Mat) :
    List.Chain' (fun a b => a.matrixAfter = b.matrixBefore)
      ((computeRREF A true).operations.getD []) ∧
    ((((computeRREF A true).operations.getD []).head?.map
      OpRec.matrixBefore).getD A = A) ∧
    ((((computeRREF A true).operations.getD []).getLast?.map
      OpRec.matrixAfter).getD (computeRREF A true).rref = (computeRREF A true).rref) := by
  have h := rrefFold_chain A (List.range A.cols) ⟨A, [], 0, []⟩ (chainOk_nil A)
  exact ⟨h.1, h.2.1, h.2.2.1⟩

/-! ## The cell parser (`parseMatrixCell`, matrixUtils.js lines 9-26) (C7) -/

def digitsToNat (ds : List Char) : Nat :=
  ds.foldl (fun a c => a * 10 + (c.toNat - 48)) 0

/-- Model of `String.prototype.trim`: strip whitespace from both ends
(char-list level, so that concrete instances evaluate in the kernel). -/
def jsTrim (cs : List Char) : List Char :=
  ((cs.dropWhile Char.isWhitespace).reverse.dropWhile Char.isWhitespace).reverse

/-- Model of `String.prototype.split` with a one-character separator. -/
def splitChar (c : Char) : List Char → List (List Char)
  | [] => [[]]
  | x :: t =>
    let r := splitChar c t
    if x = c then [] :: r
    else (x :: r.headD []) :: r.tail

/-- Model of the JS builtin `parseFloat`: an optional sign followed by a
decimal numeral prefix (trailing garbage ignored, as `parseFloat` does),
`none` for `NaN`.  Exponent notation and `Infinity` are not modelled; no
claim depends on them. -/
def jsParseFloat (cs : List Char) : Option ℚ :=
  let sgn : ℚ := match cs with
    | '-' :: _ => -1
    | _ => 1
  let cs1 := match cs with
    | '-' :: t => t
    | '+' :: t => t
    | _ => cs
  let intDigits := cs1.takeWhile Char.isDigit
  let rest := cs1.dropWhile Char.isDigit
  let fracDigits := match rest with
    | '.' :: t => t.takeWhile Char.isDigit
    | _ => []
  if intDigits.isEmpty && fracDigits.isEmpty then none
  else some (sgn * ((digitsToNat intDigits : ℚ) +
    (digitsToNat fracDigits : ℚ) / (10 : ℚ) ^ fracDigits.length))

/-- `parseMatrixCell` (matrixUtils.js lines 9-26): trim, map the empty
string to `0`, parse `a/b` cells (splitting on `/`, trimming and
`parseFloat`-ing the first two parts, rejecting `NaN` parts and a zero
denominator), otherwise `parseFloat` the whole cell and reject `NaN`. -/
def parseMatrixCell (value : String) : Except String ℚ :=
  let trimmed := jsTrim value.data
  if trimmed = [] then .ok 0
  else if trimmed.contains '/' then
    let parts := splitChar '/' trimmed
    match jsParseFloat (jsTrim (parts.getD 0 [])),
        jsParseFloat (jsTrim (parts.getD 1 [])) with
    | some n, some d =>
      if d = 0 then .error ("Invalid fraction: " ++ String.mk trimmed)
      else .ok (n / d)
    | _, _ => .error ("Invalid fraction: " ++ String.mk trimmed)
  else
    match jsParseFloat trimmed with
    | some n => .ok n
    | none => .error ("Invalid number: " ++ String.mk trimmed)

/-- C7 counterexample: contrary to the claim, the core parser does not
fail on the empty or the all-whitespace cell; it returns 0. -/
theorem c7_counterexample :
    parseMatrixCell "" = Except.ok 0 ∧ parseMatrixCell "  " = Except.ok 0 := by
  constructor <;> rfl

/-- C7 (amended): the core parser maps every cell whose trimmed content is
empty to `0` (so the empty-cell-to-zero treatment is in the core parser,
not only in the upstream fill-zeros helper). -/
theorem c7_empty_cell_parses_to_zero (s : String) (h : jsTrim s.data = []) :
    parseMatrixCell s = Except.ok 0 := by
  unfold parseMatrixCell
  rw [h]
  rfl

/-- Witness for the amended C7 at a concrete all-whitespace cell. -/
theorem c7_empty_cell_parses_to_zero_witness :
    parseMatrixCell " " = Except.ok 0 :=
  c7_empty_cell_parses_to_zero " " (by rfl)

/-! ## Heap-level model of `clone` and the row mutations (C5)

The value-level embedding above cannot express the JS aliasing question
(whether `computeRREF` mutates the caller's row arrays), so the engine is
replayed over an explicit heap: row arrays live at addresses, a matrix
object holds a list of row addresses, `clone` allocates fresh addresses
copying the row contents (`this.data.map(row => [...row])`), row swaps
permute the address slots of the owning matrix, and the two arithmetic row
operations write through the owning matrix's addresses. -/

structure HMat where
  rows : Nat
  cols : Nat
  rowAddrs : List Nat
deriving Repr

structure Heap where
  mem : Nat → List Frac
  next : Nat

def Heap.write (h : Heap) (a : Nat) (row : List Frac) : Heap :=
  ⟨fun x => if x = a then row else h.mem x, h.next⟩

/-- `clone()` (rrefCalculator.js lines 38-45): a fresh outer array whose
slots point at fresh row arrays holding copies of the row contents. -/
def cloneH (h : Heap) (m : HMat) : HMat × Heap :=
  (⟨m.rows, m.cols, (List.range m.rowAddrs.length).map (fun k => h.next + k)⟩,
   ⟨fun x =>
      if h.next ≤ x ∧ x < h.next + m.rowAddrs.length
      then h.mem (m.rowAddrs.getD (x - h.next) 0)
      else h.mem x,
    h.next + m.rowAddrs.length⟩)

def HMat.getH (h : Heap) (m : HMat) (i j : Nat) : Frac :=
  (h.mem (m.rowAddrs.getD i 0)).getD j Frac.zero

/-- `swapRows` swaps the two outer-array slots (pointers), touching no row
array. -/
def HMat.swapRowsH (m : HMat) (i j : Nat) : HMat :=
  let ai := m.rowAddrs.getD i 0
  let aj := m.rowAddrs.getD j 0
  { m with rowAddrs := (m.rowAddrs.set i aj).set j ai }

/-- `multiplyRow` writes the scaled row back through the matrix's own row
address. -/
def multiplyRowH (h : Heap) (m : HMat) (i : Nat) (s : Frac) : Heap :=
  let a := m.rowAddrs.getD i 0
  h.write a ((h.mem a).map (fun x => x.mul s))

/-- `addRowMultiple` writes the updated target row back through the
matrix's own row address. -/
def addRowMultipleH (h : Heap) (m : HMat) (i j : Nat) (s : Frac) : Heap :=
  let ai := m.rowAddrs.getD i 0
  let aj := m.rowAddrs.getD j 0
  h.write ai (List.zipWith (fun t u => t.add (u.mul s)) (h.mem ai) (h.mem aj))

structure HState where
  m : HMat
  heap : Heap
  pivots : List Nat
  cur : Nat

def findPivotH (hp : Heap) (m : HMat) (cur col : Nat) : Nat :=
  (pivotFoldH hp m col (cur, |(HMat.getH hp m cur col).toQ|)
    (List.range' (cur + 1) (m.rows - (cur + 1)))).1
where
  pivotFoldH (hp : Heap) (m : HMat) (col : Nat) (p0 : Nat × ℚ) (l : List Nat) :
      Nat × ℚ :=
    l.foldl
      (fun acc r =>
        if |(HMat.getH hp m r col).toQ| > acc.2
        then (r, |(HMat.getH hp m r col).toQ|) else acc)
      p0


/-- The conditional row swap over the heap model: only the outer-array
slots of the working matrix change. -/
def swapStageH (st : HState) (p : Nat) : HState :=
  if p ≠ st.cur then { st with m := st.m.swapRowsH st.cur p } else st

/-- The conditional pivot normalization over the heap model. -/
def scaleStageH (st : HState) (col : Nat) : HState :=
  let pivot := HMat.getH st.heap st.m st.cur col
  if pivot ≠ Frac.one then
    { st with heap := multiplyRowH st.heap st.m st.cur (Frac.one.div pivot) }
  else st

/-- Elimination of one candidate target row over the heap model. -/
def elimBodyH (col curR : Nat) (s : HState) (r : Nat) : HState :=
  if r ≠ curR ∧ (HMat.getH s.heap s.m r col).isZero = false then
    { s with heap := addRowMultipleH s.heap s.m r curR ((HMat.getH s.heap s.m r col).neg) }
  else s

/-- One column step of `computeRREF` over the heap model, with operation
tracking off (`computeRREF(matrix)` is the one-argument call the claim is
about). -/
def rrefStepH (st : HState) (col : Nat) : HState :=
  if st.cur < st.m.rows then
    let p := findPivotH st.heap st.m st.cur col
    if (HMat.getH st.heap st.m p col).isZero then st
    else
      let st1 := swapStageH st p
      let st2 := scaleStageH st1 col
      let st3 := (List.range st2.m.rows).foldl (elimBodyH col st.cur) st2
      { st3 with pivots := st3.pivots ++ [col], cur := st.cur + 1 }
  else st

/-- `computeRREF(matrix)` over the heap model: clone, then run the column
loop on the clone. -/
def computeRREFHeap (matrix : HMat) (h : Heap) : HMat × Heap :=
  let c := cloneH h matrix
  let st := (List.range matrix.cols).foldl rrefStepH ⟨c.1, c.2, [], 0⟩
  (st.m, st.heap)

/-! ### The frame theorem for `computeRREF` (C5) -/

/-- Heap invariant carried through the elimination loop: the working
matrix's row addresses are all in the freshly allocated region (at or
above the pre-call allocation frontier), and the heap below the frontier
is untouched. -/
def HInv (h0 : Heap) (st : HState) : Prop :=
  st.m.rowAddrs.length = st.m.rows ∧
  (∀ a ∈ st.m.rowAddrs, h0.next ≤ a) ∧
  (∀ a, a < h0.next → st.heap.mem a = h0.mem a)

theorem foldPivot_fst_mem {β : Type} (f : Nat → β) (P : Nat → β → Prop)
    [inst : ∀ r b, Decidable (P r b)] :
    ∀ (l : List Nat) (p0 : Nat × β),
      (l.foldl (fun acc r => if P r acc.2 then (r, f r) else acc) p0).1 = p0.1 ∨
      (l.foldl (fun acc r => if P r acc.2 then (r, f r) else acc) p0).1 ∈ l
  | [], _ => Or.inl rfl
  | r :: t, p0 => by
    rw [List.foldl_cons]
    by_cases hc : P r p0.2
    · rw [if_pos hc]
      rcases foldPivot_fst_mem f P t (r, f r) with h | h
      · exact Or.inr (h ▸ List.mem_cons_self r t)
      · exact Or.inr (List.mem_cons_of_mem _ h)
    · rw [if_neg hc]
      rcases foldPivot_fst_mem f P t p0 with h | h
      · exact Or.inl h
      · exact Or.inr (List.mem_cons_of_mem _ h)

theorem findPivotH_lt (hp : Heap) (m : HMat) {cur : Nat} (col : Nat)
    (h : cur < m.rows) : findPivotH hp m cur col < m.rows := by
  unfold findPivotH findPivotH.pivotFoldH
  rcases foldPivot_fst_mem (fun r => |(HMat.getH hp m r col).toQ|)
      (fun r b => |(HMat.getH hp m r col).toQ| > b)
      (List.range' (cur + 1) (m.rows - (cur + 1)))
      (cur, |(HMat.getH hp m cur col).toQ|) with hh | hh
  · rw [hh]; exact h
  · have := List.mem_range'_1.mp hh
    omega

theorem hinv_write {h0 : Heap} {st : HState} (h : HInv h0 st) {a : Nat}
    (ha : h0.next ≤ a) (row : List Frac) :
    ∀ x, x < h0.next → (st.heap.write a row).mem x = h0.mem x := by
  intro x hx
  unfold Heap.write
  have hne : x ≠ a := by omega
  simp only [hne, if_false]
  exact h.2.2 x hx

theorem hinv_addr {h0 : Heap} {st : HState} (h : HInv h0 st) {i : Nat}
    (hi : i < st.m.rows) : h0.next ≤ st.m.rowAddrs.getD i 0 :=
  h.2.1 _ (getD_mem (h.1 ▸ hi) 0)

theorem hinv_swapStageH {h0 : Heap} {st : HState} (h : HInv h0 st)
    {p : Nat} (hcur : st.cur < st.m.rows) (hp : p < st.m.rows) :
    HInv h0 (swapStageH st p) := by
  unfold swapStageH
  by_cases hc : p ≠ st.cur
  · rw [if_pos hc]
    refine ⟨by simp [HMat.swapRowsH, h.1], ?_, h.2.2⟩
    intro a ha
    rcases List.mem_or_eq_of_mem_set ha with ha' | ha'
    · rcases List.mem_or_eq_of_mem_set ha' with ha'' | ha''
      · exact h.2.1 _ ha''
      · exact ha'' ▸ hinv_addr h hp
    · exact ha' ▸ hinv_addr h hcur
  · rw [if_neg hc]
    exact h

theorem swapStageH_m_rows (st : HState) (p : Nat) :
    (swapStageH st p).m.rows = st.m.rows := by
  unfold swapStageH
  by_cases hc : p ≠ st.cur
  · rw [if_pos hc]; rfl
  · rw [if_neg hc]

theorem swapStageH_cur (st : HState) (p : Nat) :
    (swapStageH st p).cur = st.cur := by
  unfold swapStageH
  by_cases hc : p ≠ st.cur
  · rw [if_pos hc]
  · rw [if_neg hc]

theorem hinv_scaleStageH {h0 : Heap} {st : HState} (h : HInv h0 st)
    (col : Nat) (hcur : st.cur < st.m.rows) : HInv h0 (scaleStageH st col) := by
  unfold scaleStageH
  by_cases hc : HMat.getH st.heap st.m st.cur col ≠ Frac.one
  · rw [if_pos hc]
    exact ⟨h.1, h.2.1, hinv_write h (hinv_addr h hcur) _⟩
  · rw [if_neg hc]
    exact h

theorem scaleStageH_m (st : HState) (col : Nat) :
    (scaleStageH st col).m = st.m := by
  unfold scaleStageH
  by_cases hc : HMat.getH st.heap st.m st.cur col ≠ Frac.one
  · rw [if_pos hc]
  · rw [if_neg hc]

theorem hinv_elimBodyH {h0 : Heap} {s : HState} (h : HInv h0 s)
    (col curR : Nat) {r : Nat} (hr : r < s.m.rows) :
    HInv h0 (elimBodyH col curR s r) := by
  unfold elimBodyH
  by_cases hc : r ≠ curR ∧ (HMat.getH s.heap s.m r col).isZero = false
  · rw [if_pos hc]
    exact ⟨h.1, h.2.1, hinv_write h (hinv_addr h hr) _⟩
  · rw [if_neg hc]
    exact h

theorem elimBodyH_m (col curR : Nat) (s : HState) (r : Nat) :
    (elimBodyH col curR s r).m = s.m := by
  unfold elimBodyH
  by_cases hc : r ≠ curR ∧ (HMat.getH s.heap s.m r col).isZero = false
  · rw [if_pos hc]
  · rw [if_neg hc]

theorem hinv_elimFoldH {h0 : Heap} (col curR : Nat) (l : List Nat)
    (s : HState) (h : HInv h0 s) (hl : ∀ r ∈ l, r < s.m.rows) :
    HInv h0 (l.foldl (elimBodyH col curR) s) := by
  induction l generalizing s with
  | nil => exact h
  | cons r t ih =>
    rw [List.foldl_cons]
    refine ih _ (hinv_elimBodyH h col curR (hl r (List.mem_cons_self r t))) ?_
    intro r' hr'
    rw [elimBodyH_m]
    exact hl r' (List.mem_cons_of_mem _ hr')

theorem hinv_rrefStepH {h0 : Heap} (st : HState) (col : Nat)
    (h : HInv h0 st) : HInv h0 (rrefStepH st col) := by
  unfold rrefStepH
  by_cases h1 : st.cur < st.m.rows
  · rw [if_pos h1]
    by_cases h2 : (HMat.getH st.heap st.m (findPivotH st.heap st.m st.cur col) col).isZero = true
    · rw [if_pos h2]
      exact h
    · rw [if_neg h2]
      have hp := findPivotH_lt st.heap st.m col h1
      have hA := hinv_swapStageH h h1 hp
      have hB := hinv_scaleStageH hA col
        (by rw [swapStageH_m_rows, swapStageH_cur]; exact h1)
      have hC := hinv_elimFoldH col st.cur
        (List.range (scaleStageH (swapStageH st (findPivotH st.heap st.m st.cur col)) col).m.rows)
        _ hB (fun r hr => List.mem_range.mp hr)
      exact ⟨hC.1, hC.2.1, hC.2.2⟩
  · rw [if_neg h1]
    exact h

theorem hinv_rrefFoldH {h0 : Heap} (l : List Nat) (st : HState)
    (h : HInv h0 st) : HInv h0 (l.foldl rrefStepH st) := by
  induction l generalizing st with
  | nil => exact h
  | cons c t ih =>
    rw [List.foldl_cons]
    exact ih _ (hinv_rrefStepH st c h)

theorem cloneH_hinv (h : Heap) (matrix : HMat)
    (hlen : matrix.rowAddrs.length = matrix.rows) :
    HInv h ⟨(cloneH h matrix).1, (cloneH h matrix).2, [], 0⟩ := by
  refine ⟨by simp [cloneH, hlen], ?_, ?_⟩
  · intro a ha
    simp only [cloneH, List.mem_map, List.mem_range] at ha
    obtain ⟨k, hk, rfl⟩ := ha
    omega
  · intro a ha
    simp only [cloneH]
    have hcond : ¬ (h.next ≤ a ∧ a < h.next + matrix.rowAddrs.length) := by omega
    rw [if_neg hcond]

/-- C5: `computeRREF` operates only on its clone.  For any heap and any
matrix whose row arrays are allocated below the current frontier, after
the call every address below the frontier is untouched (in particular
every entry of the caller's matrix reads back unchanged), and no row
address of the returned reduced matrix is shared with the caller's
matrix. -/
theorem c5_computeRREF_operates_on_clone (h : Heap) (matrix : HMat)
    (hlen : matrix.rowAddrs.length = matrix.rows)
    (hwf : ∀ a ∈ matrix.rowAddrs, a < h.next) :
    (∀ a, a < h.next → (computeRREFHeap matrix h).2.mem a = h.mem a) ∧
    (∀ i, i < matrix.rows → ∀ j,
      HMat.getH (computeRREFHeap matrix h).2 matrix i j = HMat.getH h matrix i j) ∧
    (∀ a ∈ (computeRREFHeap matrix h).1.rowAddrs, a ∉ matrix.rowAddrs) := by
  have hinv := hinv_rrefFoldH (List.range matrix.cols)
    ⟨(cloneH h matrix).1, (cloneH h matrix).2, [], 0⟩ (cloneH_hinv h matrix hlen)
  refine ⟨hinv.2.2, ?_, ?_⟩
  · intro i hi j
    have he : (computeRREFHeap matrix h).2.mem (matrix.rowAddrs.getD i 0)
        = h.mem (matrix.rowAddrs.getD i 0) :=
      hinv.2.2 _ (hwf _ (getD_mem (hlen ▸ hi) 0))
    unfold HMat.getH
    rw [he]
  · intro a ha hmem
    have hge := hinv.2.1 a ha
    have hlt := hwf a hmem
    omega

/-- Witness for C5 at a concrete heap and matrix. -/
theorem c5_computeRREF_operates_on_clone_witness :
    letI h : Heap := ⟨fun a => if a = 0 then [⟨1, 1⟩, ⟨2, 1⟩]
      else if a = 1 then [⟨3, 1⟩, ⟨4, 1⟩] else [], 2⟩
    letI matrix : HMat := ⟨2, 2, [0, 1]⟩
    (∀ a, a < h.next → (computeRREFHeap matrix h).2.mem a = h.mem a) ∧
    (∀ i, i < matrix.rows → ∀ j,
      HMat.getH (computeRREFHeap matrix h).2 matrix i j = HMat.getH h matrix i j) ∧
    (∀ a ∈ (computeRREFHeap matrix h).1.rowAddrs, a ∉ matrix.rowAddrs) :=
  c5_computeRREF_operates_on_clone
    ⟨fun a => if a = 0 then [⟨1, 1⟩, ⟨2, 1⟩]
      else if a = 1 then [⟨3, 1⟩, ⟨4, 1⟩] else [], 2⟩
    ⟨2, 2, [0, 1]⟩ (by decide) (by decide)

/-! ## The subspace calculator (`src/unnamed/part_002`, spaceCalculator.js) -/

/-- `computeColumnSpace` (spaceCalculator.js lines 13-27): the columns of
the original matrix at the pivot indices. -/
def computeColumnSpace (matrix : Mat) : List (List Frac) :=
  (computeRREF matrix false).pivots.map
    (fun col => (List.range matrix.rows).map (fun i => matrix.get i col))

/-- `computeRowSpace` (spaceCalculator.js lines 33-37). -/
def computeRowSpace (matrix : Mat) : List (List Frac) :=
  getNonZeroRows (computeRREF matrix false).rref

/-- The inner sum of the back-substitution
(spaceCalculator.js lines 70-75): `Σ_{j > pivotCol} rref[i][j] * vec[j]`. -/
def nullSpaceRowSum (rref : Mat) (i : Nat) (vec : List Frac) (pivotCol n : Nat) : Frac :=
  (List.range' (pivotCol + 1) (n - (pivotCol + 1))).foldl
    (fun s j => s.add ((rref.get i j).mul (vec.getD j Frac.zero))) Frac.zero

/-- One step of the back-substitution loop (spaceCalculator.js lines
68-78): solve pivot variable `i`. -/
def backSubStep (rref : Mat) (pivots : List Nat) (n : Nat) (i : Nat)
    (vec : List Frac) : List Frac :=
  let pivotCol := pivots.getD i 0
  vec.set pivotCol (nullSpaceRowSum rref i vec pivotCol n).neg

/-- The basis vector for one free column (spaceCalculator.js lines 63-80):
start from the all-zeros vector with a 1 at the free column, then run the
back-substitution from the last pivot row down to the first. -/
def nullBasisVector (rref : Mat) (pivots : List Nat) (n freeVar : Nat) : List Frac :=
  let v0 := (List.replicate n Frac.zero).set freeVar Frac.one
  (List.range pivots.length).foldr (backSubStep rref pivots n) v0

/-- `computeNullSpace` (spaceCalculator.js lines 43-84). -/
def computeNullSpace (matrix : Mat) : List (List Frac) :=
  let res := computeRREF matrix false
  let n := matrix.cols
  let freeVars := (List.range n).filter (fun j => j ∉ res.pivots)
  freeVars.map (nullBasisVector res.rref res.pivots n)

/-- `computeLeftNullSpace` (spaceCalculator.js lines 90-93). -/
def computeLeftNullSpace (matrix : Mat) : List (List Frac) :=
  computeNullSpace matrix.transpose

/-- The dimension-relevant part of one subspace entry of the report
(`basis` in exact form plus `dimension`; the float `basis` values and
LaTeX strings of `formatBasis` carry no algorithmic content). -/
structure SubspaceInfo where
  basis : List (List Frac)
  dimension : Nat
deriving Repr, DecidableEq

/-- The result object of `computeAllSpaces` (spaceCalculator.js lines
170-217), restricted to its exact numeric content. -/
structure Report where
  rows : Nat
  cols : Nat
  rank : Nat
  rrefMatrix : Mat
  pivots : List Nat
  column_space : SubspaceInfo
  row_space : SubspaceInfo
  null_space : SubspaceInfo
  left_null_space : SubspaceInfo
  dimension_check_valid : Bool
  operations : Option (List OpRec)
deriving Repr, DecidableEq

/-- The `dimension_check.valid` flag (spaceCalculator.js lines 210-215),
with the two JS subtractions carried out over ℤ as JS numbers would. -/
def dimensionCheckValid (colLen rowLen nullLen leftLen rank m n : Nat) : Bool :=
  colLen = rank ∧ rowLen = rank ∧ (nullLen : Int) = (n : Int) - (rank : Int) ∧
    (leftLen : Int) = (m : Int) - (rank : Int)

/-- `computeAllSpaces` (spaceCalculator.js lines 134-225): validation,
then `Matrix` construction, RREF, the four subspaces and the report.  All
arithmetic is total here; `computeAllSpacesE` below re-runs the same
pipeline with every JS `throw` site checked. -/
def computeAllSpaces (matrixData : List (List Frac)) (trackOperations : Bool) :
    Except String Report :=
  if matrixData.length = 0 then .error "Matrix cannot be empty"
  else if ¬ (matrixData.all (fun row => row.length = (matrixData.headD []).length)) then
    .error "All rows must have the same number of columns"
  else
    let m := matrixData.length
    let n := (matrixData.headD []).length
    if m > 5 ∨ n > 5 then .error "Matrix dimensions must be ≤ 5×5"
    else
      let matrix := mkMat matrixData
      let res := computeRREF matrix trackOperations
      let rank := res.pivots.length
      let columnSpace := computeColumnSpace matrix
      let rowSpace := computeRowSpace matrix
      let nullSpace := computeNullSpace matrix
      let leftNullSpace := computeLeftNullSpace matrix
      .ok
        { rows := m, cols := n, rank := rank, rrefMatrix := res.rref,
          pivots := res.pivots,
          column_space := ⟨columnSpace, columnSpace.length⟩,
          row_space := ⟨rowSpace, rowSpace.length⟩,
          null_space := ⟨nullSpace, nullSpace.length⟩,
          left_null_space := ⟨leftNullSpace, leftNullSpace.length⟩,
          dimension_check_valid := dimensionCheckValid columnSpace.length
            rowSpace.length nullSpace.length leftNullSpace.length rank m n,
          operations := res.operations }

/-- `validateMatrix` (src/unnamed/part_003, lines 82-114).  The
`typeof val === 'number' && isFinite(val)` per-entry check is vacuous in
this embedding (every entry is already an exact rational, the image of
`Fraction.from` on a finite JS number). -/
def validateMatrix (matrixData : List (List Frac)) : Except String (Nat × Nat) :=
  if matrixData.length = 0 then .error "Matrix cannot be empty"
  else
    let rows := matrixData.length
    let cols := (matrixData.headD []).length
    if cols = 0 then .error "Matrix must have at least one column"
    else if rows > 5 ∨ cols > 5 then .error "Matrix dimensions must be ≤ 5×5"
    else if ¬ (matrixData.all (fun row => row.length = cols)) then
      .error "All rows must have the same number of columns"
    else .ok (rows, cols)

/-! ## The checked pipeline: every JS `throw` site as an `Except` error

The JS code can only throw from the `Fraction` constructor (zero
denominator) and from `Fraction.divide` (zero divisor).  The following
functions re-run the engine with those guards explicit; claim C6 is that
on validated input they all return `ok` with the values of the total
versions above. -/

/-- `Fraction.from` on a value that is already a `Fraction`
(fractionUtils.js lines 186-188): returned unchanged, no failure. -/
def Frac.fromE (value : Frac) : Except String Frac := .ok value

/-- Error-propagating map (the JS `row.map(...)` where the body can
throw). -/
def mapME {α β : Type} (f : α → Except String β) : List α → Except String (List β)
  | [] => pure []
  | x :: t => do
    let y ← f x
    let ys ← mapME f t
    pure (y :: ys)

/-- The `Matrix` constructor with its only possible failure source,
`Fraction.from` on each entry (rrefCalculator.js lines 12-19); there is no
rectangularity check. -/
def mkMatE (data : List (List Frac)) : Except String Mat := do
  let d ← mapME (fun row => mapME Frac.fromE row) data
  pure ⟨d, d.length, (d.headD []).length⟩

def Mat.multiplyRowE (m : Mat) (i : Nat) (s : Frac) : Except String Mat := do
  let row ← mapME (fun x => x.mulE s) (m.data.getD i [])
  pure { m with data := m.data.set i row }

def Mat.addRowMultipleE (m : Mat) (i j : Nat) (s : Frac) : Except String Mat := do
  let row ← mapME
    (fun p => do
      let q ← p.2.mulE s
      p.1.addE q)
    (List.zip (m.data.getD i []) (m.data.getD j []))
  pure { m with data := m.data.set i row }

def swapStageE (st : RState) (p : Nat) : Except String RState := pure (swapStage st p)

def scaleStageE (st : RState) (col : Nat) : Except String RState :=
  let pivot := st.m.get st.cur col
  if pivot ≠ Frac.one then do
    let scalar ← Frac.one.divE pivot
    let m' ← st.m.multiplyRowE st.cur scalar
    pure { st with m := m', ops := st.ops ++ [⟨.scale st.cur scalar, st.m, m'⟩] }
  else pure st

def elimBodyE (col curR : Nat) (s : RState) (r : Nat) : Except String RState :=
  if r ≠ curR ∧ (s.m.get r col).isZero = false then do
    let factor ← (s.m.get r col).negE
    let m' ← s.m.addRowMultipleE r curR factor
    pure { s with m := m', ops := s.ops ++ [⟨.add r curR factor, s.m, m'⟩] }
  else pure s

def rrefStepE (st : RState) (col : Nat) : Except String RState :=
  if st.cur < st.m.rows then
    let p := findPivot st.m st.cur col
    if (st.m.get p col).isZero then pure st
    else do
      let st1 ← swapStageE st p
      let st2 ← scaleStageE st1 col
      let st3 ← (List.range st2.m.rows).foldlM (elimBodyE col st.cur) st2
      pure { st3 with pivots := st3.pivots ++ [col], cur := st.cur + 1 }
  else pure st

def computeRREFE (matrix : Mat) (trackOperations : Bool) :
    Except String RRefResult := do
  let st ← (List.range matrix.cols).foldlM rrefStepE ⟨matrix, [], 0, []⟩
  pure ⟨st.m, st.pivots, if trackOperations then some st.ops else none⟩

def computeColumnSpaceE (matrix : Mat) : Except String (List (List Frac)) := do
  let res ← computeRREFE matrix false
  pure (res.pivots.map
    (fun col => (List.range matrix.rows).map (fun i => matrix.get i col)))

def computeRowSpaceE (matrix : Mat) : Except String (List (List Frac)) := do
  let res ← computeRREFE matrix false
  pure (getNonZeroRows res.rref)

def nullSpaceRowSumE (rref : Mat) (i : Nat) (vec : List Frac) (pivotCol n : Nat) :
    Except String Frac :=
  (List.range' (pivotCol + 1) (n - (pivotCol + 1))).foldlM
    (fun s j => do
      let p ← (rref.get i j).mulE (vec.getD j Frac.zero)
      s.addE p)
    Frac.zero

def backSubStepE (rref : Mat) (pivots : List Nat) (n : Nat) (i : Nat)
    (vec : List Frac) : Except String (List Frac) := do
  let pivotCol := pivots.getD i 0
  let s ← nullSpaceRowSumE rref i vec pivotCol n
  let sn ← s.negE
  pure (vec.set pivotCol sn)

def nullBasisVectorE (rref : Mat) (pivots : List Nat) (n freeVar : Nat) :
    Except String (List Frac) :=
  let v0 := (List.replicate n Frac.zero).set freeVar Frac.one
  (List.range pivots.length).foldrM (backSubStepE rref pivots n) v0

def computeNullSpaceE (matrix : Mat) : Except String (List (List Frac)) := do
  let res ← computeRREFE matrix false
  let n := matrix.cols
  let freeVars := (List.range n).filter (fun j => j ∉ res.pivots)
  mapME (nullBasisVectorE res.rref res.pivots n) freeVars

def computeLeftNullSpaceE (matrix : Mat) : Except String (List (List Frac)) :=
  computeNullSpaceE matrix.transpose

/-- `computeAllSpaces` with every arithmetic failure site checked. -/
def computeAllSpacesE (matrixData : List (List Frac)) (trackOperations : Bool) :
    Except String Report :=
  if matrixData.length = 0 then .error "Matrix cannot be empty"
  else if ¬ (matrixData.all (fun row => row.length = (matrixData.headD []).length)) then
    .error "All rows must have the same number of columns"
  else
    let m := matrixData.length
    let n := (matrixData.headD []).length
    if m > 5 ∨ n > 5 then .error "Matrix dimensions must be ≤ 5×5"
    else do
      let matrix ← mkMatE matrixData
      let res ← computeRREFE matrix trackOperations
      let rank := res.pivots.length
      let columnSpace ← computeColumnSpaceE matrix
      let rowSpace ← computeRowSpaceE matrix
      let nullSpace ← computeNullSpaceE matrix
      let leftNullSpace ← computeLeftNullSpaceE matrix
      pure
        { rows := m, cols := n, rank := rank, rrefMatrix := res.rref,
          pivots := res.pivots,
          column_space := ⟨columnSpace, columnSpace.length⟩,
          row_space := ⟨rowSpace, rowSpace.length⟩,
          null_space := ⟨nullSpace, nullSpace.length⟩,
          left_null_space := ⟨leftNullSpace, leftNullSpace.length⟩,
          dimension_check_valid := dimensionCheckValid columnSpace.length
            rowSpace.length nullSpace.length leftNullSpace.length rank m n,
          operations := res.operations }

/-! ### On validated input the checked pipeline never fails (C6) -/

theorem bindE_ok {α β : Type} (v : α) (f : α → Except String β) :
    (Except.ok v >>= f) = f v := rfl

theorem Frac.addE_ok {a b : Frac} (ha : a.den ≠ 0) (hb : b.den ≠ 0) :
    a.addE b = .ok (a.add b) := by
  unfold Frac.addE Frac.add mkFracE
  rw [if_neg (mul_ne_zero ha hb)]

theorem Frac.mulE_ok {a b : Frac} (ha : a.den ≠ 0) (hb : b.den ≠ 0) :
    a.mulE b = .ok (a.mul b) := by
  unfold Frac.mulE Frac.mul mkFracE
  rw [if_neg (mul_ne_zero ha hb)]

theorem Frac.negE_ok {a : Frac} (ha : a.den ≠ 0) : a.negE = .ok a.neg := by
  unfold Frac.negE Frac.neg mkFracE
  rw [if_neg ha]

theorem Frac.divE_ok {a b : Frac} (ha : a.den ≠ 0) (hbn : b.num ≠ 0) :
    a.divE b = .ok (a.div b) := by
  unfold Frac.divE Frac.div mkFracE
  rw [if_neg hbn, if_neg (mul_ne_zero ha hbn)]

theorem getD_oob {α : Type} {l : List α} {i : Nat} (h : l.length ≤ i) (d : α) :
    l.getD i d = d := by
  rw [List.getD_eq_getElem?_getD, List.getElem?_eq_none h]
  rfl

theorem wf_row_entries {m : Mat} (h : m.WF) (i : Nat) :
    ∀ x ∈ m.data.getD i [], x.Reduced := by
  by_cases hi : i < m.data.length
  · exact h.2.2 _ (getD_mem hi [])
  · rw [getD_oob (by omega) []]
    intro x hx
    exact absurd hx (List.not_mem_nil x)

theorem Mat.get_reduced_all {m : Mat} (h : m.WF) (i j : Nat) :
    (m.get i j).Reduced := by
  unfold Mat.get
  by_cases hj : j < (m.data.getD i []).length
  · exact wf_row_entries h i _ (getD_mem hj Frac.zero)
  · rw [getD_oob (by omega) Frac.zero]
    exact Frac.zero_reduced

theorem getD_reduced {vec : List Frac} (h : ∀ x ∈ vec, x.Reduced) (j : Nat) :
    (vec.getD j Frac.zero).Reduced := by
  by_cases hj : j < vec.length
  · exact h _ (getD_mem hj Frac.zero)
  · rw [getD_oob (by omega) Frac.zero]
    exact Frac.zero_reduced

theorem mapME_ok {α β : Type} (f : α → Except String β) (g : α → β) :
    ∀ (l : List α), (∀ x ∈ l, f x = .ok (g x)) → mapME f l = .ok (l.map g)
  | [], _ => rfl
  | x :: t, h => by
    unfold mapME
    rw [h x (List.mem_cons_self x t), bindE_ok,
      mapME_ok f g t (fun y hy => h y (List.mem_cons_of_mem _ hy)), bindE_ok]
    rfl

theorem map_zip_eq_zipWith {α β γ : Type} (f : α → β → γ) :
    ∀ (l1 : List α) (l2 : List β),
      (List.zip l1 l2).map (fun p => f p.1 p.2) = List.zipWith f l1 l2
  | [], _ => by simp
  | _ :: _, [] => by simp
  | a :: t1, b :: t2 => by
    simp only [List.zip_cons_cons, List.map_cons, List.zipWith_cons_cons]
    rw [map_zip_eq_zipWith f t1 t2]

theorem Mat.multiplyRowE_ok {m : Mat} (h : m.WF) (i : Nat) {s : Frac}
    (hs : s.den ≠ 0) : m.multiplyRowE i s = .ok (m.multiplyRow i s) := by
  unfold Mat.multiplyRowE Mat.multiplyRow
  rw [mapME_ok (fun x => x.mulE s) (fun x => x.mul s) _
    (fun x hx => Frac.mulE_ok (wf_row_entries h i x hx).den_ne hs), bindE_ok]
  rfl

theorem Mat.addRowMultipleE_ok {m : Mat} (h : m.WF) (i j : Nat) {s : Frac}
    (hs : s.den ≠ 0) : m.addRowMultipleE i j s = .ok (m.addRowMultiple i j s) := by
  unfold Mat.addRowMultipleE Mat.addRowMultiple
  have hrow : List.map (fun p : Frac × Frac => p.1.add (p.2.mul s))
      (List.zip (m.data.getD i []) (m.data.getD j []))
      = List.zipWith (fun t u => t.add (u.mul s))
        (m.data.getD i []) (m.data.getD j []) :=
    map_zip_eq_zipWith (fun t u => t.add (u.mul s))
      (m.data.getD i []) (m.data.getD j [])
  rw [mapME_ok _ (fun p : Frac × Frac => p.1.add (p.2.mul s)) _ ?_, bindE_ok, hrow]
  · rfl
  · intro p hp
    have hmem := List.of_mem_zip hp
    have h1 : p.1.Reduced := wf_row_entries h i _ hmem.1
    have h2 : p.2.Reduced := wf_row_entries h j _ hmem.2
    rw [Frac.mulE_ok h2.den_ne hs, bindE_ok,
      Frac.addE_ok h1.den_ne (Frac.mul_reduced h2.den_ne hs).den_ne]

theorem mkMatE_ok (data : List (List Frac)) : mkMatE data = .ok (mkMat data) := by
  unfold mkMatE mkMat
  rw [mapME_ok _ (fun row => row) _ ?_, bindE_ok]
  · rw [List.map_id']
    rfl
  · intro row _
    rw [mapME_ok Frac.fromE (fun x => x) _ (fun x _ => rfl)]
    rw [List.map_id']

/-! ### Shape bookkeeping for the elimination stages -/

theorem swapStage_m_rows (st : RState) (p : Nat) :
    (swapStage st p).m.rows = st.m.rows := by
  unfold swapStage; split <;> rfl

theorem swapStage_m_cols (st : RState) (p : Nat) :
    (swapStage st p).m.cols = st.m.cols := by
  unfold swapStage; split <;> rfl

theorem swapStage_cur (st : RState) (p : Nat) :
    (swapStage st p).cur = st.cur := by
  unfold swapStage; split <;> rfl

theorem swapStage_pivots (st : RState) (p : Nat) :
    (swapStage st p).pivots = st.pivots := by
  unfold swapStage; split <;> rfl

theorem scaleStage_m_rows (st : RState) (col : Nat) :
    (scaleStage st col).m.rows = st.m.rows := by
  simp only [scaleStage]; split <;> rfl

theorem scaleStage_m_cols (st : RState) (col : Nat) :
    (scaleStage st col).m.cols = st.m.cols := by
  simp only [scaleStage]; split <;> rfl

theorem scaleStage_cur (st : RState) (col : Nat) :
    (scaleStage st col).cur = st.cur := by
  simp only [scaleStage]; split <;> rfl

theorem scaleStage_pivots (st : RState) (col : Nat) :
    (scaleStage st col).pivots = st.pivots := by
  simp only [scaleStage]; split <;> rfl

theorem elimBody_m_rows (col curR : Nat) (s : RState) (r : Nat) :
    (elimBody col curR s r).m.rows = s.m.rows := by
  unfold elimBody; split <;> rfl

theorem elimBody_m_cols (col curR : Nat) (s : RState) (r : Nat) :
    (elimBody col curR s r).m.cols = s.m.cols := by
  unfold elimBody; split <;> rfl

theorem elimBody_cur (col curR : Nat) (s : RState) (r : Nat) :
    (elimBody col curR s r).cur = s.cur := by
  unfold elimBody; split <;> rfl

theorem elimBody_pivots (col curR : Nat) (s : RState) (r : Nat) :
    (elimBody col curR s r).pivots = s.pivots := by
  unfold elimBody; split <;> rfl

theorem elimFold_m_rows (col curR : Nat) :
    ∀ (l : List Nat) (s : RState),
      (l.foldl (elimBody col curR) s).m.rows = s.m.rows
  | [], _ => rfl
  | r :: t, s => by
    rw [List.foldl_cons, elimFold_m_rows col curR t, elimBody_m_rows]

theorem elimFold_m_cols (col curR : Nat) :
    ∀ (l : List Nat) (s : RState),
      (l.foldl (elimBody col curR) s).m.cols = s.m.cols
  | [], _ => rfl
  | r :: t, s => by
    rw [List.foldl_cons, elimFold_m_cols col curR t, elimBody_m_cols]

theorem elimFold_cur (col curR : Nat) :
    ∀ (l : List Nat) (s : RState),
      (l.foldl (elimBody col curR) s).cur = s.cur
  | [], _ => rfl
  | r :: t, s => by
    rw [List.foldl_cons, elimFold_cur col curR t, elimBody_cur]

theorem elimFold_pivots (col curR : Nat) :
    ∀ (l : List Nat) (s : RState),
      (l.foldl (elimBody col curR) s).pivots = s.pivots
  | [], _ => rfl
  | r :: t, s => by
    rw [List.foldl_cons, elimFold_pivots col curR t, elimBody_pivots]

theorem swapStage_wf {st : RState} (h : st.m.WF) {p : Nat}
    (hcur : st.cur < st.m.rows) (hp : p < st.m.rows) :
    (swapStage st p).m.WF := by
  unfold swapStage
  by_cases hc : p ≠ st.cur
  · rw [if_pos hc]
    exact h.swapRows hcur hp
  · rw [if_neg hc]
    exact h

theorem swapStage_get_cur {st : RState} (h : st.m.WF) {p : Nat}
    (hcur : st.cur < st.m.rows) (hp : p < st.m.rows) (col : Nat) :
    (swapStage st p).m.get st.cur col = st.m.get p col := by
  unfold swapStage
  by_cases hc : p ≠ st.cur
  · rw [if_pos hc]
    show (st.m.swapRows st.cur p).get st.cur col = _
    rw [Mat.get_swapRows st.m (h.1 ▸ hcur) (h.1 ▸ hp)]
    by_cases hcp : st.cur = p
    · rw [if_pos hcp, hcp]
    · rw [if_neg hcp, if_pos rfl]
  · rw [if_neg hc, not_not.mp hc]

theorem scaleStageE_ok {st : RState} (h : st.m.WF) {col : Nat}
    (hcur : st.cur < st.m.rows)
    (hnz : (st.m.get st.cur col).isZero = false) :
    scaleStageE st col = .ok (scaleStage st col) ∧ (scaleStage st col).m.WF := by
  have hpnum : (st.m.get st.cur col).num ≠ 0 := by
    unfold Frac.isZero at hnz
    simpa using hnz
  simp only [scaleStageE, scaleStage]
  by_cases hc : st.m.get st.cur col ≠ Frac.one
  · have hscal : (Frac.one.div (st.m.get st.cur col)).Reduced :=
      Frac.div_reduced (by decide) hpnum
    constructor
    · simp only [if_pos hc]
      rw [Frac.divE_ok (by decide) hpnum, bindE_ok,
        Mat.multiplyRowE_ok h st.cur hscal.den_ne, bindE_ok]
      rfl
    · simp only [if_pos hc]
      exact h.multiplyRow hcur hscal.den_ne
  · simp only [if_neg hc]
    exact ⟨rfl, h⟩

theorem elimBodyE_ok {s : RState} (h : s.m.WF) (col curR : Nat) {r : Nat}
    (hr : r < s.m.rows) (hcur : curR < s.m.rows) :
    elimBodyE col curR s r = .ok (elimBody col curR s r) ∧
      (elimBody col curR s r).m.WF := by
  have hred : (s.m.get r col).Reduced := Mat.get_reduced_all h _ _
  simp only [elimBodyE, elimBody]
  by_cases hc : r ≠ curR ∧ (s.m.get r col).isZero = false
  · constructor
    · simp only [if_pos hc]
      rw [Frac.negE_ok hred.den_ne, bindE_ok,
        Mat.addRowMultipleE_ok h r curR (Frac.neg_reduced hred.den_ne).den_ne,
        bindE_ok]
      rfl
    · simp only [if_pos hc]
      exact h.addRowMultiple hr hcur (Frac.neg_reduced hred.den_ne).den_ne
  · simp only [if_neg hc]
    exact ⟨rfl, h⟩

theorem foldlM_ok_inv {α β : Type} (P : β → Prop) (f : β → α → Except String β)
    (g : β → α → β) :
    ∀ (l : List α) (b : β), P b →
      (∀ b' x, P b' → x ∈ l → f b' x = .ok (g b' x) ∧ P (g b' x)) →
      l.foldlM f b = .ok (l.foldl g b) ∧ P (l.foldl g b)
  | [], b, hb, _ => ⟨rfl, hb⟩
  | x :: t, b, hb, hstep => by
    have hx := hstep b x hb (List.mem_cons_self x t)
    rw [List.foldl_cons, List.foldlM_cons, hx.1, bindE_ok]
    exact foldlM_ok_inv P f g t (g b x) hx.2
      (fun b' y hb' hy => hstep b' y hb' (List.mem_cons_of_mem _ hy))

theorem foldrM_ok_inv {α β : Type} (P : β → Prop) (f : α → β → Except String β)
    (g : α → β → β) :
    ∀ (l : List α) (b : β), P b →
      (∀ b' x, P b' → x ∈ l → f x b' = .ok (g x b') ∧ P (g x b')) →
      l.foldrM f b = .ok (l.foldr g b) ∧ P (l.foldr g b)
  | [], b, hb, _ => ⟨rfl, hb⟩
  | x :: t, b, hb, hstep => by
    have ht := foldrM_ok_inv P f g t b hb
      (fun b' y hb' hy => hstep b' y hb' (List.mem_cons_of_mem _ hy))
    have hx := hstep (t.foldr g b) x ht.2 (List.mem_cons_self x t)
    rw [List.foldr_cons, List.foldrM_cons, ht.1, bindE_ok, hx.1]
    exact ⟨rfl, hx.2⟩

theorem rrefStepE_ok (st : RState) (col : Nat) (h : st.m.WF) :
    rrefStepE st col = .ok (rrefStep st col) ∧ (rrefStep st col).m.WF ∧
      (rrefStep st col).m.rows = st.m.rows ∧
      (rrefStep st col).m.cols = st.m.cols := by
  simp only [rrefStepE, rrefStep]
  by_cases h1 : st.cur < st.m.rows
  case neg =>
    simp only [if_neg h1]
    exact ⟨by trivial, h, by trivial, by trivial⟩
  simp only [if_pos h1]
  by_cases h2 : (st.m.get (findPivot st.m st.cur col) col).isZero = true
  · simp only [if_pos h2]
    exact ⟨by trivial, h, by trivial, by trivial⟩
  · simp only [if_neg h2]
    obtain ⟨hple, hplt, hmax, htie⟩ := findPivot_spec st.m col h1
    set p := findPivot st.m st.cur col with hpdef
    have hnz : (st.m.get p col).isZero = false := by
      cases hzz : (st.m.get p col).isZero
      · rfl
      · exact absurd hzz h2
    have hwf1 : (swapStage st p).m.WF := swapStage_wf h h1 hplt
    have hcur1 : (swapStage st p).cur < (swapStage st p).m.rows := by
      rw [swapStage_cur, swapStage_m_rows]
      exact h1
    have hnz1 : ((swapStage st p).m.get (swapStage st p).cur col).isZero = false := by
      rw [swapStage_cur, swapStage_get_cur h h1 hplt]
      exact hnz
    have hscale := scaleStageE_ok hwf1 hcur1 hnz1
    rw [show swapStageE st p = Except.ok (swapStage st p) from rfl, bindE_ok]
    rw [hscale.1, bindE_ok]
    have hfold := foldlM_ok_inv
      (fun s => s.m.WF ∧ s.m.rows = st.m.rows ∧ s.m.cols = st.m.cols)
      (elimBodyE col st.cur) (elimBody col st.cur)
      (List.range (scaleStage (swapStage st p) col).m.rows)
      (scaleStage (swapStage st p) col)
      ⟨hscale.2, by rw [scaleStage_m_rows, swapStage_m_rows],
        by rw [scaleStage_m_cols, swapStage_m_cols]⟩
      ?step
    case step =>
      intro s r hs hr
      have hr' : r < st.m.rows := by
        have hmem := List.mem_range.mp hr
        rwa [scaleStage_m_rows, swapStage_m_rows] at hmem
      have hr1 : r < s.m.rows := by rw [hs.2.1]; exact hr'
      have hc1 : st.cur < s.m.rows := by rw [hs.2.1]; exact h1
      have he := elimBodyE_ok hs.1 col st.cur hr1 hc1
      refine ⟨he.1, he.2, ?_, ?_⟩
      · rw [elimBody_m_rows]; exact hs.2.1
      · rw [elimBody_m_cols]; exact hs.2.2
    rw [hfold.1, bindE_ok]
    exact ⟨rfl, hfold.2.1, hfold.2.2.1, hfold.2.2.2⟩

theorem rrefStep_m_rows (st : RState) (col : Nat) :
    (rrefStep st col).m.rows = st.m.rows := by
  simp only [rrefStep]
  by_cases h1 : st.cur < st.m.rows
  · simp only [if_pos h1]
    by_cases h2 : (st.m.get (findPivot st.m st.cur col) col).isZero = true
    · simp only [if_pos h2]
    · simp only [if_neg h2]
      exact (elimFold_m_rows col st.cur _ _).trans
        ((scaleStage_m_rows _ _).trans (swapStage_m_rows _ _))
  · simp only [if_neg h1]

theorem rrefStep_m_cols (st : RState) (col : Nat) :
    (rrefStep st col).m.cols = st.m.cols := by
  simp only [rrefStep]
  by_cases h1 : st.cur < st.m.rows
  · simp only [if_pos h1]
    by_cases h2 : (st.m.get (findPivot st.m st.cur col) col).isZero = true
    · simp only [if_pos h2]
    · simp only [if_neg h2]
      exact (elimFold_m_cols col st.cur _ _).trans
        ((scaleStage_m_cols _ _).trans (swapStage_m_cols _ _))
  · simp only [if_neg h1]

theorem rrefFold_m_rows :
    ∀ (l : List Nat) (st : RState),
      (l.foldl rrefStep st).m.rows = st.m.rows
  | [], _ => rfl
  | c :: t, st => by
    rw [List.foldl_cons, rrefFold_m_rows t, rrefStep_m_rows]

theorem rrefFold_m_cols :
    ∀ (l : List Nat) (st : RState),
      (l.foldl rrefStep st).m.cols = st.m.cols
  | [], _ => rfl
  | c :: t, st => by
    rw [List.foldl_cons, rrefFold_m_cols t, rrefStep_m_cols]

theorem computeRREFE_ok (matrix : Mat) (track : Bool) (h : matrix.WF) :
    computeRREFE matrix track = .ok (computeRREF matrix track) ∧
      (computeRREF matrix track).rref.WF := by
  have hfold := foldlM_ok_inv (fun s : RState => s.m.WF) rrefStepE rrefStep
    (List.range matrix.cols) ⟨matrix, [], 0, []⟩ h
    (fun s c hs _ => ⟨(rrefStepE_ok s c hs).1, (rrefStepE_ok s c hs).2.1⟩)
  simp only [computeRREFE, computeRREF]
  rw [hfold.1, bindE_ok]
  exact ⟨rfl, hfold.2⟩

theorem computeRREF_rref_rows (matrix : Mat) (track : Bool) :
    (computeRREF matrix track).rref.rows = matrix.rows := by
  simp only [computeRREF]
  exact rrefFold_m_rows _ _

theorem computeRREF_rref_cols (matrix : Mat) (track : Bool) :
    (computeRREF matrix track).rref.cols = matrix.cols := by
  simp only [computeRREF]
  exact rrefFold_m_cols _ _

theorem computeColumnSpaceE_ok (matrix : Mat) (h : matrix.WF) :
    computeColumnSpaceE matrix = .ok (computeColumnSpace matrix) := by
  unfold computeColumnSpaceE computeColumnSpace
  rw [(computeRREFE_ok matrix false h).1, bindE_ok]
  rfl

theorem computeRowSpaceE_ok (matrix : Mat) (h : matrix.WF) :
    computeRowSpaceE matrix = .ok (computeRowSpace matrix) := by
  unfold computeRowSpaceE computeRowSpace
  rw [(computeRREFE_ok matrix false h).1, bindE_ok]
  rfl

theorem nullSpaceRowSumE_ok {rref : Mat} (h : rref.WF) {vec : List Frac}
    (hvec : ∀ x ∈ vec, x.Reduced) (i pivotCol n : Nat) :
    nullSpaceRowSumE rref i vec pivotCol n
      = .ok (nullSpaceRowSum rref i vec pivotCol n) ∧
      (nullSpaceRowSum rref i vec pivotCol n).Reduced := by
  unfold nullSpaceRowSumE nullSpaceRowSum
  exact foldlM_ok_inv Frac.Reduced _ _ _ Frac.zero Frac.zero_reduced
    (fun b j hb _ => by
      have h1 : (rref.get i j).Reduced := Mat.get_reduced_all h _ _
      have h2 : (vec.getD j Frac.zero).Reduced := getD_reduced hvec j
      constructor
      · rw [Frac.mulE_ok h1.den_ne h2.den_ne, bindE_ok,
          Frac.addE_ok hb.den_ne (Frac.mul_reduced h1.den_ne h2.den_ne).den_ne]
      · exact Frac.add_reduced hb.den_ne
          (Frac.mul_reduced h1.den_ne h2.den_ne).den_ne)

theorem backSubStepE_ok {rref : Mat} (h : rref.WF) (pivots : List Nat)
    (n i : Nat) {vec : List Frac} (hvec : ∀ x ∈ vec, x.Reduced) :
    backSubStepE rref pivots n i vec = .ok (backSubStep rref pivots n i vec) ∧
      ∀ x ∈ backSubStep rref pivots n i vec, x.Reduced := by
  have hsum := nullSpaceRowSumE_ok h hvec i (pivots.getD i 0) n
  simp only [backSubStepE, backSubStep]
  constructor
  · rw [hsum.1, bindE_ok, Frac.negE_ok hsum.2.den_ne, bindE_ok]
    rfl
  · intro x hx
    rcases List.mem_or_eq_of_mem_set hx with hx' | hx'
    · exact hvec _ hx'
    · exact hx' ▸ Frac.neg_reduced hsum.2.den_ne

theorem nullBasisVectorE_ok {rref : Mat} (h : rref.WF) (pivots : List Nat)
    (n freeVar : Nat) :
    nullBasisVectorE rref pivots n freeVar
      = .ok (nullBasisVector rref pivots n freeVar) ∧
      ∀ x ∈ nullBasisVector rref pivots n freeVar, x.Reduced := by
  have hv0 : ∀ x ∈ (List.replicate n Frac.zero).set freeVar Frac.one, x.Reduced := by
    intro x hx
    rcases List.mem_or_eq_of_mem_set hx with hx' | hx'
    · rw [List.eq_of_mem_replicate hx']
      exact Frac.zero_reduced
    · exact hx' ▸ Frac.one_reduced
  unfold nullBasisVectorE nullBasisVector
  exact foldrM_ok_inv (fun v => ∀ x ∈ v, x.Reduced) _ _ _ _ hv0
    (fun v i hv _ => backSubStepE_ok h pivots n i hv)

theorem computeNullSpaceE_ok (matrix : Mat) (h : matrix.WF) :
    computeNullSpaceE matrix = .ok (computeNullSpace matrix) := by
  have hr := computeRREFE_ok matrix false h
  unfold computeNullSpaceE computeNullSpace
  rw [hr.1, bindE_ok]
  rw [mapME_ok _ (nullBasisVector (computeRREF matrix false).rref
      (computeRREF matrix false).pivots matrix.cols) _
    (fun f _ => (nullBasisVectorE_ok hr.2 _ _ f).1)]

theorem computeLeftNullSpaceE_ok (matrix : Mat) (h : matrix.WF) :
    computeLeftNullSpaceE matrix = .ok (computeLeftNullSpace matrix) := by
  unfold computeLeftNullSpaceE computeLeftNullSpace
  exact computeNullSpaceE_ok matrix.transpose h.transpose

theorem mkMat_wf {data : List (List Frac)}
    (hrect : ∀ row ∈ data, row.length = (data.headD []).length)
    (hred : ∀ row ∈ data, ∀ x ∈ row, x.Reduced) : (mkMat data).WF :=
  ⟨rfl, hrect, hred⟩

theorem computeAllSpacesE_ok (matrixData : List (List Frac)) (track : Bool)
    (hred : ∀ row ∈ matrixData, ∀ x ∈ row, x.Reduced) :
    computeAllSpacesE matrixData track = computeAllSpaces matrixData track := by
  simp only [computeAllSpacesE, computeAllSpaces]
  by_cases h1 : matrixData.length = 0
  · rw [if_pos h1, if_pos h1]
  rw [if_neg h1, if_neg h1]
  by_cases h2 : ¬ (matrixData.all
      (fun row => row.length = (matrixData.headD []).length)) = true
  · rw [if_pos h2, if_pos h2]
  rw [if_neg h2, if_neg h2]
  by_cases h3 : matrixData.length > 5 ∨ (matrixData.headD []).length > 5
  · rw [if_pos h3, if_pos h3]
  rw [if_neg h3, if_neg h3]
  have hrect : ∀ row ∈ matrixData, row.length = (matrixData.headD []).length := by
    intro row hrow
    have hall := List.all_eq_true.mp (not_not.mp h2) row hrow
    simpa using hall
  have hwf : (mkMat matrixData).WF := mkMat_wf hrect hred
  rw [mkMatE_ok, bindE_ok, (computeRREFE_ok _ track hwf).1, bindE_ok,
    computeColumnSpaceE_ok _ hwf, bindE_ok, computeRowSpaceE_ok _ hwf, bindE_ok,
    computeNullSpaceE_ok _ hwf, bindE_ok, computeLeftNullSpaceE_ok _ hwf, bindE_ok]
  rfl

/-- C6: once `validateMatrix` passes, the downstream computation in
`computeAllSpaces` completes without raising any error: the pipeline with
every JS `throw` site checked (zero-denominator constructions and
divisions by a zero rational included) returns `ok`, and with the same
report as the total pipeline.  Division only ever happens by a pivot
already checked nonzero, and every constructed denominator is a product
of nonzero denominators. -/
theorem c6_no_failure_after_validation (matrixData : List (List Frac))
    (track : Bool) (dims : Nat × Nat)
    (hval : validateMatrix matrixData = .ok dims)
    (hred : ∀ row ∈ matrixData, ∀ x ∈ row, x.Reduced) :
    computeAllSpacesE matrixData track = computeAllSpaces matrixData track ∧
      ∃ rep : Report, computeAllSpaces matrixData track = .ok rep := by
  simp only [validateMatrix] at hval
  by_cases h1 : matrixData.length = 0
  · rw [if_pos h1] at hval
    exact absurd hval (by simp)
  rw [if_neg h1] at hval
  by_cases hc0 : (matrixData.headD []).length = 0
  · rw [if_pos hc0] at hval
    exact absurd hval (by simp)
  rw [if_neg hc0] at hval
  by_cases h3 : matrixData.length > 5 ∨ (matrixData.headD []).length > 5
  · rw [if_pos h3] at hval
    exact absurd hval (by simp)
  rw [if_neg h3] at hval
  by_cases h2 : ¬ (matrixData.all
      (fun row => row.length = (matrixData.headD []).length)) = true
  · rw [if_pos h2] at hval
    exact absurd hval (by simp)
  refine ⟨computeAllSpacesE_ok matrixData track hred, ?_⟩
  simp only [computeAllSpaces]
  rw [if_neg h1, if_neg h2, if_neg h3]
  exact ⟨_, rfl⟩

/-- Witness for C6 at a concrete validated matrix. -/
theorem c6_no_failure_after_validation_witness :
    computeAllSpacesE [[⟨1, 1⟩, ⟨2, 1⟩], [⟨3, 1⟩, ⟨4, 1⟩]] true
        = computeAllSpaces [[⟨1, 1⟩, ⟨2, 1⟩], [⟨3, 1⟩, ⟨4, 1⟩]] true ∧
      ∃ rep : Report,
        computeAllSpaces [[⟨1, 1⟩, ⟨2, 1⟩], [⟨3, 1⟩, ⟨4, 1⟩]] true = .ok rep :=
  c6_no_failure_after_validation [[⟨1, 1⟩, ⟨2, 1⟩], [⟨3, 1⟩, ⟨4, 1⟩]] true
    (2, 2) (by rfl) (by decide)

/-- C8 counterexample: contrary to the claim, `Matrix` construction
succeeds on a ragged grid (the constructor has no rectangularity check and
derives `cols` from the first row). -/
theorem c8_counterexample :
    mkMatE [[⟨1, 1⟩], [⟨2, 1⟩, ⟨3, 1⟩]]
      = Except.ok (mkMat [[⟨1, 1⟩], [⟨2, 1⟩, ⟨3, 1⟩]]) := by
  rfl

/-- C8 (amended): ragged grids are rejected, but not by the `Matrix`
constructor (which succeeds); the validation at the top of
`computeAllSpaces` reports the dimension mismatch before any `Matrix` is
constructed. -/
theorem c8_ragged_rejected_by_validation (data : List (List Frac))
    (track : Bool) (hne : ¬ data.length = 0)
    (hrag : ¬ ∀ row ∈ data, row.length = (data.headD []).length) :
    computeAllSpacesE data track
        = .error "All rows must have the same number of columns" ∧
      mkMatE data = .ok (mkMat data) := by
  constructor
  · simp only [computeAllSpacesE]
    rw [if_neg hne]
    have hall : ¬ (data.all
        (fun row => row.length = (data.headD []).length)) = true := by
      intro hcon
      exact hrag (fun row hrow => by simpa using List.all_eq_true.mp hcon row hrow)
    rw [if_pos hall]
  · exact mkMatE_ok data

/-- Witness for the amended C8 at a concrete ragged grid. -/
theorem c8_ragged_rejected_by_validation_witness :
    computeAllSpacesE [[⟨1, 1⟩], [⟨2, 1⟩, ⟨3, 1⟩]] false
        = .error "All rows must have the same number of columns" ∧
      mkMatE [[⟨1, 1⟩], [⟨2, 1⟩, ⟨3, 1⟩]]
        = .ok (mkMat [[⟨1, 1⟩], [⟨2, 1⟩, ⟨3, 1⟩]]) :=
  c8_ragged_rejected_by_validation [[⟨1, 1⟩], [⟨2, 1⟩, ⟨3, 1⟩]] false
    (by decide) (by decide)

/-! ## Row-space preservation under elementary row operations

The mathematical backbone of C1 and C2: each elementary operation used by
the engine preserves the span of the row vectors over ℚ. -/

theorem mem_set_of_mem {α : Type} {l : List α} {i : Nat} {b x : α}
    (hx : x ∈ l) (d : α) : x ∈ l.set i b ∨ x = l.getD i d := by
  rcases List.mem_iff_getElem.mp hx with ⟨k, hk, hkx⟩
  have hgd : l.getD k d = x := by
    rw [List.getD_eq_getElem?_getD, List.getElem?_eq_getElem hk]
    exact hkx
  by_cases hki : k = i
  · right
    rw [← hgd, hki]
  · left
    have h1 : (l.set i b).getD k d = l.getD k d :=
      getD_set_ne _ _ (fun hh => hki hh.symm)
    have h2 := getD_mem (show k < (l.set i b).length by simpa using hk) d
    rw [h1, hgd] at h2
    exact h2

theorem mem_set_self {α : Type} {l : List α} {i : Nat} (hi : i < l.length)
    (b : α) : b ∈ l.set i b := by
  have := getD_mem (show i < (l.set i b).length by simpa using hi) b
  rwa [getD_set_self _ _ hi] at this

section SpanLemmas

variable {V : Type} [AddCommGroup V] [Module ℚ V]

/-- The set of vectors occurring in a list. -/
def memSet (l : List V) : Set V := {v | v ∈ l}

theorem span_le_of_forall_mem {l1 l2 : List V}
    (h : ∀ x ∈ l1, x ∈ Submodule.span ℚ (memSet l2)) :
    Submodule.span ℚ (memSet l1) ≤ Submodule.span ℚ (memSet l2) := by
  rw [Submodule.span_le]
  intro x hx
  exact h x hx

theorem mem_span_of_mem_list {l : List V} {x : V} (hx : x ∈ l) :
    x ∈ Submodule.span ℚ (memSet l) :=
  Submodule.subset_span hx

theorem span_swap_list {l : List V} {i j : Nat} (hi : i < l.length)
    (hj : j < l.length) :
    Submodule.span ℚ (memSet ((l.set i (l.getD j 0)).set j (l.getD i 0)))
      = Submodule.span ℚ (memSet l) := by
  apply le_antisymm
  · apply span_le_of_forall_mem
    intro x hx
    rcases List.mem_or_eq_of_mem_set hx with hx' | hx'
    · rcases List.mem_or_eq_of_mem_set hx' with hx'' | hx''
      · exact mem_span_of_mem_list hx''
      · exact hx'' ▸ mem_span_of_mem_list (getD_mem hj 0)
    · exact hx' ▸ mem_span_of_mem_list (getD_mem hi 0)
  · apply span_le_of_forall_mem
    intro x hx
    have hri : l.getD i 0 ∈ (l.set i (l.getD j 0)).set j (l.getD i 0) :=
      mem_set_self (by simpa using hj) _
    rcases mem_set_of_mem (i := i) (b := l.getD j 0) hx 0 with hx1 | hx1
    · rcases mem_set_of_mem (i := j) (b := l.getD i 0) hx1 0 with hx2 | hx2
      · exact mem_span_of_mem_list hx2
      · by_cases hij : i = j
        · rw [hx2, hij, getD_set_self _ _ (hij ▸ hi)]
          exact mem_span_of_mem_list (hij ▸ hri)
        · rw [hx2, getD_set_ne _ _ hij]
          have hrj : l.getD j 0 ∈ (l.set i (l.getD j 0)).set j (l.getD i 0) := by
            have h1 : ((l.set i (l.getD j 0)).set j (l.getD i 0)).getD i 0
                = l.getD j 0 := by
              rw [getD_set_ne _ _ (fun hh => hij hh.symm), getD_set_self _ _ hi]
            have h2 := getD_mem
              (show i < ((l.set i (l.getD j 0)).set j (l.getD i 0)).length by
                simpa using hi) (0 : V)
            rwa [h1] at h2
          exact mem_span_of_mem_list hrj
    · rw [hx1]
      exact mem_span_of_mem_list hri

theorem span_scale_list {l : List V} {i : Nat} (hi : i < l.length) {c : ℚ}
    (hc : c ≠ 0) :
    Submodule.span ℚ (memSet (l.set i (c • l.getD i 0)))
      = Submodule.span ℚ (memSet l) := by
  apply le_antisymm
  · apply span_le_of_forall_mem
    intro x hx
    rcases List.mem_or_eq_of_mem_set hx with hx' | hx'
    · exact mem_span_of_mem_list hx'
    · rw [hx']
      exact Submodule.smul_mem _ c (mem_span_of_mem_list (getD_mem hi 0))
  · apply span_le_of_forall_mem
    intro x hx
    rcases mem_set_of_mem (i := i) (b := c • l.getD i 0) hx 0 with hx' | hx'
    · exact mem_span_of_mem_list hx'
    · rw [hx']
      have hmem : c • l.getD i 0 ∈ l.set i (c • l.getD i 0) :=
        mem_set_self hi _
      have hx2 : l.getD i 0 = c⁻¹ • (c • l.getD i 0) := by
        rw [smul_smul, inv_mul_cancel₀ hc, one_smul]
      have hfin := Submodule.smul_mem
        (Submodule.span ℚ (memSet (l.set i (c • l.getD i 0)))) c⁻¹
        (mem_span_of_mem_list hmem)
      rwa [← hx2] at hfin

theorem span_addmul_list {l : List V} {i j : Nat} (hi : i < l.length)
    (hj : j < l.length) (hij : i ≠ j) (c : ℚ) :
    Submodule.span ℚ (memSet (l.set i (l.getD i 0 + c • l.getD j 0)))
      = Submodule.span ℚ (memSet l) := by
  apply le_antisymm
  · apply span_le_of_forall_mem
    intro x hx
    rcases List.mem_or_eq_of_mem_set hx with hx' | hx'
    · exact mem_span_of_mem_list hx'
    · rw [hx']
      exact Submodule.add_mem _ (mem_span_of_mem_list (getD_mem hi 0))
        (Submodule.smul_mem _ c (mem_span_of_mem_list (getD_mem hj 0)))
  · apply span_le_of_forall_mem
    intro x hx
    rcases mem_set_of_mem (i := i) (b := l.getD i 0 + c • l.getD j 0) hx 0
      with hx' | hx'
    · exact mem_span_of_mem_list hx'
    · rw [hx']
      have hnew : l.getD i 0 + c • l.getD j 0
          ∈ l.set i (l.getD i 0 + c • l.getD j 0) := mem_set_self hi _
      have hrj : l.getD j 0 ∈ l.set i (l.getD i 0 + c • l.getD j 0) := by
        have h1 : (l.set i (l.getD i 0 + c • l.getD j 0)).getD j 0
            = l.getD j 0 := getD_set_ne _ _ hij
        have h2 := getD_mem
          (show j < (l.set i (l.getD i 0 + c • l.getD j 0)).length by
            simpa using hj) (0 : V)
        rwa [h1] at h2
      have hval : l.getD i 0
          = (l.getD i 0 + c • l.getD j 0) + (-c) • l.getD j 0 := by
        rw [neg_smul]
        abel
      have hfin := Submodule.add_mem
        (Submodule.span ℚ (memSet (l.set i (l.getD i 0 + c • l.getD j 0))))
        (mem_span_of_mem_list hnew)
        (Submodule.smul_mem _ (-c) (mem_span_of_mem_list hrj))
      rwa [← hval] at hfin

end SpanLemmas

/-- The row vector over ℚ of a stored row, as an element of `Fin n → ℚ`
(entries beyond the row's length read as 0). -/
def rowVec (n : Nat) (row : List Frac) : Fin n → ℚ :=
  fun j => (row.getD j Frac.zero).toQ

theorem rowVec_nil (n : Nat) : rowVec n ([] : List Frac) = 0 := by
  funext j
  show (([] : List Frac).getD j Frac.zero).toQ = 0
  rw [getD_oob (by simp) Frac.zero]
  exact Frac.toQ_zero

/-- The row space of a matrix value as a ℚ-submodule of `Fin n → ℚ`. -/
def rowSpanQ (n : Nat) (m : Mat) : Submodule ℚ (Fin n → ℚ) :=
  Submodule.span ℚ (memSet (m.data.map (rowVec n)))

theorem map_rowVec_getD (n : Nat) (l : List (List Frac)) (i : Nat) :
    (l.map (rowVec n)).getD i 0 = rowVec n (l.getD i []) := by
  rw [← rowVec_nil n]
  by_cases hi : i < l.length
  · exact getD_map_of_lt (rowVec n) l i hi _ []
  · rw [getD_oob (by simpa using not_lt.mp hi) _, getD_oob (not_lt.mp hi) []]

theorem rowVec_map_mul {row : List Frac} (hrow : ∀ x ∈ row, x.Reduced)
    {s : Frac} (hs : s.den ≠ 0) (n : Nat) :
    rowVec n (row.map (fun x => x.mul s)) = s.toQ • rowVec n row := by
  funext j
  simp only [rowVec, Pi.smul_apply, smul_eq_mul]
  by_cases hj : (j : Nat) < row.length
  · rw [getD_map_of_lt _ _ _ hj Frac.zero Frac.zero,
      Frac.toQ_mul (hrow _ (getD_mem hj _)).den_ne hs]
    ring
  · rw [getD_oob (by simpa using not_lt.mp hj) _, getD_oob (not_lt.mp hj) _,
      Frac.toQ_zero]
    ring

theorem rowVec_zipWith_add {ri rj : List Frac} (hlen : ri.length = rj.length)
    (hri : ∀ x ∈ ri, x.Reduced) (hrj : ∀ x ∈ rj, x.Reduced) {s : Frac}
    (hs : s.den ≠ 0) (n : Nat) :
    rowVec n (List.zipWith (fun t u => t.add (u.mul s)) ri rj)
      = rowVec n ri + s.toQ • rowVec n rj := by
  funext j
  simp only [rowVec, Pi.add_apply, Pi.smul_apply, smul_eq_mul]
  by_cases hj : (j : Nat) < ri.length
  · have hj' : (j : Nat) < rj.length := hlen ▸ hj
    rw [getD_zipWith_of_lt _ _ _ _ hj hj' Frac.zero Frac.zero Frac.zero,
      Frac.toQ_add (hri _ (getD_mem hj _)).den_ne
        (Frac.mul_reduced (hrj _ (getD_mem hj' _)).den_ne hs).den_ne,
      Frac.toQ_mul (hrj _ (getD_mem hj' _)).den_ne hs]
    ring
  · have hlz : (List.zipWith (fun t u => t.add (u.mul s)) ri rj).length ≤ j := by
      rw [List.length_zipWith]
      omega
    rw [getD_oob hlz _, getD_oob (not_lt.mp hj) _,
      getD_oob (show rj.length ≤ j by omega) _, Frac.toQ_zero]
    ring

theorem rowSpanQ_swapRows (n : Nat) {m : Mat} {i j : Nat}
    (hi : i < m.data.length) (hj : j < m.data.length) :
    rowSpanQ n (m.swapRows i j) = rowSpanQ n m := by
  simp only [rowSpanQ, Mat.swapRows]
  rw [List.map_set, List.map_set]
  rw [show rowVec n (m.data.getD j []) = (m.data.map (rowVec n)).getD j 0 from
    (map_rowVec_getD n m.data j).symm]
  rw [show rowVec n (m.data.getD i []) = (m.data.map (rowVec n)).getD i 0 from
    (map_rowVec_getD n m.data i).symm]
  exact span_swap_list (by simpa using hi) (by simpa using hj)

theorem rowSpanQ_multiplyRow (n : Nat) {m : Mat} (h : m.WF) {i : Nat}
    {s : Frac} (hsden : s.den ≠ 0) (hs0 : s.toQ ≠ 0)
    (hi : i < m.data.length) :
    rowSpanQ n (m.multiplyRow i s) = rowSpanQ n m := by
  simp only [rowSpanQ, Mat.multiplyRow]
  rw [List.map_set, rowVec_map_mul (wf_row_entries h i) hsden n]
  rw [show rowVec n (m.data.getD i []) = (m.data.map (rowVec n)).getD i 0 from
    (map_rowVec_getD n m.data i).symm]
  exact span_scale_list (by simpa using hi) hs0

theorem rowSpanQ_addRowMultiple (n : Nat) {m : Mat} (h : m.WF) {i j : Nat}
    (hi : i < m.rows) (hj : j < m.rows) (hij : i ≠ j) {s : Frac}
    (hsden : s.den ≠ 0) :
    rowSpanQ n (m.addRowMultiple i j s) = rowSpanQ n m := by
  have hlen : (m.data.getD i []).length = (m.data.getD j []).length := by
    rw [Mat.row_len h hi, Mat.row_len h hj]
  simp only [rowSpanQ, Mat.addRowMultiple]
  rw [List.map_set,
    rowVec_zipWith_add hlen (wf_row_entries h i) (wf_row_entries h j) hsden n]
  rw [show rowVec n (m.data.getD i []) = (m.data.map (rowVec n)).getD i 0 from
    (map_rowVec_getD n m.data i).symm]
  rw [show rowVec n (m.data.getD j []) = (m.data.map (rowVec n)).getD j 0 from
    (map_rowVec_getD n m.data j).symm]
  exact span_addmul_list (by simpa using h.1 ▸ hi) (by simpa using h.1 ▸ hj) hij _

theorem rowSpanQ_swapStage (n : Nat) {st : RState} (h : st.m.WF) {p : Nat}
    (hcur : st.cur < st.m.rows) (hp : p < st.m.rows) :
    rowSpanQ n (swapStage st p).m = rowSpanQ n st.m := by
  unfold swapStage
  by_cases hc : p ≠ st.cur
  · rw [if_pos hc]
    exact rowSpanQ_swapRows n (h.1 ▸ hcur) (h.1 ▸ hp)
  · rw [if_neg hc]

theorem rowSpanQ_scaleStage (n : Nat) {st : RState} (h : st.m.WF) {col : Nat}
    (hcur : st.cur < st.m.rows)
    (hnz : (st.m.get st.cur col).isZero = false) :
    rowSpanQ n (scaleStage st col).m = rowSpanQ n st.m := by
  have hred : (st.m.get st.cur col).Reduced := Mat.get_reduced_all h _ _
  have hpnum : (st.m.get st.cur col).num ≠ 0 := by
    unfold Frac.isZero at hnz
    simpa using hnz
  have hpq : (st.m.get st.cur col).toQ ≠ 0 := by
    intro hq
    exact hpnum (Frac.num_eq_zero_of_toQ hred.den_ne hq)
  simp only [scaleStage]
  by_cases hc : st.m.get st.cur col ≠ Frac.one
  · rw [if_pos hc]
    have hscal : (Frac.one.div (st.m.get st.cur col)).Reduced :=
      Frac.div_reduced (by decide) hpnum
    have hsq : (Frac.one.div (st.m.get st.cur col)).toQ ≠ 0 := by
      rw [Frac.toQ_div (by decide) hpnum, Frac.toQ_one]
      exact one_div_ne_zero hpq
    exact rowSpanQ_multiplyRow n h hscal.den_ne hsq (h.1 ▸ hcur)
  · rw [if_neg hc]

theorem rowSpanQ_elimBody (n : Nat) {s : RState} (h : s.m.WF)
    (col : Nat) {curR r : Nat} (hr : r < s.m.rows) (hcur : curR < s.m.rows) :
    rowSpanQ n (elimBody col curR s r).m = rowSpanQ n s.m := by
  unfold elimBody
  by_cases hc : r ≠ curR ∧ (s.m.get r col).isZero = false
  · rw [if_pos hc]
    exact rowSpanQ_addRowMultiple n h hr hcur hc.1
      (Frac.neg_reduced (Mat.get_reduced_all h r col).den_ne).den_ne
  · rw [if_neg hc]

theorem rrefStep_wf {st : RState} (col : Nat) (h : st.m.WF) :
    (rrefStep st col).m.WF := (rrefStepE_ok st col h).2.1

theorem rowSpanQ_elimFold (n : Nat) (col curR : Nat) :
    ∀ (l : List Nat) (s : RState), s.m.WF →
      (∀ r ∈ l, r < s.m.rows) → curR < s.m.rows →
      rowSpanQ n (l.foldl (elimBody col curR) s).m = rowSpanQ n s.m
  | [], _, _, _, _ => rfl
  | r :: t, s, h, hl, hcur => by
    have hr : r < s.m.rows := hl r (List.mem_cons_self r t)
    have hwf' : (elimBody col curR s r).m.WF :=
      (elimBodyE_ok h col curR hr hcur).2
    rw [List.foldl_cons,
      rowSpanQ_elimFold n col curR t (elimBody col curR s r) hwf'
        (fun r' hr' => by
          rw [elimBody_m_rows]
          exact hl r' (List.mem_cons_of_mem _ hr'))
        (by rw [elimBody_m_rows]; exact hcur),
      rowSpanQ_elimBody n h col hr hcur]

theorem rowSpanQ_rrefStep (n : Nat) (st : RState) (col : Nat) (h : st.m.WF) :
    rowSpanQ n (rrefStep st col).m = rowSpanQ n st.m := by
  simp only [rrefStep]
  by_cases h1 : st.cur < st.m.rows
  case neg =>
    simp only [if_neg h1]
  simp only [if_pos h1]
  by_cases h2 : (st.m.get (findPivot st.m st.cur col) col).isZero = true
  · simp only [if_pos h2]
  · simp only [if_neg h2]
    obtain ⟨hple, hplt, hmax, htie⟩ := findPivot_spec st.m col h1
    set p := findPivot st.m st.cur col with hpdef
    have hnz : (st.m.get p col).isZero = false := by
      cases hzz : (st.m.get p col).isZero
      · rfl
      · exact absurd hzz h2
    have hwf1 : (swapStage st p).m.WF := swapStage_wf h h1 hplt
    have hcur1 : (swapStage st p).cur < (swapStage st p).m.rows := by
      rw [swapStage_cur, swapStage_m_rows]
      exact h1
    have hnz1 : ((swapStage st p).m.get (swapStage st p).cur col).isZero = false := by
      rw [swapStage_cur, swapStage_get_cur h h1 hplt]
      exact hnz
    have hscale := scaleStageE_ok hwf1 hcur1 hnz1
    have hfold := rowSpanQ_elimFold n col st.cur
      (List.range (scaleStage (swapStage st p) col).m.rows)
      (scaleStage (swapStage st p) col) hscale.2
      (fun r hr => by
        have := List.mem_range.mp hr
        rwa [scaleStage_m_rows, swapStage_m_rows] at this ⊢)
      (by rw [scaleStage_m_rows, swapStage_m_rows]; exact h1)
    calc rowSpanQ n ((List.range (scaleStage (swapStage st p) col).m.rows).foldl
          (elimBody col st.cur) (scaleStage (swapStage st p) col)).m
        = rowSpanQ n (scaleStage (swapStage st p) col).m := hfold
      _ = rowSpanQ n (swapStage st p).m := by
          rw [rowSpanQ_scaleStage n hwf1 hcur1 hnz1]
      _ = rowSpanQ n st.m := rowSpanQ_swapStage n h h1 hplt

theorem rowSpanQ_rrefFold (n : Nat) :
    ∀ (l : List Nat) (st : RState), st.m.WF →
      rowSpanQ n (l.foldl rrefStep st).m = rowSpanQ n st.m
  | [], _, _ => rfl
  | c :: t, st, h => by
    rw [List.foldl_cons,
      rowSpanQ_rrefFold n t (rrefStep st c) (rrefStep_wf c h),
      rowSpanQ_rrefStep n st c h]

theorem rowSpanQ_computeRREF (n : Nat) (matrix : Mat) (track : Bool)
    (h : matrix.WF) :
    rowSpanQ n (computeRREF matrix track).rref = rowSpanQ n matrix := by
  simp only [computeRREF]
  exact rowSpanQ_rrefFold n (List.range matrix.cols) ⟨matrix, [], 0, []⟩ h

/-! ## Structural description of one elimination step

Value-level formulas for the three stages, used to carry the
reduced-row-echelon invariant through the column loop. -/

theorem Frac.toQ_eq_zero_of_isZero {a : Frac} (h : a.isZero = true) :
    a.toQ = 0 := by
  unfold Frac.isZero at h
  unfold Frac.toQ
  rw [beq_iff_eq.mp h]
  simp

theorem Mat.get_multiplyRow_ne (m : Mat) (i : Nat) (s : Frac) {r : Nat}
    (hri : r ≠ i) (c : Nat) : (m.multiplyRow i s).get r c = m.get r c := by
  unfold Mat.multiplyRow Mat.get
  rw [getD_set_ne _ _ (fun hh => hri hh.symm)]

theorem Mat.get_addRowMultiple_ne (m : Mat) (i j : Nat) (s : Frac) {r : Nat}
    (hri : r ≠ i) (c : Nat) : (m.addRowMultiple i j s).get r c = m.get r c := by
  simp only [Mat.addRowMultiple]
  unfold Mat.get
  rw [getD_set_ne _ _ (fun hh => hri hh.symm)]

theorem swapStage_get {st : RState} (h : st.m.WF) {p : Nat}
    (hcur : st.cur < st.m.rows) (hp : p < st.m.rows) (r c : Nat) :
    (swapStage st p).m.get r c =
      if r = p then st.m.get st.cur c
      else if r = st.cur then st.m.get p c
      else st.m.get r c := by
  unfold swapStage
  by_cases hc : p ≠ st.cur
  · rw [if_pos hc]
    show (st.m.swapRows st.cur p).get r c = _
    rw [Mat.get_swapRows st.m (h.1 ▸ hcur) (h.1 ▸ hp)]
  · rw [if_neg hc]
    have hpc : p = st.cur := not_not.mp hc
    subst hpc
    by_cases h1 : r = st.cur
    · rw [if_pos h1, h1]
    · rw [if_neg h1, if_neg h1]

theorem scaleStage_get_toQ {st : RState} (h : st.m.WF) {col : Nat}
    (hcur : st.cur < st.m.rows)
    (hnz : (st.m.get st.cur col).isZero = false)
    {r : Nat} (hr : r < st.m.rows) {c : Nat} (hc : c < st.m.cols) :
    ((scaleStage st col).m.get r c).toQ =
      if r = st.cur
      then (st.m.get r c).toQ / (st.m.get st.cur col).toQ
      else (st.m.get r c).toQ := by
  have hred := Mat.get_reduced_all h st.cur col
  have hpnum : (st.m.get st.cur col).num ≠ 0 := by
    unfold Frac.isZero at hnz
    simpa using hnz
  simp only [scaleStage]
  by_cases hone : st.m.get st.cur col ≠ Frac.one
  · rw [if_pos hone]
    show ((st.m.multiplyRow st.cur (Frac.one.div (st.m.get st.cur col))).get r c).toQ = _
    by_cases hrc : r = st.cur
    · have hlen : c < (st.m.data.getD r []).length := by
        rw [Mat.row_len h hr]
        exact hc
      rw [Mat.get_multiplyRow st.m (h.1 ▸ hcur) _ r c hlen, if_pos hrc, if_pos hrc]
      have hscal : (Frac.one.div (st.m.get st.cur col)).Reduced :=
        Frac.div_reduced (by decide) hpnum
      rw [Frac.toQ_mul (Mat.get_reduced_all h r c).den_ne hscal.den_ne,
        Frac.toQ_div (by decide) hpnum, Frac.toQ_one, mul_one_div]
    · rw [Mat.get_multiplyRow_ne st.m st.cur _ hrc c, if_neg hrc]
  · rw [if_neg hone]
    have hone' : st.m.get st.cur col = Frac.one := not_not.mp hone
    by_cases hrc : r = st.cur
    · rw [if_pos hrc, hone', Frac.toQ_one, div_one]
    · rw [if_neg hrc]

theorem elimFold_wf (col curR : Nat) :
    ∀ (l : List Nat) (s : RState), s.m.WF → (∀ r ∈ l, r < s.m.rows) →
      curR < s.m.rows → (l.foldl (elimBody col curR) s).m.WF
  | [], _, h, _, _ => h
  | r :: t, s, h, hl, hcur => by
    rw [List.foldl_cons]
    exact elimFold_wf col curR t _
      ((elimBodyE_ok h col curR (hl r (List.mem_cons_self r t)) hcur).2)
      (fun r' hr' => by
        rw [elimBody_m_rows]
        exact hl r' (List.mem_cons_of_mem _ hr'))
      (by rw [elimBody_m_rows]; exact hcur)

theorem elimFold_spec (col curR : Nat) (b : RState) (hwf : b.m.WF)
    (hcur : curR < b.m.rows) :
    ∀ k : Nat, k ≤ b.m.rows →
      (∀ r c, k ≤ r →
        ((List.range k).foldl (elimBody col curR) b).m.get r c = b.m.get r c) ∧
      (∀ c, ((List.range k).foldl (elimBody col curR) b).m.get curR c
        = b.m.get curR c) ∧
      (∀ r, r < k → r ≠ curR → ∀ c, c < b.m.cols →
        (((List.range k).foldl (elimBody col curR) b).m.get r c).toQ
          = (b.m.get r c).toQ - (b.m.get r col).toQ * (b.m.get curR c).toQ) := by
  intro k
  induction k with
  | zero =>
    intro _
    exact ⟨fun r c _ => rfl, fun c => rfl, fun r hr => absurd hr (by omega)⟩
  | succ k ih =>
    intro hk1
    obtain ⟨ih1, ih2, ih3⟩ := ih (by omega)
    have hkrows : k < b.m.rows := by omega
    have hsk_wf : ((List.range k).foldl (elimBody col curR) b).m.WF :=
      elimFold_wf col curR (List.range k) b hwf
        (fun r hr => lt_of_lt_of_le (List.mem_range.mp hr) (by omega)) hcur
    have hsk_rows : ((List.range k).foldl (elimBody col curR) b).m.rows
        = b.m.rows := elimFold_m_rows col curR _ _
    have hsk_cols : ((List.range k).foldl (elimBody col curR) b).m.cols
        = b.m.cols := elimFold_m_cols col curR _ _
    have hstep : (List.range (k + 1)).foldl (elimBody col curR) b
        = elimBody col curR ((List.range k).foldl (elimBody col curR) b) k := by
      rw [List.range_succ, List.foldl_append, List.foldl_cons, List.foldl_nil]
    set sk := (List.range k).foldl (elimBody col curR) b with hskdef
    rw [hstep]
    have hkcol : sk.m.get k col = b.m.get k col := ih1 k col (le_refl k)
    by_cases hg : k ≠ curR ∧ (sk.m.get k col).isZero = false
    · have hbody : (elimBody col curR sk k).m
          = sk.m.addRowMultiple k curR (sk.m.get k col).neg := by
        simp only [elimBody, if_pos hg]
      rw [hbody]
      refine ⟨?_, ?_, ?_⟩
      · intro r c hr
        have hrk : r ≠ k := by omega
        rw [Mat.get_addRowMultiple_ne _ _ _ _ hrk c]
        exact ih1 r c (by omega)
      · intro c
        have hrk : curR ≠ k := fun hh => hg.1 hh.symm
        rw [Mat.get_addRowMultiple_ne _ _ _ _ hrk c]
        exact ih2 c
      · intro r hr hrcur c hcc
        by_cases hrk : r = k
        · subst hrk
          have hlen1 : c < (sk.m.data.getD r []).length := by
            rw [Mat.row_len hsk_wf (by rw [hsk_rows]; exact hkrows)]
            rw [hsk_cols]
            exact hcc
          have hlen2 : c < (sk.m.data.getD curR []).length := by
            rw [Mat.row_len hsk_wf (by rw [hsk_rows]; exact hcur)]
            rw [hsk_cols]
            exact hcc
          rw [Mat.get_addRowMultiple sk.m (hsk_wf.1 ▸ hsk_rows ▸ hkrows) curR _
            r c hlen1 hlen2, if_pos rfl]
          have h1 := Mat.get_reduced_all hsk_wf r c
          have h2 := Mat.get_reduced_all hsk_wf curR c
          have h3 := Mat.get_reduced_all hsk_wf r col
          rw [Frac.toQ_add h1.den_ne
            (Frac.mul_reduced h2.den_ne (Frac.neg_reduced h3.den_ne).den_ne).den_ne,
            Frac.toQ_mul h2.den_ne (Frac.neg_reduced h3.den_ne).den_ne,
            Frac.toQ_neg h3.den_ne]
          rw [ih1 r c (le_refl r), ih2 c, hkcol]
          ring
        · rw [Mat.get_addRowMultiple_ne _ _ _ _ hrk c]
          exact ih3 r (by omega) hrcur c hcc
    · have hbody : elimBody col curR sk k = sk := by
        simp only [elimBody, if_neg hg]
      rw [hbody]
      refine ⟨fun r c hr => ih1 r c (by omega), ih2, ?_⟩
      intro r hr hrcur c hcc
      by_cases hrk : r = k
      · subst hrk
        have hz : (sk.m.get r col).isZero = true := by
          cases hzz : (sk.m.get r col).isZero
          · exact absurd ⟨hrcur, hzz⟩ hg
          · rfl
        have hzq : (b.m.get r col).toQ = 0 := by
          rw [← hkcol]
          exact Frac.toQ_eq_zero_of_isZero hz
        rw [hzq, ih1 r c (le_refl r)]
        ring
      · exact ih3 r (by omega) hrcur c hcc

/-! ## Idempotence on matrices already in reduced row-echelon form (C4) -/

/-- A matrix is in reduced row-echelon form with leading (pivot) columns
`L`, one per nonzero row from the top: the leading columns strictly
increase left to right, each lies inside the matrix, each nonzero row's
leading entry is the fraction 1 with only zeros before it in its row and
only zeros elsewhere in its column, and every row below the last pivot
row is entirely zero. -/
def IsRREFWith (M : Mat) (L : List Nat) : Prop :=
  L.Pairwise (· < ·) ∧ (∀ l ∈ L, l < M.cols) ∧ L.length ≤ M.rows ∧
  (∀ i, i < L.length → M.get i (L.getD i 0) = Frac.one) ∧
  (∀ i, i < L.length → ∀ c, c < L.getD i 0 → (M.get i c).isZero = true) ∧
  (∀ i, i < L.length → ∀ r, r < M.rows → r ≠ i →
    (M.get r (L.getD i 0)).isZero = true) ∧
  (∀ r, r < M.rows → L.length ≤ r → ∀ c, c < M.cols →
    (M.get r c).isZero = true)

instance (M : Mat) (L : List Nat) : Decidable (IsRREFWith M L) :=
  inferInstanceAs (Decidable (L.Pairwise (· < ·) ∧ (∀ l ∈ L, l < M.cols) ∧
    L.length ≤ M.rows ∧
    (∀ i, i < L.length → M.get i (L.getD i 0) = Frac.one) ∧
    (∀ i, i < L.length → ∀ c, c < L.getD i 0 → (M.get i c).isZero = true) ∧
    (∀ i, i < L.length → ∀ r, r < M.rows → r ≠ i →
      (M.get r (L.getD i 0)).isZero = true) ∧
    (∀ r, r < M.rows → L.length ≤ r → ∀ c, c < M.cols →
      (M.get r c).isZero = true)))

theorem pivotFold_const (m : Mat) (col : Nat) (p0 : Nat × ℚ) :
    ∀ l : List Nat, (∀ r ∈ l, ¬(|(m.get r col).toQ| > p0.2)) →
      pivotFold m col p0 l = p0
  | [], _ => rfl
  | r :: t, h => by
    unfold pivotFold
    rw [List.foldl_cons, if_neg (h r (List.mem_cons_self r t))]
    exact pivotFold_const m col p0 t
      (fun r' hr' => h r' (List.mem_cons_of_mem _ hr'))

theorem elimFold_id (col curR : Nat) :
    ∀ (l : List Nat) (s : RState),
      (∀ r ∈ l, ¬(r ≠ curR ∧ (s.m.get r col).isZero = false)) →
      l.foldl (elimBody col curR) s = s
  | [], _, _ => rfl
  | r :: t, s, h => by
    rw [List.foldl_cons]
    have hb : elimBody col curR s r = s := by
      simp only [elimBody, if_neg (h r (List.mem_cons_self r t))]
    rw [hb]
    exact elimFold_id col curR t s
      (fun r' hr' => h r' (List.mem_cons_of_mem _ hr'))

theorem getD_append_cons_length {α : Type} (d a : α) :
    ∀ (l1 l2 : List α), ((l1 ++ a :: l2).getD l1.length d) = a
  | [], _ => rfl
  | x :: t, l2 => by
    show ((t ++ a :: l2).getD t.length d) = a
    exact getD_append_cons_length d a t l2

theorem getD_append_ge {α : Type} (d : α) :
    ∀ (l1 l2 : List α) (n : Nat), l1.length ≤ n →
      ((l1 ++ l2).getD n d) = l2.getD (n - l1.length) d
  | [], _, _, _ => rfl
  | x :: t, l2, n, h => by
    match n, h with
    | n + 1, h =>
      show ((t ++ l2).getD n d) = l2.getD (n + 1 - (t.length + 1)) d
      rw [getD_append_ge d t l2 n (by simpa using h)]
      congr 1
      omega

/-- Processing the leading column of the current row of an RREF matrix
records no operation and only advances `currentRow`. -/
theorem rrefStep_rref_pivot (M : Mat) (L : List Nat) (hR : IsRREFWith M L)
    (P : List Nat) (cur col : Nat) (hcur : cur < L.length)
    (hcol : L.getD cur 0 = col) :
    rrefStep ⟨M, P, cur, []⟩ col = ⟨M, P ++ [col], cur + 1, []⟩ := by
  obtain ⟨hch, hlt, hlen, h1, h2, h3, h4⟩ := hR
  have hcr : cur < M.rows := lt_of_lt_of_le hcur hlen
  have hzero : ∀ r, r < M.rows → r ≠ cur → (M.get r col).isZero = true := by
    intro r hr hne
    rw [← hcol]
    exact h3 cur hcur r hr hne
  have hone : M.get cur col = Frac.one := by
    rw [← hcol]
    exact h1 cur hcur
  have hpv : findPivot M cur col = cur := by
    unfold findPivot
    rw [pivotFold_const M col _ _ ?hc]
    case hc =>
      intro r hr
      rw [List.mem_range'_1] at hr
      have hz := hzero r (by omega) (by omega)
      rw [Frac.toQ_eq_zero_of_isZero hz, hone, Frac.toQ_one]
      norm_num
  have hsw : swapStage ⟨M, P, cur, []⟩ cur = ⟨M, P, cur, []⟩ := by
    simp only [swapStage]
    exact if_neg (fun hh => hh rfl)
  have hsc : scaleStage ⟨M, P, cur, []⟩ col = ⟨M, P, cur, []⟩ := by
    simp only [scaleStage]
    exact if_neg (fun hh => hh hone)
  have helim : (List.range M.rows).foldl (elimBody col cur) ⟨M, P, cur, []⟩
      = ⟨M, P, cur, []⟩ := by
    refine elimFold_id col cur _ _ ?_
    intro r hr hand
    have hz := hzero r (List.mem_range.mp hr) hand.1
    rw [hand.2] at hz
    exact Bool.false_ne_true hz
  have hfo : ¬(Frac.one.isZero = true) := by decide
  simp only [rrefStep, hpv, hone]
  rw [if_pos hcr, if_neg hfo]
  simp only [hsw, hsc]
  rw [helim]

/-- A column whose entries at and below the current row are all zero is
skipped without changing the state. -/
theorem rrefStep_rref_skip (M : Mat) (P : List Nat) (cur col : Nat)
    (hzero : ∀ r, cur ≤ r → r < M.rows → (M.get r col).isZero = true) :
    rrefStep ⟨M, P, cur, []⟩ col = ⟨M, P, cur, []⟩ := by
  by_cases hcr : cur < M.rows
  · obtain ⟨hp1, hp2, _, _⟩ := findPivot_spec M col hcr
    simp only [rrefStep]
    rw [if_pos hcr, if_pos (hzero _ hp1 hp2)]
  · simp only [rrefStep]
    rw [if_neg hcr]

theorem rref_trace (M : Mat) (L : List Nat) (hR : IsRREFWith M L) :
    ∀ (n c : Nat) (P Q : List Nat), L = P ++ Q → (∀ q ∈ Q, c ≤ q) →
      c + n = M.cols →
      (List.range' c n).foldl rrefStep ⟨M, P, P.length, []⟩
        = ⟨M, L, L.length, []⟩ := by
  have hpw : L.Pairwise (· < ·) := hR.1
  intro n
  induction n with
  | zero =>
    intro c P Q hPQ hge hcols
    have hQ : Q = [] := by
      cases Q with
      | nil => rfl
      | cons q t =>
        have hq1 := hge q (List.mem_cons_self q t)
        have hq2 : q < M.cols := hR.2.1 q (by rw [hPQ]; simp)
        omega
    subst hQ
    rw [List.append_nil] at hPQ
    rw [hPQ]
    rfl
  | succ n ih =>
    intro c P Q hPQ hge hcols
    rw [List.range'_succ, List.foldl_cons]
    cases Q with
    | nil =>
      have hPL : P = L := by rw [hPQ, List.append_nil]
      have hstep : rrefStep ⟨M, P, P.length, []⟩ c = ⟨M, P, P.length, []⟩ := by
        refine rrefStep_rref_skip M P P.length c ?_
        intro r hr1 hr2
        exact hR.2.2.2.2.2.2 r hr2 (by rw [← hPL]; exact hr1) c (by omega)
      rw [hstep]
      exact ih (c + 1) P [] hPQ (by simp) (by omega)
    | cons q t =>
      have htq : ∀ x ∈ t, q < x := by
        have := (List.pairwise_append.mp (hPQ ▸ hpw)).2.1
        exact (List.pairwise_cons.mp this).1
      by_cases hq : q = c
      · subst hq
        have hcur : P.length < L.length := by
          rw [hPQ, List.length_append, List.length_cons]
          omega
        have hgetD : L.getD P.length 0 = q := by
          rw [hPQ]
          exact getD_append_cons_length 0 q P t
        have hstep := rrefStep_rref_pivot M L hR P P.length q hcur hgetD
        rw [hstep]
        have hlen1 : (P ++ [q]).length = P.length + 1 := by simp
        have hih := ih (q + 1) (P ++ [q]) t (by rw [hPQ]; simp)
          (fun x hx => htq x hx) (by omega)
        rw [hlen1] at hih
        exact hih
      · have hstep : rrefStep ⟨M, P, P.length, []⟩ c = ⟨M, P, P.length, []⟩ := by
          refine rrefStep_rref_skip M P P.length c ?_
          intro r hr1 hr2
          by_cases hrL : r < L.length
          · have hlead : c < L.getD r 0 := by
              have hget : L.getD r 0 = (q :: t).getD (r - P.length) 0 := by
                rw [hPQ]
                exact getD_append_ge 0 P (q :: t) r hr1
              cases hd : r - P.length with
              | zero =>
                rw [hget, hd]
                have := hge q (List.mem_cons_self q t)
                show c < q
                omega
              | succ j =>
                rw [hget, hd]
                show c < t.getD j 0
                have hjlen : j < t.length := by
                  rw [hPQ, List.length_append] at hrL
                  simp only [List.length_cons] at hrL
                  omega
                have hmem : t.getD j 0 ∈ t := getD_mem hjlen 0
                have := htq _ hmem
                have := hge q (List.mem_cons_self q t)
                omega
            exact hR.2.2.2.2.1 r hrL c hlead
          · exact hR.2.2.2.2.2.2 r hr2 (by omega) c (by omega)
        rw [hstep]
        refine ih (c + 1) P (q :: t) hPQ ?_ (by omega)
        intro x hx
        rcases List.mem_cons.mp hx with hx | hx
        · subst hx
          have := hge x (List.mem_cons_self x t)
          omega
        · have := htq x hx
          have := hge q (List.mem_cons_self q t)
          omega

/-- C4: on a matrix that is already in reduced row-echelon form with
leading columns `L`, `computeRREF` with operation tracking returns the
matrix unchanged, the pivot-column list `L` (the leading columns the
algorithm assigns), and an empty operation log. -/
theorem c4_rref_idempotent (M : Mat) (L : List Nat) (h : IsRREFWith M L) :
    computeRREF M true = ⟨M, L, some []⟩ := by
  have htr := rref_trace M L h M.cols 0 [] L rfl
    (fun q _ => Nat.zero_le q) (by omega)
  rw [List.length_nil] at htr
  rw [← List.range_eq_range'] at htr
  unfold computeRREF
  rw [htr]
  rfl

theorem c4_rref_idempotent_witness :
    IsRREFWith (mkMat [[Frac.one, Frac.zero], [Frac.zero, Frac.one]]) [0, 1] ∧
    computeRREF (mkMat [[Frac.one, Frac.zero], [Frac.zero, Frac.one]]) true
      = ⟨mkMat [[Frac.one, Frac.zero], [Frac.zero, Frac.one]], [0, 1], some []⟩ :=
  ⟨by decide, c4_rref_idempotent _ _ (by decide)⟩

/-! ## The column-loop invariant of `computeRREF`

After processing columns `0..col-1`, the state satisfies: shape and
well-formedness are preserved, one pivot has been recorded per processed
row, the pivot columns are strictly increasing and lie among the
processed columns, the matrix is in partial reduced echelon form on the
processed columns (`s1`-`s4`, at the level of exact rational values), and
the row space equals that of the input. -/
structure LoopInv (A : Mat) (st : RState) (col : Nat) : Prop where
  wf : st.m.WF
  rows_eq : st.m.rows = A.rows
  cols_eq : st.m.cols = A.cols
  pivlen : st.pivots.length = st.cur
  cur_le : st.cur ≤ A.rows
  piv_lt : ∀ q ∈ st.pivots, q < col
  piv_sorted : st.pivots.Pairwise (· < ·)
  s1 : ∀ i, i < st.cur → (st.m.get i (st.pivots.getD i 0)).toQ = 1
  s2 : ∀ i, i < st.cur → ∀ r, r < A.rows → r ≠ i →
    (st.m.get r (st.pivots.getD i 0)).toQ = 0
  s3 : ∀ i, i < st.cur → ∀ c, c < st.pivots.getD i 0 → (st.m.get i c).toQ = 0
  s4 : ∀ r, st.cur ≤ r → r < A.rows → ∀ c, c < col → (st.m.get r c).toQ = 0
  span : rowSpanQ A.cols st.m = rowSpanQ A.cols A

theorem getD_append_lt {α : Type} (d : α) :
    ∀ (l1 l2 : List α) (n : Nat), n < l1.length →
      ((l1 ++ l2).getD n d) = l1.getD n d
  | [], _, n, h => absurd h (by simp)
  | x :: t, l2, 0, _ => rfl
  | x :: t, l2, n + 1, h => by
    show ((t ++ l2).getD n d) = t.getD n d
    exact getD_append_lt d t l2 n (by simpa using h)

/-- Packaging lemma: the invariant for an explicitly given state, with
every field stated over the components directly. -/
theorem LoopInv.pack {A : Mat} {m : Mat} {piv : List Nat} {cur : Nat}
    {ops : List OpRec} {col : Nat}
    (wf : m.WF) (rows_eq : m.rows = A.rows) (cols_eq : m.cols = A.cols)
    (pivlen : piv.length = cur) (cur_le : cur ≤ A.rows)
    (piv_lt : ∀ q ∈ piv, q < col) (piv_sorted : piv.Pairwise (· < ·))
    (s1 : ∀ i, i < cur → (m.get i (piv.getD i 0)).toQ = 1)
    (s2 : ∀ i, i < cur → ∀ r, r < A.rows → r ≠ i →
      (m.get r (piv.getD i 0)).toQ = 0)
    (s3 : ∀ i, i < cur → ∀ c, c < piv.getD i 0 → (m.get i c).toQ = 0)
    (s4 : ∀ r, cur ≤ r → r < A.rows → ∀ c, c < col → (m.get r c).toQ = 0)
    (span : rowSpanQ A.cols m = rowSpanQ A.cols A) :
    LoopInv A ⟨m, piv, cur, ops⟩ col :=
  ⟨wf, rows_eq, cols_eq, pivlen, cur_le, piv_lt, piv_sorted, s1, s2, s3,
    s4, span⟩

theorem loopInv_init (A : Mat) (hA : A.WF) : LoopInv A ⟨A, [], 0, []⟩ 0 :=
  ⟨hA, rfl, rfl, rfl, Nat.zero_le _,
    fun q hq => absurd hq (List.not_mem_nil q), List.Pairwise.nil,
    fun i hi => absurd hi (Nat.not_lt_zero i),
    fun i hi => absurd hi (Nat.not_lt_zero i),
    fun i hi => absurd hi (Nat.not_lt_zero i),
    fun _ _ _ c hc => absurd hc (Nat.not_lt_zero c), rfl⟩

theorem rrefStep_loopInv {A : Mat} {st : RState} {col : Nat}
    (h : LoopInv A st col) (hcol : col < A.cols) :
    LoopInv A (rrefStep st col) (col + 1) := by
  have hcolm : col < st.m.cols := by rw [h.cols_eq]; exact hcol
  by_cases hcr : st.cur < st.m.rows
  case neg =>
    have hstep : rrefStep st col = st := by
      simp only [rrefStep]
      rw [if_neg hcr]
    rw [hstep]
    exact ⟨h.wf, h.rows_eq, h.cols_eq, h.pivlen, h.cur_le,
      fun q hq => Nat.lt_succ_of_lt (h.piv_lt q hq), h.piv_sorted,
      h.s1, h.s2, h.s3,
      fun r h1 h2 c _ => absurd h2 (by rw [← h.rows_eq]; omega), h.span⟩
  obtain ⟨hp1, hp2, hmax, _⟩ := findPivot_spec st.m col hcr
  set p := findPivot st.m st.cur col with hpdef
  have hpA : p < A.rows := by rw [← h.rows_eq]; exact hp2
  by_cases hz : (st.m.get p col).isZero = true
  · have hstep : rrefStep st col = st := by
      simp only [rrefStep]
      rw [if_pos hcr, ← hpdef, if_pos hz]
    rw [hstep]
    refine ⟨h.wf, h.rows_eq, h.cols_eq, h.pivlen, h.cur_le,
      fun q hq => Nat.lt_succ_of_lt (h.piv_lt q hq), h.piv_sorted,
      h.s1, h.s2, h.s3, ?_, h.span⟩
    intro r h1 h2 c hc
    by_cases hcc : c = col
    · subst hcc
      have hle := hmax r h1 (by rw [h.rows_eq]; exact h2)
      rw [Frac.toQ_eq_zero_of_isZero hz, abs_zero] at hle
      exact abs_nonpos_iff.mp hle
    · exact h.s4 r h1 h2 c (by omega)
  · have hznum : (st.m.get p col).isZero = false := by
      cases hzz : (st.m.get p col).isZero
      · rfl
      · exact absurd hzz hz
    have hpd : (st.m.get p col).den ≠ 0 := (Mat.get_reduced_all h.wf p col).den_ne
    have hpq : (st.m.get p col).toQ ≠ 0 := by
      intro hq
      rw [(Frac.isZero_iff hpd).mpr hq] at hznum
      simp at hznum
    -- stage 1: the swap
    have hwf1 : (swapStage st p).m.WF := swapStage_wf h.wf hcr hp2
    have hrows1 : (swapStage st p).m.rows = st.m.rows := swapStage_m_rows st p
    have hcols1 : (swapStage st p).m.cols = st.m.cols := swapStage_m_cols st p
    have hcur1 : (swapStage st p).cur = st.cur := swapStage_cur st p
    have hget1cur : ∀ c, (swapStage st p).m.get st.cur c = st.m.get p c :=
      swapStage_get_cur h.wf hcr hp2
    have hnz1 : ((swapStage st p).m.get (swapStage st p).cur col).isZero
        = false := by
      rw [hcur1, hget1cur col]
      exact hznum
    have hcur1r : (swapStage st p).cur < (swapStage st p).m.rows := by
      rw [hcur1, hrows1]
      exact hcr
    -- stage 2: the scale
    have hwf2 : (scaleStage (swapStage st p) col).m.WF :=
      (scaleStageE_ok hwf1 hcur1r hnz1).2
    have hrows2 : (scaleStage (swapStage st p) col).m.rows = st.m.rows :=
      (scaleStage_m_rows (swapStage st p) col).trans hrows1
    have hcols2 : (scaleStage (swapStage st p) col).m.cols = st.m.cols :=
      (scaleStage_m_cols (swapStage st p) col).trans hcols1
    have hcur2 : (scaleStage (swapStage st p) col).cur = st.cur :=
      (scaleStage_cur (swapStage st p) col).trans hcur1
    have hpiv2 : (scaleStage (swapStage st p) col).pivots = st.pivots :=
      (scaleStage_pivots (swapStage st p) col).trans (swapStage_pivots st p)
    -- exact value of every entry after the scale stage
    have hT : ∀ r, r < st.m.rows → ∀ c, c < st.m.cols →
        ((scaleStage (swapStage st p) col).m.get r c).toQ =
          if r = st.cur
          then ((swapStage st p).m.get r c).toQ / (st.m.get p col).toQ
          else ((swapStage st p).m.get r c).toQ := by
      intro r hr c hc
      have hs := scaleStage_get_toQ hwf1 hcur1r hnz1
        (by rw [hrows1]; exact hr) (by rw [hcols1]; exact hc)
      rw [hcur1, hget1cur col] at hs
      exact hs
    have hTr : ∀ r, r < st.m.rows → r ≠ st.cur → ∀ c, c < st.m.cols →
        ((scaleStage (swapStage st p) col).m.get r c).toQ
          = if r = p then (st.m.get st.cur c).toQ else (st.m.get r c).toQ := by
      intro r hr hrc c hc
      rw [hT r hr c hc, if_neg hrc, swapStage_get h.wf hcr hp2 r c]
      by_cases hrp : r = p
      · rw [if_pos hrp, if_pos hrp]
      · rw [if_neg hrp, if_neg hrc, if_neg hrp]
    have hT1 : ((scaleStage (swapStage st p) col).m.get st.cur col).toQ = 1 := by
      rw [hT st.cur hcr col hcolm, if_pos rfl, hget1cur col]
      exact div_self hpq
    have hS2cur : ∀ i, i < st.cur →
        ((scaleStage (swapStage st p) col).m.get st.cur
          (st.pivots.getD i 0)).toQ = 0 := by
      intro i hi
      have hpi : st.pivots.getD i 0 < col :=
        h.piv_lt _ (getD_mem (by rw [h.pivlen]; omega) 0)
      rw [hT st.cur hcr _ (by omega), if_pos rfl, hget1cur]
      rw [h.s2 i hi p hpA (by omega)]
      exact zero_div _
    have hS4cur : ∀ c, c < col →
        ((scaleStage (swapStage st p) col).m.get st.cur c).toQ = 0 := by
      intro c hc
      rw [hT st.cur hcr c (by omega), if_pos rfl, hget1cur]
      rw [h.s4 p hp1 hpA c hc]
      exact zero_div _
    -- stage 3: the elimination fold
    have hcur2r : st.cur < (scaleStage (swapStage st p) col).m.rows := by
      rw [hrows2]
      exact hcr
    obtain ⟨he1, he2, he3⟩ := elimFold_spec col st.cur
      (scaleStage (swapStage st p) col) hwf2 hcur2r
      (scaleStage (swapStage st p) col).m.rows (le_refl _)
    have hwf3 : ((List.range (scaleStage (swapStage st p) col).m.rows).foldl
        (elimBody col st.cur) (scaleStage (swapStage st p) col)).m.WF :=
      elimFold_wf col st.cur _ _ hwf2 (fun r hr => List.mem_range.mp hr) hcur2r
    have hrows3 : ((List.range (scaleStage (swapStage st p) col).m.rows).foldl
        (elimBody col st.cur) (scaleStage (swapStage st p) col)).m.rows
        = st.m.rows := (elimFold_m_rows col st.cur _ _).trans hrows2
    have hcols3 : ((List.range (scaleStage (swapStage st p) col).m.rows).foldl
        (elimBody col st.cur) (scaleStage (swapStage st p) col)).m.cols
        = st.m.cols := (elimFold_m_cols col st.cur _ _).trans hcols2
    have hpiv3 : ((List.range (scaleStage (swapStage st p) col).m.rows).foldl
        (elimBody col st.cur) (scaleStage (swapStage st p) col)).pivots
        = st.pivots := (elimFold_pivots col st.cur _ _).trans hpiv2
    -- the final value formula for rows other than the pivot row
    have hE : ∀ r, r < st.m.rows → r ≠ st.cur → ∀ c, c < st.m.cols →
        (((List.range (scaleStage (swapStage st p) col).m.rows).foldl
          (elimBody col st.cur) (scaleStage (swapStage st p) col)).m.get r c).toQ
        = ((scaleStage (swapStage st p) col).m.get r c).toQ
          - ((scaleStage (swapStage st p) col).m.get r col).toQ
            * ((scaleStage (swapStage st p) col).m.get st.cur c).toQ := by
      intro r hr hrc c hc
      exact he3 r (by rw [hrows2]; exact hr) hrc c (by rw [hcols2]; exact hc)
    have hstep : rrefStep st col
        = ⟨((List.range (scaleStage (swapStage st p) col).m.rows).foldl
            (elimBody col st.cur) (scaleStage (swapStage st p) col)).m,
          ((List.range (scaleStage (swapStage st p) col).m.rows).foldl
            (elimBody col st.cur) (scaleStage (swapStage st p) col)).pivots
            ++ [col],
          st.cur + 1,
          ((List.range (scaleStage (swapStage st p) col).m.rows).foldl
            (elimBody col st.cur) (scaleStage (swapStage st p) col)).ops⟩ := by
      simp only [rrefStep]
      rw [if_pos hcr, ← hpdef, if_neg hz]
    have hspan : rowSpanQ A.cols (rrefStep st col).m = rowSpanQ A.cols A :=
      (rowSpanQ_rrefStep A.cols st col h.wf).trans h.span
    rw [hstep] at hspan
    rw [hstep, hpiv3]
    -- the per-column zero facts of the new state, established once
    have hnew_col : ∀ r, r < st.m.rows → r ≠ st.cur →
        (((List.range (scaleStage (swapStage st p) col).m.rows).foldl
          (elimBody col st.cur) (scaleStage (swapStage st p) col)).m.get r
          col).toQ = 0 := by
      intro r hr hrc
      rw [hE r hr hrc col hcolm, hT1]
      ring
    have hgetD : (st.pivots ++ [col]).getD st.cur 0 = col := by
      rw [← h.pivlen]
      exact getD_append_cons_length 0 col st.pivots []
    refine LoopInv.pack hwf3 (hrows3.trans h.rows_eq) (hcols3.trans h.cols_eq)
      ?_ ?_ ?_ ?_ ?_ ?_ ?_ ?_ hspan
    · rw [List.length_append, h.pivlen]
      rfl
    · rw [← h.rows_eq]
      omega
    · intro q hq
      rcases List.mem_append.mp hq with hq | hq
      · exact Nat.lt_succ_of_lt (h.piv_lt q hq)
      · rw [List.mem_singleton.mp hq]
        omega
    · rw [List.pairwise_append]
      exact ⟨h.piv_sorted, List.pairwise_singleton _ _,
        fun a ha b hb => by
          rw [List.mem_singleton.mp hb]
          exact h.piv_lt a ha⟩
    · -- s1
      intro i hi
      by_cases hic : i = st.cur
      · subst hic
        rw [hgetD, he2 col]
        exact hT1
      · have hi' : i < st.cur := by omega
        rw [getD_append_lt 0 st.pivots [col] i (by rw [h.pivlen]; exact hi')]
        have hpi : st.pivots.getD i 0 < col :=
          h.piv_lt _ (getD_mem (by rw [h.pivlen]; exact hi') 0)
        have hiA : i < st.m.rows := by omega
        rw [hE i hiA hic (st.pivots.getD i 0) (by omega), hS2cur i hi',
          hTr i hiA hic (st.pivots.getD i 0) (by omega),
          if_neg (by omega : ¬ i = p)]
        rw [h.s1 i hi']
        ring
    · -- s2
      intro i hi r hrA hri
      have hr : r < st.m.rows := by rw [h.rows_eq]; exact hrA
      by_cases hic : i = st.cur
      · subst hic
        rw [hgetD]
        exact hnew_col r hr hri
      · have hi' : i < st.cur := by omega
        rw [getD_append_lt 0 st.pivots [col] i (by rw [h.pivlen]; exact hi')]
        have hpi : st.pivots.getD i 0 < col :=
          h.piv_lt _ (getD_mem (by rw [h.pivlen]; exact hi') 0)
        by_cases hrc : r = st.cur
        · subst hrc
          rw [he2 (st.pivots.getD i 0)]
          exact hS2cur i hi'
        · rw [hE r hr hrc (st.pivots.getD i 0) (by omega), hS2cur i hi',
            hTr r hr hrc (st.pivots.getD i 0) (by omega)]
          by_cases hrp : r = p
          · rw [if_pos hrp, h.s2 i hi' st.cur (by rw [← h.rows_eq]; exact hcr)
              (by omega)]
            ring
          · rw [if_neg hrp, h.s2 i hi' r hrA hri]
            ring
    · -- s3
      intro i hi c hc
      by_cases hic : i = st.cur
      · subst hic
        rw [hgetD] at hc
        rw [he2 c]
        exact hS4cur c hc
      · have hi' : i < st.cur := by omega
        rw [getD_append_lt 0 st.pivots [col] i
          (by rw [h.pivlen]; exact hi')] at hc
        have hpi : st.pivots.getD i 0 < col :=
          h.piv_lt _ (getD_mem (by rw [h.pivlen]; exact hi') 0)
        have hiA : i < st.m.rows := by omega
        rw [hE i hiA hic c (by omega), hS4cur c (by omega),
          hTr i hiA hic c (by omega), if_neg (by omega : ¬ i = p)]
        rw [h.s3 i hi' c hc]
        ring
    · -- s4
      intro r h1 h2 c hc
      have hr : r < st.m.rows := by rw [h.rows_eq]; exact h2
      have hrc : r ≠ st.cur := by omega
      by_cases hcc : c = col
      · subst hcc
        exact hnew_col r hr hrc
      · have hc' : c < col := by omega
        rw [hE r hr hrc c (by omega), hS4cur c hc',
          hTr r hr hrc c (by omega)]
        by_cases hrp : r = p
        · rw [if_pos hrp, h.s4 st.cur (le_refl _) (by rw [← h.rows_eq]; exact hcr)
            c hc']
          ring
        · rw [if_neg hrp, h.s4 r (by omega) h2 c hc']
          ring

theorem rrefFold_loopInv (A : Mat) (hA : A.WF) :
    ∀ k, k ≤ A.cols →
      LoopInv A ((List.range k).foldl rrefStep ⟨A, [], 0, []⟩) k := by
  intro k
  induction k with
  | zero =>
    intro _
    exact loopInv_init A hA
  | succ k ih =>
    intro hk
    rw [List.range_succ, List.foldl_append, List.foldl_cons, List.foldl_nil]
    exact rrefStep_loopInv (ih (by omega)) (by omega)

/-! ## Counting nonzero rows and free columns -/

theorem filter_range_length (p : Nat → Bool) :
    ∀ (n k : Nat), k ≤ n → (∀ i, i < n → (p i = true ↔ i < k)) →
      ((List.range n).filter p).length = k := by
  intro n
  induction n with
  | zero =>
    intro k hk _
    have : k = 0 := by omega
    subst this
    rfl
  | succ n ih =>
    intro k hk hp
    rw [List.range_succ, List.filter_append, List.length_append]
    by_cases hkn : k ≤ n
    · have hpn : p n = false := by
        cases hpn : p n
        · rfl
        · have := (hp n (by omega)).mp hpn
          omega
      have h2 : (List.filter p [n]).length = 0 := by
        simp [List.filter, hpn]
      rw [h2, ih k hkn (fun i hi => hp i (by omega))]
      omega
    · have hkn' : k = n + 1 := by omega
      subst hkn'
      have hpn : p n = true := (hp n (by omega)).mpr (by omega)
      have h2 : (List.filter p [n]).length = 1 := by
        simp [List.filter, hpn]
      rw [h2, ih n (le_refl n)
        (fun i hi => ⟨fun _ => hi, fun _ => (hp i (by omega)).mpr (by omega)⟩)]
      try omega

/-- Filtering an ascending integer range by membership in a sorted list
contained in the range returns exactly that list. -/
theorem filter_mem_sorted :
    ∀ (P : List Nat), P.Pairwise (· < ·) →
      ∀ (s k : Nat), (∀ q ∈ P, s ≤ q ∧ q < s + k) →
        (List.range' s k).filter (fun j => decide (j ∈ P)) = P
  | [], _, s, k, _ => by simp
  | a :: t, hs, s, k, hb => by
    obtain ⟨ha1, ha2⟩ := hb a (List.mem_cons_self a t)
    have hta : ∀ q ∈ t, a < q := (List.pairwise_cons.mp hs).1
    have hts : t.Pairwise (· < ·) := (List.pairwise_cons.mp hs).2
    have hsplit : List.range' s k
        = List.range' s (a - s) ++ List.range' a (k - (a - s)) := by
      have h1 : s + (a - s) = a := by omega
      have h2 : k - (a - s) + (a - s) = k := by omega
      have h3 := List.range'_append_1 s (a - s) (k - (a - s))
      rw [h1, h2] at h3
      exact h3.symm
    rw [hsplit, List.filter_append]
    have hfirst : (List.range' s (a - s)).filter
        (fun j => decide (j ∈ a :: t)) = [] := by
      rw [List.filter_eq_nil_iff]
      intro j hj
      rw [List.mem_range'_1] at hj
      simp only [decide_eq_true_eq]
      intro hmem
      rcases List.mem_cons.mp hmem with h | h
      · omega
      · have := hta j h
        omega
    rw [hfirst, List.nil_append]
    have hu : k - (a - s) = k - (a - s) - 1 + 1 := by omega
    rw [hu, List.range'_succ]
    simp only [List.filter_cons]
    have hpa : decide (a ∈ a :: t) = true := by simp
    rw [if_pos hpa]
    have htail : (List.range' (a + 1) (k - (a - s) - 1)).filter
          (fun j => decide (j ∈ a :: t))
        = (List.range' (a + 1) (k - (a - s) - 1)).filter
          (fun j => decide (j ∈ t)) := by
      apply List.filter_congr
      intro j hj
      rw [List.mem_range'_1] at hj
      rw [decide_eq_decide]
      constructor
      · intro hmem
        rcases List.mem_cons.mp hmem with h | h
        · omega
        · exact h
      · exact fun hmem => List.mem_cons_of_mem a hmem
    rw [htail, filter_mem_sorted t hts (a + 1) (k - (a - s) - 1)
      (fun q hq => ⟨hta q hq, by
        obtain ⟨hq1, hq2⟩ := hb q (List.mem_cons_of_mem a hq)
        omega⟩)]

theorem length_filter_split {α : Type} (p : α → Bool) :
    ∀ l : List α,
      (l.filter p).length + (l.filter (fun x => !(p x))).length = l.length
  | [] => rfl
  | a :: t => by
    rw [List.filter_cons, List.filter_cons]
    cases hpa : p a
    · rw [if_neg (by simp [hpa]), if_pos (by simp [hpa])]
      have hrec := length_filter_split p t
      simp only [List.length_cons]
      omega
    · rw [if_pos (by simp [hpa]), if_neg (by simp [hpa])]
      have hrec := length_filter_split p t
      simp only [List.length_cons]
      omega

/-- The number of indices below `n` outside a sorted list of `r` values
all below `n` is `n - r`. -/
theorem filter_not_mem_length (P : List Nat) (hs : P.Pairwise (· < ·))
    (n : Nat) (hb : ∀ q ∈ P, q < n) :
    ((List.range n).filter (fun j => decide (j ∉ P))).length
      = n - P.length := by
  have hmem : ((List.range n).filter (fun j => decide (j ∈ P))).length
      = P.length := by
    rw [List.range_eq_range', filter_mem_sorted P hs 0 n
      (fun q hq => ⟨Nat.zero_le q, by
        have := hb q hq
        omega⟩)]
  have hsum := length_filter_split (fun j => decide (j ∈ P)) (List.range n)
  rw [List.length_range] at hsum
  have hfun : (fun j => decide (j ∉ P))
      = (fun j => !(decide (j ∈ P))) := by
    funext j
    exact decide_not
  rw [hfun]
  omega

/-! ## The pivot count is the rank of the exact rational matrix -/

/-- The matrix of exact rational entry values of a `Mat`. -/
def matQ (m : Mat) : Matrix (Fin m.rows) (Fin m.cols) ℚ :=
  fun i j => (m.get i j).toQ

theorem getD_range {n i : Nat} (h : i < n) (d : Nat) :
    (List.range n).getD i d = i := by
  rw [List.getD_eq_getElem?_getD, List.getElem?_range h]
  rfl

theorem matQ_eq_rowVec (m : Mat) (i : Fin m.rows) :
    matQ m i = rowVec m.cols (m.data.getD i []) := rfl

theorem rowSpanQ_eq_range_span (m : Mat) (hlen : m.data.length = m.rows) :
    rowSpanQ m.cols m = Submodule.span ℚ (Set.range (matQ m)) := by
  unfold rowSpanQ
  congr 1
  ext x
  constructor
  · intro hx
    rcases List.mem_map.mp hx with ⟨row, hrow, hxe⟩
    rcases List.mem_iff_getElem.mp hrow with ⟨i, hi, hie⟩
    have hifin : i < m.rows := by omega
    refine ⟨⟨i, hifin⟩, ?_⟩
    have h1 : matQ m ⟨i, hifin⟩ = rowVec m.cols (m.data.getD i []) := rfl
    have h2 : m.data.getD i [] = row := by
      rw [List.getD_eq_getElem?_getD, List.getElem?_eq_getElem hi, hie]
      rfl
    rw [h1, h2, hxe]
  · rintro ⟨i, rfl⟩
    have h1 : (m.data.map (rowVec m.cols)).getD i 0
        = rowVec m.cols (m.data.getD i []) := map_rowVec_getD m.cols m.data i
    have h2 : (m.data.map (rowVec m.cols)).getD i 0
        ∈ m.data.map (rowVec m.cols) := by
      refine getD_mem ?_ 0
      rw [List.length_map, hlen]
      exact i.isLt
    rw [h1] at h2
    exact h2

/-- The first `rank` rows of the final RREF state are linearly
independent: evaluating a vanishing linear combination at each pivot
column isolates its coefficient. -/
theorem finalState_pivotRows_linearIndependent (A : Mat) (hA : A.WF) :
    LinearIndependent ℚ
      (fun i : Fin ((List.range A.cols).foldl rrefStep ⟨A, [], 0, []⟩).cur =>
        rowVec A.cols
          (((List.range A.cols).foldl rrefStep ⟨A, [], 0, []⟩).m.data.getD i
            [])) := by
  have inv := rrefFold_loopInv A hA A.cols (le_refl _)
  rw [Fintype.linearIndependent_iff]
  intro g hg j
  have hjcur : (j : Nat)
      < ((List.range A.cols).foldl rrefStep ⟨A, [], 0, []⟩).cur := j.isLt
  have hpj : ((List.range A.cols).foldl rrefStep ⟨A, [], 0, []⟩).pivots.getD
      j 0 < A.cols :=
    inv.piv_lt _ (getD_mem (by rw [inv.pivlen]; exact hjcur) 0)
  have hg' := congrFun hg
    ⟨((List.range A.cols).foldl rrefStep ⟨A, [], 0, []⟩).pivots.getD j 0, hpj⟩
  simp only [Finset.sum_apply, Pi.smul_apply, Pi.zero_apply, smul_eq_mul]
    at hg'
  rw [Finset.sum_eq_single j ?f1 ?f2] at hg'
  case f1 =>
    intro i _ hij
    have hicur : (i : Nat)
        < ((List.range A.cols).foldl rrefStep ⟨A, [], 0, []⟩).cur := i.isLt
    have hiA : (i : Nat) < A.rows := by
      have := inv.cur_le
      omega
    have hz := inv.s2 j hjcur i hiA (fun hh => hij (Fin.ext hh))
    have hval : rowVec A.cols
        (((List.range A.cols).foldl rrefStep ⟨A, [], 0, []⟩).m.data.getD i [])
        ⟨((List.range A.cols).foldl rrefStep ⟨A, [], 0, []⟩).pivots.getD j 0,
          hpj⟩
        = (((List.range A.cols).foldl rrefStep ⟨A, [], 0, []⟩).m.get i
          (((List.range A.cols).foldl rrefStep
            ⟨A, [], 0, []⟩).pivots.getD j 0)).toQ := rfl
    rw [hval, hz, mul_zero]
  case f2 =>
    intro hj
    exact absurd (Finset.mem_univ j) hj
  have hval1 : rowVec A.cols
      (((List.range A.cols).foldl rrefStep ⟨A, [], 0, []⟩).m.data.getD j [])
      ⟨((List.range A.cols).foldl rrefStep ⟨A, [], 0, []⟩).pivots.getD j 0,
        hpj⟩
      = (((List.range A.cols).foldl rrefStep ⟨A, [], 0, []⟩).m.get j
        (((List.range A.cols).foldl rrefStep
          ⟨A, [], 0, []⟩).pivots.getD j 0)).toQ := rfl
  rw [hval1, inv.s1 j hjcur, mul_one] at hg'
  exact hg'

theorem finalState_rowSpan_eq_pivotSpan (A : Mat) (hA : A.WF) :
    rowSpanQ A.cols ((List.range A.cols).foldl rrefStep ⟨A, [], 0, []⟩).m
      = Submodule.span ℚ (Set.range
        (fun i : Fin ((List.range A.cols).foldl rrefStep ⟨A, [], 0, []⟩).cur =>
          rowVec A.cols
            (((List.range A.cols).foldl rrefStep ⟨A, [], 0, []⟩).m.data.getD i
              []))) := by
  have inv := rrefFold_loopInv A hA A.cols (le_refl _)
  apply le_antisymm
  · rw [rowSpanQ, Submodule.span_le]
    intro x hx
    rcases List.mem_map.mp hx with ⟨row, hrow, hxe⟩
    rcases List.mem_iff_getElem.mp hrow with ⟨i, hi, hie⟩
    have hgetrow : ((List.range A.cols).foldl rrefStep
        ⟨A, [], 0, []⟩).m.data.getD i [] = row := by
      rw [List.getD_eq_getElem?_getD, List.getElem?_eq_getElem hi, hie]
      rfl
    by_cases hcur : i < ((List.range A.cols).foldl rrefStep ⟨A, [], 0, []⟩).cur
    · have hval : x = (fun k : Fin ((List.range A.cols).foldl rrefStep
          ⟨A, [], 0, []⟩).cur =>
          rowVec A.cols (((List.range A.cols).foldl rrefStep
            ⟨A, [], 0, []⟩).m.data.getD k [])) ⟨i, hcur⟩ := by
        rw [← hxe]
        show rowVec A.cols row = rowVec A.cols _
        rw [hgetrow]
      exact hval ▸ Submodule.subset_span ⟨⟨i, hcur⟩, rfl⟩
    · have hiA : i < A.rows := by
        have h1 : ((List.range A.cols).foldl rrefStep
            ⟨A, [], 0, []⟩).m.data.length = A.rows := by
          rw [inv.wf.1, inv.rows_eq]
        omega
      have hx0 : x = 0 := by
        rw [← hxe]
        funext c
        show (row.getD c Frac.zero).toQ = 0
        have hget : row.getD c Frac.zero
            = ((List.range A.cols).foldl rrefStep ⟨A, [], 0, []⟩).m.get i c := by
          rw [Mat.get, hgetrow]
        rw [hget]
        exact inv.s4 i (by omega) hiA c c.isLt
      rw [hx0]
      exact zero_mem _
  · rw [Submodule.span_le]
    rintro x ⟨i, rfl⟩
    have hiA : (i : Nat) < A.rows := by
      have h1 := i.isLt
      have h2 := inv.cur_le
      omega
    have h1 : (((List.range A.cols).foldl rrefStep
        ⟨A, [], 0, []⟩).m.data.map (rowVec A.cols)).getD i 0
        = rowVec A.cols
          (((List.range A.cols).foldl rrefStep ⟨A, [], 0, []⟩).m.data.getD i
            []) := map_rowVec_getD _ _ _
    have h2 : (((List.range A.cols).foldl rrefStep
        ⟨A, [], 0, []⟩).m.data.map (rowVec A.cols)).getD i 0
        ∈ ((List.range A.cols).foldl rrefStep
          ⟨A, [], 0, []⟩).m.data.map (rowVec A.cols) := by
      refine getD_mem ?_ 0
      rw [List.length_map, inv.wf.1, inv.rows_eq]
      exact hiA
    rw [h1] at h2
    exact Submodule.subset_span h2

/-- The number of pivot columns `computeRREF` finds equals the rank of
the exact rational matrix. -/
theorem rank_bridge (A : Mat) (hA : A.WF) :
    (matQ A).rank = (computeRREF A false).pivots.length := by
  have inv := rrefFold_loopInv A hA A.cols (le_refl _)
  have h1 : (matQ A).rank
      = Module.finrank ℚ (Submodule.span ℚ (Set.range (matQ A))) :=
    Matrix.rank_eq_finrank_span_row (matQ A)
  rw [h1, ← rowSpanQ_eq_range_span A hA.1, ← inv.span,
    finalState_rowSpan_eq_pivotSpan A hA,
    finrank_span_eq_card (finalState_pivotRows_linearIndependent A hA),
    Fintype.card_fin]
  have h2 : (computeRREF A false).pivots
      = ((List.range A.cols).foldl rrefStep ⟨A, [], 0, []⟩).pivots := rfl
  rw [h2, inv.pivlen]

theorem Mat.get_transpose (m : Mat) {i j : Nat} (hi : i < m.cols)
    (hj : j < m.rows) : m.transpose.get i j = m.get j i := by
  have h1 : ((List.range m.cols).map
      (fun c => (List.range m.rows).map (fun r => m.get r c))).getD i []
      = (List.range m.rows).map (fun r => m.get r i) := by
    rw [getD_map_of_lt _ _ i (by simpa using hi) [] 0, getD_range hi 0]
  show (((List.range m.cols).map
    (fun c => (List.range m.rows).map (fun r => m.get r c))).getD i []).getD j
      Frac.zero = m.get j i
  rw [h1, getD_map_of_lt _ _ j (by simpa using hj) Frac.zero 0,
    getD_range hj 0]

theorem matQ_transpose (A : Mat) : matQ A.transpose = (matQ A).transpose := by
  funext i j
  have hi : (i : Nat) < A.cols := i.isLt
  have hj : (j : Nat) < A.rows := j.isLt
  show (A.transpose.get i j).toQ = (A.get j i).toQ
  rw [Mat.get_transpose A hi hj]

/-- The RREF pivot counts of a matrix and of its transpose agree: both
equal the rank of the exact rational matrix. -/
theorem rankPiv_transpose_eq (A : Mat) (hA : A.WF) :
    (computeRREF A.transpose false).pivots.length
      = (computeRREF A false).pivots.length := by
  have h1 := rank_bridge A hA
  have h2 := rank_bridge A.transpose hA.transpose
  rw [matQ_transpose, Matrix.rank_transpose] at h2
  omega

/-! ## The dimensions reported by the subspace calculator -/

theorem computeColumnSpace_length (A : Mat) :
    (computeColumnSpace A).length = (computeRREF A false).pivots.length := by
  unfold computeColumnSpace
  rw [List.length_map]

theorem computeRowSpace_length (A : Mat) (hA : A.WF) :
    (computeRowSpace A).length = (computeRREF A false).pivots.length := by
  have inv := rrefFold_loopInv A hA A.cols (le_refl _)
  unfold computeRowSpace getNonZeroRows
  rw [List.length_map]
  have hR : (computeRREF A false).rref
      = ((List.range A.cols).foldl rrefStep ⟨A, [], 0, []⟩).m := rfl
  have hP : (computeRREF A false).pivots
      = ((List.range A.cols).foldl rrefStep ⟨A, [], 0, []⟩).pivots := rfl
  rw [hR, hP]
  refine filter_range_length _ _ _ ?_ ?_
  · exact le_trans (le_of_eq inv.pivlen) (by rw [inv.rows_eq]; exact inv.cur_le)
  · intro i hi
    simp only [isZeroRow]
    rw [decide_eq_true_eq, not_iff_comm]
    have hrows : ((List.range A.cols).foldl rrefStep
        ⟨A, [], 0, []⟩).m.rows = A.rows := inv.rows_eq
    constructor
    · intro hge
      rw [List.all_eq_true]
      intro j hj
      rw [List.mem_range] at hj
      have hjA : j < A.cols := by rw [← inv.cols_eq]; exact hj
      have hz := inv.s4 i (by rw [← inv.pivlen]; omega)
        (by rw [← hrows]; exact hi) j hjA
      exact (Frac.isZero_iff (Mat.get_reduced_all inv.wf i j).den_ne).mpr hz
    · intro hall
      rw [List.all_eq_true] at hall
      by_contra hlt
      have hicur : i < ((List.range A.cols).foldl rrefStep
          ⟨A, [], 0, []⟩).cur := by rw [← inv.pivlen]; exact hlt
      have hpi : ((List.range A.cols).foldl rrefStep
          ⟨A, [], 0, []⟩).pivots.getD i 0 < A.cols :=
        inv.piv_lt _ (getD_mem (by rw [inv.pivlen]; exact hicur) 0)
      have hone := inv.s1 i hicur
      have hmem : ((List.range A.cols).foldl rrefStep
          ⟨A, [], 0, []⟩).pivots.getD i 0 ∈ List.range
          ((List.range A.cols).foldl rrefStep ⟨A, [], 0, []⟩).m.cols := by
        rw [List.mem_range, inv.cols_eq]
        exact hpi
      have := hall _ hmem
      rw [(Frac.isZero_iff (Mat.get_reduced_all inv.wf _ _).den_ne)] at this
      rw [this] at hone
      norm_num at hone

theorem computeNullSpace_length (A : Mat) (hA : A.WF) :
    (computeNullSpace A).length
      = A.cols - (computeRREF A false).pivots.length := by
  have inv := rrefFold_loopInv A hA A.cols (le_refl _)
  simp only [computeNullSpace]
  rw [List.length_map]
  exact filter_not_mem_length (computeRREF A false).pivots inv.piv_sorted
    A.cols (fun q hq => inv.piv_lt q hq)

theorem rank_le_rows (A : Mat) (hA : A.WF) :
    (computeRREF A false).pivots.length ≤ A.rows := by
  have inv := rrefFold_loopInv A hA A.cols (le_refl _)
  exact le_trans (le_of_eq inv.pivlen) inv.cur_le

theorem rank_le_cols (A : Mat) (hA : A.WF) :
    (computeRREF A false).pivots.length ≤ A.cols := by
  have inv := rrefFold_loopInv A hA A.cols (le_refl _)
  have h1 := filter_mem_sorted (computeRREF A false).pivots inv.piv_sorted 0
    A.cols (fun q hq => ⟨Nat.zero_le q, by
      have := inv.piv_lt q hq
      omega⟩)
  have h2 := List.length_filter_le
    (fun j => decide (j ∈ (computeRREF A false).pivots))
    (List.range' 0 A.cols)
  rw [h1] at h2
  simpa using h2

theorem computeLeftNullSpace_length (A : Mat) (hA : A.WF) :
    (computeLeftNullSpace A).length
      = A.rows - (computeRREF A false).pivots.length := by
  unfold computeLeftNullSpace
  rw [computeNullSpace_length A.transpose hA.transpose,
    rankPiv_transpose_eq A hA]
  rfl

/-- C1: for every valid input (a rectangular grid of reduced fractions
accepted by the validation of `computeAllSpaces`), the report satisfies
the dimension theorem: the column-space and row-space dimensions equal
the rank (the pivot count), the null-space dimension is `cols - rank`,
the left-null-space dimension is `rows - rank` (with `rank ≤ cols` and
`rank ≤ rows`, so the subtractions are exact), and consequently the
`dimension_check.valid` flag is true. -/
theorem c1_dimension_theorem (matrixData : List (List Frac))
    (trackOperations : Bool) (rep : Report)
    (hred : ∀ row ∈ matrixData, ∀ x ∈ row, x.Reduced)
    (hok : computeAllSpaces matrixData trackOperations = .ok rep) :
    rep.column_space.dimension = rep.rank ∧
    rep.row_space.dimension = rep.rank ∧
    rep.null_space.dimension = rep.cols - rep.rank ∧
    rep.left_null_space.dimension = rep.rows - rep.rank ∧
    rep.rank ≤ rep.cols ∧ rep.rank ≤ rep.rows ∧
    rep.dimension_check_valid = true := by
  simp only [computeAllSpaces] at hok
  by_cases h1 : matrixData.length = 0
  · rw [if_pos h1] at hok
    exact Except.noConfusion hok
  rw [if_neg h1] at hok
  by_cases h2 : ¬ (matrixData.all
      (fun row => row.length = (matrixData.headD []).length))
  · rw [if_pos h2] at hok
    exact Except.noConfusion hok
  rw [if_neg h2] at hok
  by_cases h3 : matrixData.length > 5 ∨ (matrixData.headD []).length > 5
  · rw [if_pos h3] at hok
    exact Except.noConfusion hok
  rw [if_neg h3] at hok
  have hrect : ∀ row ∈ matrixData,
      row.length = (matrixData.headD []).length := by
    rw [not_not, List.all_eq_true] at h2
    intro row hrow
    exact of_decide_eq_true (h2 row hrow)
  have hwf : (mkMat matrixData).WF := mkMat_wf hrect hred
  injection hok with hok
  subst hok
  have hcols : (mkMat matrixData).cols = (matrixData.headD []).length := rfl
  have hrows : (mkMat matrixData).rows = matrixData.length := rfl
  have hrk : (computeRREF (mkMat matrixData) trackOperations).pivots.length
      = (computeRREF (mkMat matrixData) false).pivots.length := rfl
  refine ⟨?_, ?_, ?_, ?_, ?_, ?_, ?_⟩
  · exact computeColumnSpace_length (mkMat matrixData)
  · exact computeRowSpace_length (mkMat matrixData) hwf
  · exact computeNullSpace_length (mkMat matrixData) hwf
  · exact computeLeftNullSpace_length (mkMat matrixData) hwf
  · exact rank_le_cols (mkMat matrixData) hwf
  · exact rank_le_rows (mkMat matrixData) hwf
  · show dimensionCheckValid (computeColumnSpace (mkMat matrixData)).length
      (computeRowSpace (mkMat matrixData)).length
      (computeNullSpace (mkMat matrixData)).length
      (computeLeftNullSpace (mkMat matrixData)).length
      (computeRREF (mkMat matrixData) trackOperations).pivots.length
      matrixData.length (matrixData.headD []).length = true
    unfold dimensionCheckValid
    rw [decide_eq_true_eq]
    have e1 := computeColumnSpace_length (mkMat matrixData)
    have e2 := computeRowSpace_length (mkMat matrixData) hwf
    have e3 := computeNullSpace_length (mkMat matrixData) hwf
    have e4 := computeLeftNullSpace_length (mkMat matrixData) hwf
    have e5 := rank_le_cols (mkMat matrixData) hwf
    have e6 := rank_le_rows (mkMat matrixData) hwf
    rw [hrk, hcols] at *
    refine ⟨e1, e2, ?_, ?_⟩
    · rw [e3]
      rw [hcols] at e5
      omega
    · rw [e4]
      rw [hrows] at e6
      omega

/-- Witness for C1 at the concrete 1×1 matrix `[[1]]`. -/
theorem c1_dimension_theorem_witness :
    ((∀ row ∈ [[(⟨1, 1⟩ : Frac)]], ∀ x ∈ row, x.Reduced) ∧
      computeAllSpaces [[(⟨1, 1⟩ : Frac)]] false
        = .ok ⟨1, 1, 1, ⟨[[⟨1, 1⟩]], 1, 1⟩, [0], ⟨[[⟨1, 1⟩]], 1⟩,
            ⟨[[⟨1, 1⟩]], 1⟩, ⟨[], 0⟩, ⟨[], 0⟩, true, none⟩) ∧
    ((⟨1, 1, 1, ⟨[[⟨1, 1⟩]], 1, 1⟩, [0], ⟨[[⟨1, 1⟩]], 1⟩, ⟨[[⟨1, 1⟩]], 1⟩,
        ⟨[], 0⟩, ⟨[], 0⟩, true, none⟩ : Report).column_space.dimension
        = (⟨1, 1, 1, ⟨[[⟨1, 1⟩]], 1, 1⟩, [0], ⟨[[⟨1, 1⟩]], 1⟩,
          ⟨[[⟨1, 1⟩]], 1⟩, ⟨[], 0⟩, ⟨[], 0⟩, true, none⟩ : Report).rank ∧
      (⟨1, 1, 1, ⟨[[⟨1, 1⟩]], 1, 1⟩, [0], ⟨[[⟨1, 1⟩]], 1⟩, ⟨[[⟨1, 1⟩]], 1⟩,
        ⟨[], 0⟩, ⟨[], 0⟩, true, none⟩ : Report).row_space.dimension
        = (⟨1, 1, 1, ⟨[[⟨1, 1⟩]], 1, 1⟩, [0], ⟨[[⟨1, 1⟩]], 1⟩,
          ⟨[[⟨1, 1⟩]], 1⟩, ⟨[], 0⟩, ⟨[], 0⟩, true, none⟩ : Report).rank ∧
      (⟨1, 1, 1, ⟨[[⟨1, 1⟩]], 1, 1⟩, [0], ⟨[[⟨1, 1⟩]], 1⟩, ⟨[[⟨1, 1⟩]], 1⟩,
        ⟨[], 0⟩, ⟨[], 0⟩, true, none⟩ : Report).null_space.dimension
        = (⟨1, 1, 1, ⟨[[⟨1, 1⟩]], 1, 1⟩, [0], ⟨[[⟨1, 1⟩]], 1⟩,
            ⟨[[⟨1, 1⟩]], 1⟩, ⟨[], 0⟩, ⟨[], 0⟩, true, none⟩ : Report).cols
          - (⟨1, 1, 1, ⟨[[⟨1, 1⟩]], 1, 1⟩, [0], ⟨[[⟨1, 1⟩]], 1⟩,
            ⟨[[⟨1, 1⟩]], 1⟩, ⟨[], 0⟩, ⟨[], 0⟩, true, none⟩ : Report).rank ∧
      (⟨1, 1, 1, ⟨[[⟨1, 1⟩]], 1, 1⟩, [0], ⟨[[⟨1, 1⟩]], 1⟩, ⟨[[⟨1, 1⟩]], 1⟩,
        ⟨[], 0⟩, ⟨[], 0⟩, true, none⟩ : Report).left_null_space.dimension
        = (⟨1, 1, 1, ⟨[[⟨1, 1⟩]], 1, 1⟩, [0], ⟨[[⟨1, 1⟩]], 1⟩,
            ⟨[[⟨1, 1⟩]], 1⟩, ⟨[], 0⟩, ⟨[], 0⟩, true, none⟩ : Report).rows
          - (⟨1, 1, 1, ⟨[[⟨1, 1⟩]], 1, 1⟩, [0], ⟨[[⟨1, 1⟩]], 1⟩,
            ⟨[[⟨1, 1⟩]], 1⟩, ⟨[], 0⟩, ⟨[], 0⟩, true, none⟩ : Report).rank ∧
      (⟨1, 1, 1, ⟨[[⟨1, 1⟩]], 1, 1⟩, [0], ⟨[[⟨1, 1⟩]], 1⟩, ⟨[[⟨1, 1⟩]], 1⟩,
        ⟨[], 0⟩, ⟨[], 0⟩, true, none⟩ : Report).rank
        ≤ (⟨1, 1, 1, ⟨[[⟨1, 1⟩]], 1, 1⟩, [0], ⟨[[⟨1, 1⟩]], 1⟩,
          ⟨[[⟨1, 1⟩]], 1⟩, ⟨[], 0⟩, ⟨[], 0⟩, true, none⟩ : Report).cols ∧
      (⟨1, 1, 1, ⟨[[⟨1, 1⟩]], 1, 1⟩, [0], ⟨[[⟨1, 1⟩]], 1⟩, ⟨[[⟨1, 1⟩]], 1⟩,
        ⟨[], 0⟩, ⟨[], 0⟩, true, none⟩ : Report).rank
        ≤ (⟨1, 1, 1, ⟨[[⟨1, 1⟩]], 1, 1⟩, [0], ⟨[[⟨1, 1⟩]], 1⟩,
          ⟨[[⟨1, 1⟩]], 1⟩, ⟨[], 0⟩, ⟨[], 0⟩, true, none⟩ : Report).rows ∧
      (⟨1, 1, 1, ⟨[[⟨1, 1⟩]], 1, 1⟩, [0], ⟨[[⟨1, 1⟩]], 1⟩, ⟨[[⟨1, 1⟩]], 1⟩,
        ⟨[], 0⟩, ⟨[], 0⟩, true, none⟩ : Report).dimension_check_valid
        = true) :=
  ⟨⟨by decide, by rfl⟩,
    c1_dimension_theorem [[(⟨1, 1⟩ : Frac)]] false
      ⟨1, 1, 1, ⟨[[⟨1, 1⟩]], 1, 1⟩, [0], ⟨[[⟨1, 1⟩]], 1⟩, ⟨[[⟨1, 1⟩]], 1⟩,
        ⟨[], 0⟩, ⟨[], 0⟩, true, none⟩ (by decide) (by rfl)⟩

/-! ## Exactness of the null-space basis vectors (C2) -/

/-- The running sum of `nullSpaceRowSum` is reduced and equals the exact
rational sum of the products. -/
theorem fold_add_mul_toQ (g h : Nat → Frac) (hg : ∀ j, (g j).Reduced)
    (hh : ∀ j, (h j).Reduced) :
    ∀ (l : List Nat) (acc : Frac), acc.Reduced →
      (l.foldl (fun s j => s.add ((g j).mul (h j))) acc).Reduced ∧
      (l.foldl (fun s j => s.add ((g j).mul (h j))) acc).toQ
        = acc.toQ + (l.map (fun j => (g j).toQ * (h j).toQ)).sum
  | [], acc, hacc => ⟨hacc, by simp⟩
  | j :: t, acc, hacc => by
    rw [List.foldl_cons]
    have hmul : ((g j).mul (h j)).Reduced :=
      Frac.mul_reduced (hg j).den_ne (hh j).den_ne
    have hacc' : (acc.add ((g j).mul (h j))).Reduced :=
      Frac.add_reduced hacc.den_ne hmul.den_ne
    obtain ⟨h1, h2⟩ := fold_add_mul_toQ g h hg hh t _ hacc'
    refine ⟨h1, ?_⟩
    rw [h2, Frac.toQ_add hacc.den_ne hmul.den_ne,
      Frac.toQ_mul (hg j).den_ne (hh j).den_ne, List.map_cons, List.sum_cons]
    ring

theorem nullSpaceRowSum_spec (rref : Mat) (hwf : rref.WF) (i : Nat)
    (vec : List Frac) (hvec : ∀ c, (vec.getD c Frac.zero).Reduced)
    (pivotCol n : Nat) :
    (nullSpaceRowSum rref i vec pivotCol n).Reduced ∧
    (nullSpaceRowSum rref i vec pivotCol n).toQ
      = ((List.range' (pivotCol + 1) (n - (pivotCol + 1))).map
        (fun j => (rref.get i j).toQ * (vec.getD j Frac.zero).toQ)).sum := by
  obtain ⟨h1, h2⟩ := fold_add_mul_toQ (fun j => rref.get i j)
    (fun j => vec.getD j Frac.zero) (fun j => Mat.get_reduced_all hwf i j)
    hvec (List.range' (pivotCol + 1) (n - (pivotCol + 1))) Frac.zero
    (by decide)
  refine ⟨h1, ?_⟩
  unfold nullSpaceRowSum
  rw [h2, Frac.toQ_zero, zero_add]

/-- The tail of the back-substitution, starting at pivot row `s` (the
rows `s, s+1, …` have already been processed when the fold reaches the
result of this value). -/
def backSubChain (rref : Mat) (pivots : List Nat) (n : Nat) (v0 : List Frac)
    (s : Nat) : List Frac :=
  (List.range' s (pivots.length - s)).foldr (backSubStep rref pivots n) v0

theorem nullBasisVector_eq_chain (rref : Mat) (pivots : List Nat)
    (n freeVar : Nat) :
    nullBasisVector rref pivots n freeVar
      = backSubChain rref pivots n
        ((List.replicate n Frac.zero).set freeVar Frac.one) 0 := by
  simp only [nullBasisVector, backSubChain]
  rw [List.range_eq_range', Nat.sub_zero]

theorem foldr_backSub_length (rref : Mat) (pivots : List Nat) (n : Nat) :
    ∀ (l : List Nat) (v : List Frac),
      (l.foldr (backSubStep rref pivots n) v).length = v.length
  | [], _ => rfl
  | i :: t, v => by
    rw [List.foldr_cons]
    show ((t.foldr (backSubStep rref pivots n) v).set (pivots.getD i 0)
      (nullSpaceRowSum rref i (t.foldr (backSubStep rref pivots n) v)
        (pivots.getD i 0) n).neg).length = v.length
    rw [List.length_set]
    exact foldr_backSub_length rref pivots n t v

theorem foldr_backSub_reduced (rref : Mat) (hwf : rref.WF) (pivots : List Nat)
    (n : Nat) :
    ∀ (l : List Nat) (v : List Frac),
      (∀ c, (v.getD c Frac.zero).Reduced) →
      ∀ c, ((l.foldr (backSubStep rref pivots n) v).getD c Frac.zero).Reduced
  | [], _, hv, c => hv c
  | i :: t, v, hv, c => by
    rw [List.foldr_cons]
    have hrec := foldr_backSub_reduced rref hwf pivots n t v hv
    have hsum := (nullSpaceRowSum_spec rref hwf i
      (t.foldr (backSubStep rref pivots n) v) hrec (pivots.getD i 0) n).1
    show (((t.foldr (backSubStep rref pivots n) v).set (pivots.getD i 0)
      (nullSpaceRowSum rref i (t.foldr (backSubStep rref pivots n) v)
        (pivots.getD i 0) n).neg).getD c Frac.zero).Reduced
    by_cases hc : pivots.getD i 0 = c
    · by_cases hlt : pivots.getD i 0
          < (t.foldr (backSubStep rref pivots n) v).length
      · rw [← hc, getD_set_self _ _ hlt]
        exact Frac.neg_reduced hsum.den_ne
      · rw [List.set_eq_of_length_le (by omega)]
        exact hrec c
    · rw [getD_set_ne _ _ hc]
      exact hrec c

theorem foldr_backSub_untouched (rref : Mat) (pivots : List Nat) (n : Nat) :
    ∀ (l : List Nat) (v : List Frac) (c : Nat),
      (∀ i ∈ l, pivots.getD i 0 ≠ c) →
      (l.foldr (backSubStep rref pivots n) v).getD c Frac.zero
        = v.getD c Frac.zero
  | [], _, _, _ => rfl
  | i :: t, v, c, hl => by
    rw [List.foldr_cons]
    show ((t.foldr (backSubStep rref pivots n) v).set (pivots.getD i 0)
      (nullSpaceRowSum rref i (t.foldr (backSubStep rref pivots n) v)
        (pivots.getD i 0) n).neg).getD c Frac.zero = v.getD c Frac.zero
    rw [getD_set_ne _ _ (hl i (List.mem_cons_self i t))]
    exact foldr_backSub_untouched rref pivots n t v c
      (fun i' hi' => hl i' (List.mem_cons_of_mem _ hi'))

theorem backSubChain_decompose (rref : Mat) (pivots : List Nat) (n : Nat)
    (v0 : List Frac) {s t : Nat} (hst : s ≤ t) (ht : t ≤ pivots.length) :
    backSubChain rref pivots n v0 s
      = (List.range' s (t - s)).foldr (backSubStep rref pivots n)
        (backSubChain rref pivots n v0 t) := by
  unfold backSubChain
  rw [← List.foldr_append]
  congr 1
  have h1 := List.range'_append_1 s (t - s) (pivots.length - t)
  have h2 : s + (t - s) = t := by omega
  have h3 : pivots.length - t + (t - s) = pivots.length - s := by omega
  rw [h2, h3] at h1
  exact h1.symm

theorem backSubChain_step (rref : Mat) (pivots : List Nat) (n : Nat)
    (v0 : List Frac) {s : Nat} (hs : s < pivots.length) :
    backSubChain rref pivots n v0 s
      = backSubStep rref pivots n s (backSubChain rref pivots n v0 (s + 1)) := by
  have h := backSubChain_decompose rref pivots n v0
    (show s ≤ s + 1 by omega) hs
  have h2 : s + 1 - s = 1 := by omega
  rw [h2] at h
  rw [h]
  rfl

theorem pairwise_getD_lt {P : List Nat} (hs : P.Pairwise (· < ·)) {i j : Nat}
    (hij : i < j) (hj : j < P.length) : P.getD i 0 < P.getD j 0 := by
  rw [List.pairwise_iff_getElem] at hs
  have h := hs i j (by omega) hj hij
  rw [List.getD_eq_getElem?_getD,
    List.getElem?_eq_getElem (show i < P.length by omega),
    List.getD_eq_getElem?_getD, List.getElem?_eq_getElem hj]
  exact h

theorem getD_replicate {α : Type} (n c : Nat) (a : α) :
    (List.replicate n a).getD c a = a := by
  rw [List.getD_eq_getElem?_getD, List.getElem?_replicate]
  by_cases h : c < n
  · rw [if_pos h]
    rfl
  · rw [if_neg h]
    rfl

theorem v0_entry_reduced (n f c : Nat) :
    ((((List.replicate n Frac.zero).set f Frac.one)).getD c
      Frac.zero).Reduced := by
  by_cases hfc : f = c
  · subst hfc
    by_cases hfn : f < n
    · rw [getD_set_self _ _ (by simpa using hfn)]
      decide
    · rw [List.set_eq_of_length_le (by simpa using hfn)]
      rw [getD_replicate]
      decide
  · rw [getD_set_ne _ _ hfc, getD_replicate]
    decide

theorem backSubChain_pivot_value (rref : Mat) (pivots : List Nat) (n : Nat)
    (v0 : List Frac) (hv0 : v0.length = n) {s : Nat} (hs : s < pivots.length)
    (hpn : pivots.getD s 0 < n) :
    (backSubChain rref pivots n v0 s).getD (pivots.getD s 0) Frac.zero
      = (nullSpaceRowSum rref s (backSubChain rref pivots n v0 (s + 1))
        (pivots.getD s 0) n).neg := by
  rw [backSubChain_step rref pivots n v0 hs]
  show ((backSubChain rref pivots n v0 (s + 1)).set (pivots.getD s 0)
    (nullSpaceRowSum rref s (backSubChain rref pivots n v0 (s + 1))
      (pivots.getD s 0) n).neg).getD (pivots.getD s 0) Frac.zero = _
  refine getD_set_self _ _ ?_
  show pivots.getD s 0 < (backSubChain rref pivots n v0 (s + 1)).length
  unfold backSubChain
  rw [foldr_backSub_length, hv0]
  exact hpn

theorem backSubChain_stable (rref : Mat) (pivots : List Nat) (n : Nat)
    (v0 : List Frac) {s t : Nat} (hst : s ≤ t) (ht : t ≤ pivots.length)
    (c : Nat) (hc : ∀ i, s ≤ i → i < t → pivots.getD i 0 ≠ c) :
    (backSubChain rref pivots n v0 s).getD c Frac.zero
      = (backSubChain rref pivots n v0 t).getD c Frac.zero := by
  rw [backSubChain_decompose rref pivots n v0 hst ht]
  refine foldr_backSub_untouched rref pivots n _ _ c ?_
  intro i hi
  rw [List.mem_range'_1] at hi
  exact hc i (by omega) (by omega)

theorem backSubChain_entry_reduced (rref : Mat) (hwf : rref.WF)
    (pivots : List Nat) (n : Nat) (v0 : List Frac)
    (hv0 : ∀ c, (v0.getD c Frac.zero).Reduced) (s c : Nat) :
    ((backSubChain rref pivots n v0 s).getD c Frac.zero).Reduced :=
  foldr_backSub_reduced rref hwf pivots n _ v0 hv0 c

/-- For the final state of the elimination and its pivot list, the dot
product of every matrix row with every back-substituted null-space basis
vector is exactly zero. -/
theorem finalRow_dot_nullVec (A : Mat) (hA : A.WF) (f : Nat)
    (r : Nat) (hr : r < A.rows) :
    ((List.range A.cols).map (fun c =>
      (((List.range A.cols).foldl rrefStep ⟨A, [], 0, []⟩).m.get r c).toQ
        * ((nullBasisVector
            ((List.range A.cols).foldl rrefStep ⟨A, [], 0, []⟩).m
            ((List.range A.cols).foldl rrefStep ⟨A, [], 0, []⟩).pivots
            A.cols f).getD c Frac.zero).toQ)).sum = 0 := by
  have inv := rrefFold_loopInv A hA A.cols (le_refl _)
  set F := (List.range A.cols).foldl rrefStep ⟨A, [], 0, []⟩ with hFdef
  set v0 := (List.replicate A.cols Frac.zero).set f Frac.one with hv0def
  have hv0len : v0.length = A.cols := by
    rw [hv0def, List.length_set, List.length_replicate]
  have hv0red : ∀ c, (v0.getD c Frac.zero).Reduced := fun c =>
    v0_entry_reduced A.cols f c
  have hxdef : nullBasisVector F.m F.pivots A.cols f
      = backSubChain F.m F.pivots A.cols v0 0 :=
    nullBasisVector_eq_chain F.m F.pivots A.cols f
  rw [hxdef]
  have hmono : ∀ i j, i ≤ j → j < F.pivots.length →
      F.pivots.getD i 0 ≤ F.pivots.getD j 0 := by
    intro i j hij hj
    rcases Nat.lt_or_ge i j with h | h
    · exact le_of_lt (pairwise_getD_lt inv.piv_sorted h hj)
    · have : i = j := by omega
      rw [this]
  have hchain_red : ∀ s c,
      ((backSubChain F.m F.pivots A.cols v0 s).getD c Frac.zero).Reduced :=
    backSubChain_entry_reduced F.m inv.wf F.pivots A.cols v0 hv0red
  by_cases hrk : r < F.cur
  · -- a pivot row: split the column sum at the pivot column
    have hrplen : r < F.pivots.length := by rw [inv.pivlen]; exact hrk
    have hPr : F.pivots.getD r 0 < A.cols :=
      inv.piv_lt _ (getD_mem hrplen 0)
    -- the value of the basis vector at this pivot column
    have hstep1 : (backSubChain F.m F.pivots A.cols v0 0).getD
        (F.pivots.getD r 0) Frac.zero
        = (backSubChain F.m F.pivots A.cols v0 r).getD
          (F.pivots.getD r 0) Frac.zero := by
      refine backSubChain_stable F.m F.pivots A.cols v0 (Nat.zero_le r)
        (by omega) _ ?_
      intro i _ hir
      exact Nat.ne_of_lt (pairwise_getD_lt inv.piv_sorted hir hrplen)
    have hstep2 := backSubChain_pivot_value F.m F.pivots A.cols v0 hv0len
      hrplen hPr
    have hsum := nullSpaceRowSum_spec F.m inv.wf r
      (backSubChain F.m F.pivots A.cols v0 (r + 1))
      (fun c => hchain_red (r + 1) c) (F.pivots.getD r 0) A.cols
    have htailcong : (List.range' (F.pivots.getD r 0 + 1)
          (A.cols - (F.pivots.getD r 0 + 1))).map
          (fun j => (F.m.get r j).toQ
            * ((backSubChain F.m F.pivots A.cols v0 (r + 1)).getD j
              Frac.zero).toQ)
        = (List.range' (F.pivots.getD r 0 + 1)
          (A.cols - (F.pivots.getD r 0 + 1))).map
          (fun j => (F.m.get r j).toQ
            * ((backSubChain F.m F.pivots A.cols v0 0).getD j
              Frac.zero).toQ) := by
      refine List.map_congr_left ?_
      intro j hj
      rw [List.mem_range'_1] at hj
      have hjs : (backSubChain F.m F.pivots A.cols v0 (r + 1)).getD j
          Frac.zero
          = (backSubChain F.m F.pivots A.cols v0 0).getD j Frac.zero := by
        symm
        refine backSubChain_stable F.m F.pivots A.cols v0 (Nat.zero_le _)
          (by omega) _ ?_
        intro i _ hir1
        have : F.pivots.getD i 0 ≤ F.pivots.getD r 0 :=
          hmono i r (by omega) hrplen
        omega
      rw [hjs]
    have hxPr : ((backSubChain F.m F.pivots A.cols v0 0).getD
        (F.pivots.getD r 0) Frac.zero).toQ
        = -(((List.range' (F.pivots.getD r 0 + 1)
          (A.cols - (F.pivots.getD r 0 + 1))).map
          (fun j => (F.m.get r j).toQ
            * ((backSubChain F.m F.pivots A.cols v0 0).getD j
              Frac.zero).toQ)).sum) := by
      rw [hstep1, hstep2, Frac.toQ_neg hsum.1.den_ne, hsum.2, htailcong]
    -- split the full column range at the pivot column
    have hsplit : List.range A.cols
        = List.range' 0 (F.pivots.getD r 0)
          ++ F.pivots.getD r 0
            :: List.range' (F.pivots.getD r 0 + 1)
              (A.cols - (F.pivots.getD r 0 + 1)) := by
      rw [List.range_eq_range']
      have h1 := List.range'_append_1 0 (F.pivots.getD r 0)
        (A.cols - F.pivots.getD r 0)
      rw [Nat.zero_add] at h1
      have h2 : A.cols - F.pivots.getD r 0 + F.pivots.getD r 0 = A.cols := by
        omega
      rw [h2] at h1
      rw [← h1]
      congr 1
      have h3 : A.cols - F.pivots.getD r 0
          = (A.cols - (F.pivots.getD r 0 + 1)) + 1 := by omega
      rw [h3, List.range'_succ]
    rw [hsplit, List.map_append, List.sum_append, List.map_cons,
      List.sum_cons]
    have hhead : ((List.range' 0 (F.pivots.getD r 0)).map (fun c =>
        (F.m.get r c).toQ
          * ((backSubChain F.m F.pivots A.cols v0 0).getD c
            Frac.zero).toQ)).sum = 0 := by
      refine List.sum_eq_zero ?_
      intro q hq
      rcases List.mem_map.mp hq with ⟨c, hc, rfl⟩
      rw [List.mem_range'_1] at hc
      rw [inv.s3 r hrk c (by omega), zero_mul]
    have hpivone : (F.m.get r (F.pivots.getD r 0)).toQ = 1 := inv.s1 r hrk
    rw [hhead, hpivone, one_mul, hxPr]
    ring
  · -- a zero row of the reduced matrix
    refine List.sum_eq_zero ?_
    intro q hq
    rcases List.mem_map.mp hq with ⟨c, hc, rfl⟩
    rw [List.mem_range] at hc
    rw [inv.s4 r (by omega) hr c hc, zero_mul]

/-- The linear functional "dot product with a fixed vector". -/
def dotQ (n : Nat) (xq : Fin n → ℚ) : (Fin n → ℚ) →ₗ[ℚ] ℚ where
  toFun := fun v => ∑ j, v j * xq j
  map_add' := by
    intro a b
    simp [add_mul, Finset.sum_add_distrib]
  map_smul' := by
    intro c a
    simp [Finset.mul_sum, mul_assoc]

theorem list_range_map_sum (f : Nat → ℚ) (n : Nat) :
    ((List.range n).map f).sum = ∑ j : Fin n, f j := by
  rw [Fin.sum_univ_eq_sum_range]
  induction n with
  | zero => rfl
  | succ n ih =>
    rw [List.range_succ, List.map_append, List.sum_append,
      Finset.sum_range_succ, ih]
    simp

theorem rowSpan_le_ker_dot (A : Mat) (hA : A.WF) (f : Nat) :
    rowSpanQ A.cols ((List.range A.cols).foldl rrefStep ⟨A, [], 0, []⟩).m
      ≤ LinearMap.ker (dotQ A.cols (fun j =>
        ((nullBasisVector
          ((List.range A.cols).foldl rrefStep ⟨A, [], 0, []⟩).m
          ((List.range A.cols).foldl rrefStep ⟨A, [], 0, []⟩).pivots A.cols
          f).getD j Frac.zero).toQ)) := by
  have inv := rrefFold_loopInv A hA A.cols (le_refl _)
  rw [rowSpanQ, Submodule.span_le]
  intro x hx
  rcases List.mem_map.mp hx with ⟨row, hrow, hxe⟩
  rcases List.mem_iff_getElem.mp hrow with ⟨i, hi, hie⟩
  have hiA : i < A.rows := by
    have h1 := inv.wf.1
    have h2 := inv.rows_eq
    omega
  have hgetrow : ((List.range A.cols).foldl rrefStep
      ⟨A, [], 0, []⟩).m.data.getD i [] = row := by
    rw [List.getD_eq_getElem?_getD, List.getElem?_eq_getElem hi, hie]
    rfl
  rw [SetLike.mem_coe, LinearMap.mem_ker]
  show (∑ j : Fin A.cols, x j
    * ((nullBasisVector
      ((List.range A.cols).foldl rrefStep ⟨A, [], 0, []⟩).m
      ((List.range A.cols).foldl rrefStep ⟨A, [], 0, []⟩).pivots A.cols
      f).getD j Frac.zero).toQ) = 0
  have hterm : ∀ j : Fin A.cols, x j
      * ((nullBasisVector
        ((List.range A.cols).foldl rrefStep ⟨A, [], 0, []⟩).m
        ((List.range A.cols).foldl rrefStep ⟨A, [], 0, []⟩).pivots A.cols
        f).getD j Frac.zero).toQ
      = (fun c => (((List.range A.cols).foldl rrefStep
          ⟨A, [], 0, []⟩).m.get i c).toQ
        * ((nullBasisVector
          ((List.range A.cols).foldl rrefStep ⟨A, [], 0, []⟩).m
          ((List.range A.cols).foldl rrefStep ⟨A, [], 0, []⟩).pivots A.cols
          f).getD c Frac.zero).toQ) (j : Nat) := by
    intro j
    have hrowval : x j = (((List.range A.cols).foldl rrefStep
        ⟨A, [], 0, []⟩).m.get i (j : Nat)).toQ := by
      rw [← hxe]
      show (row.getD (j : Nat) Frac.zero).toQ = _
      rw [Mat.get, hgetrow]
    rw [hrowval]
  rw [Finset.sum_congr rfl (fun j _ => hterm j)]
  have hls := list_range_map_sum (fun c => (((List.range A.cols).foldl
      rrefStep ⟨A, [], 0, []⟩).m.get i c).toQ
    * ((nullBasisVector
      ((List.range A.cols).foldl rrefStep ⟨A, [], 0, []⟩).m
      ((List.range A.cols).foldl rrefStep ⟨A, [], 0, []⟩).pivots A.cols
      f).getD c Frac.zero).toQ) A.cols
  rw [← hls]
  exact finalRow_dot_nullVec A hA f i hiA

/-- C2: every basis vector `x` returned by `computeNullSpace` satisfies
`A · x = 0` exactly: for every row `r` of the input matrix, the sum of
the exact rational products of the row entries with the corresponding
entries of `x` is the rational number 0. -/
theorem c2_null_space_vectors_exact (A : Mat) (hA : A.WF)
    {x : List Frac} (hx : x ∈ computeNullSpace A)
    (r : Nat) (hr : r < A.rows) :
    ((List.range A.cols).map (fun c =>
      (A.get r c).toQ * (x.getD c Frac.zero).toQ)).sum = 0 := by
  simp only [computeNullSpace] at hx
  rcases List.mem_map.mp hx with ⟨f, hfmem, rfl⟩
  have inv := rrefFold_loopInv A hA A.cols (le_refl _)
  have hRe : (computeRREF A false).rref
      = ((List.range A.cols).foldl rrefStep ⟨A, [], 0, []⟩).m := rfl
  have hPe : (computeRREF A false).pivots
      = ((List.range A.cols).foldl rrefStep ⟨A, [], 0, []⟩).pivots := rfl
  rw [hRe, hPe]
  have hker := rowSpan_le_ker_dot A hA f
  have hrowmem : rowVec A.cols (A.data.getD r [])
      ∈ rowSpanQ A.cols
        ((List.range A.cols).foldl rrefStep ⟨A, [], 0, []⟩).m := by
    rw [inv.span]
    have h1 : (A.data.map (rowVec A.cols)).getD r 0
        = rowVec A.cols (A.data.getD r []) := map_rowVec_getD _ _ _
    have h2 : (A.data.map (rowVec A.cols)).getD r 0
        ∈ A.data.map (rowVec A.cols) := by
      refine getD_mem ?_ 0
      rw [List.length_map, hA.1]
      exact hr
    rw [h1] at h2
    exact Submodule.subset_span h2
  have h0 := LinearMap.mem_ker.mp (hker hrowmem)
  have hterm : ∀ j : Fin A.cols, rowVec A.cols (A.data.getD r []) j
      * ((nullBasisVector
        ((List.range A.cols).foldl rrefStep ⟨A, [], 0, []⟩).m
        ((List.range A.cols).foldl rrefStep ⟨A, [], 0, []⟩).pivots A.cols
        f).getD j Frac.zero).toQ
      = (fun c => (A.get r c).toQ
        * ((nullBasisVector
          ((List.range A.cols).foldl rrefStep ⟨A, [], 0, []⟩).m
          ((List.range A.cols).foldl rrefStep ⟨A, [], 0, []⟩).pivots A.cols
          f).getD c Frac.zero).toQ) (j : Nat) := fun j => rfl
  have hsum : (∑ j : Fin A.cols, rowVec A.cols (A.data.getD r []) j
      * ((nullBasisVector
        ((List.range A.cols).foldl rrefStep ⟨A, [], 0, []⟩).m
        ((List.range A.cols).foldl rrefStep ⟨A, [], 0, []⟩).pivots A.cols
        f).getD j Frac.zero).toQ) = 0 := h0
  rw [Finset.sum_congr rfl (fun j _ => hterm j)] at hsum
  have hls := list_range_map_sum (fun c => (A.get r c).toQ
    * ((nullBasisVector
      ((List.range A.cols).foldl rrefStep ⟨A, [], 0, []⟩).m
      ((List.range A.cols).foldl rrefStep ⟨A, [], 0, []⟩).pivots A.cols
      f).getD c Frac.zero).toQ) A.cols
  rw [← hls] at hsum
  exact hsum

/-- Witness for C2 at the concrete 1×2 matrix `[[1, 2]]`, whose null
space has the single basis vector `(-2, 1)`. -/
theorem c2_null_space_vectors_exact_witness :
    ((mkMat [[(⟨1, 1⟩ : Frac), ⟨2, 1⟩]]).WF ∧
      [(⟨-2, 1⟩ : Frac), ⟨1, 1⟩]
        ∈ computeNullSpace (mkMat [[(⟨1, 1⟩ : Frac), ⟨2, 1⟩]]) ∧
      0 < (mkMat [[(⟨1, 1⟩ : Frac), ⟨2, 1⟩]]).rows) ∧
    ((List.range (mkMat [[(⟨1, 1⟩ : Frac), ⟨2, 1⟩]]).cols).map (fun c =>
      ((mkMat [[(⟨1, 1⟩ : Frac), ⟨2, 1⟩]]).get 0 c).toQ
        * (([(⟨-2, 1⟩ : Frac), ⟨1, 1⟩]).getD c Frac.zero).toQ)).sum = 0 :=
  ⟨⟨by decide, by decide, by decide⟩,
    c2_null_space_vectors_exact (mkMat [[(⟨1, 1⟩ : Frac), ⟨2, 1⟩]])
      (by decide) (by decide) 0 (by decide)⟩

end Spaces
